import Mathlib

/-!
# terraform-wrapper: verification of the core orchestration engine

A shallow embedding, in Lean 4, of the parts of the `terraform-wrapper`
repository that the specification's claims are about:

* the stack dependency graph and its topological sort
  (`internal/graph/graph.go`);
* the layered executor's per-stack dispatch and plan cache
  (`internal/executor/run.go`, `internal/executor/apply.go`,
  `internal/executor/plan.go`);
* the IaC runner's invocation contract (`internal/stacks`);
* the orchestration lock protocol (`internal/lock/lock.go`);
* the version lock file (`internal/versioning`);
* the superplan snapshot rewrite (`internal/superplan/run.go`).

Go strings are modelled as their sequence of runes (`List Char`); Go maps
produced by `encoding/json` are modelled as association lists with unique
keys; file system and subprocess effects are modelled by explicit oracle
records and by traces of the invocations a function performs.  Library
functions from the Go standard library (SHA-256, RFC3339 parsing, the
Unicode tables) are abstracted by parameters or partially modelled where
the doc comment of the definition says so; everything else is translated
directly from the repository's source.
-/

namespace TW

/-- A Go string, modelled as its sequence of runes. -/
abbrev GoStr := List Char

/-- Models Go `unicode.IsLetter` for code points up to U+00FF: ASCII letters
plus the Latin-1 letters (ª, µ, º, À–Ö, Ø–ö, ø–ÿ).  Every concrete input in
this development lies in that range; above U+00FF the real Unicode tables
would have to be consulted. -/
def goIsLetter (c : Char) : Bool :=
  (('A' ≤ c && c ≤ 'Z') || ('a' ≤ c && c ≤ 'z')) ||
  (c.toNat == 0xAA || c.toNat == 0xB5 || c.toNat == 0xBA) ||
  (0xC0 ≤ c.toNat && c.toNat ≤ 0xFF && c.toNat != 0xD7 && c.toNat != 0xF7)

/-- Models Go `unicode.IsDigit` for code points up to U+00FF: the only
decimal digits in that range are the ASCII digits. -/
def goIsDigit (c : Char) : Bool :=
  '0' ≤ c && c ≤ '9'

/-! ## `internal/superplan/run.go`: `sanitizeIdentifier` and the prefix assignment -/

/-- One step of the rune loop of `sanitizeIdentifier`: a rune is kept when it
is a Unicode letter, a Unicode digit or an underscore, and replaced by an
underscore otherwise. -/
def sanitizeRune (r : Char) : Char :=
  if goIsLetter r || goIsDigit r || r == '_' then r else '_'

/-- `sanitizeIdentifier` from `internal/superplan/run.go`.  The
`strings.Builder` loop is rendered as a left fold.  Go inspects
`unicode.IsDigit(rune(result[0]))` on the first *byte* of the result; for a
single-byte first rune that byte is the rune itself, and for a multi-byte
first rune the leading UTF-8 byte is in 0xC2–0xF4 and decodes to a Latin-1
code point that is never a digit, so the test is equivalent to the first
rune being an ASCII digit. -/
def sanitizeIdentifier (name : GoStr) : GoStr :=
  if name = [] then []
  else
    let result := name.foldl (fun acc r => acc ++ [sanitizeRune r]) []
    match result with
    | [] => []
    | c :: _ => if goIsDigit c then '_' :: result else result

/-- Decimal digits of a natural number, as Go `fmt.Sprintf("%d", n)` prints
it. -/
def natDigits (n : Nat) : GoStr := (Nat.repr n).data

/-- The prefix assignment in `superplan.Run` (lines 179–189): sanitize the
directory basename and fall back to `stack_<index>` when the result is
empty. -/
def runStackName (base : GoStr) (idx : Nat) : GoStr :=
  let stackName := sanitizeIdentifier base
  if stackName = [] then "stack_".data ++ natDigits idx else stackName

/-- The prefix rule exactly as claim C5 states it: replace every rune that is
not in `[A-Za-z0-9_]` with an underscore, prepend an underscore when the
result begins with a digit, and substitute `stack_<index>` when the result
is empty. -/
def claimStackName (base : GoStr) (idx : Nat) : GoStr :=
  let r := base.map (fun c => if c.isAlpha || c.isDigit || c == '_' then c else '_')
  let r := match r with
           | [] => []
           | c :: _ => if c.isDigit then '_' :: r else r
  if r = [] then "stack_".data ++ natDigits idx else r

/-- The amended prefix rule: as claim C5, but keeping every Unicode letter or
digit (not only ASCII ones), and prepending an underscore when the result
begins with an ASCII digit. -/
def amendedStackName (base : GoStr) (idx : Nat) : GoStr :=
  let r := base.map sanitizeRune
  let r := match r with
           | [] => []
           | c :: _ => if goIsDigit c then '_' :: r else r
  if r = [] then "stack_".data ++ natDigits idx else r

lemma foldl_append_singleton (f : Char → Char) (l : List Char) (acc : List Char) :
    l.foldl (fun acc r => acc ++ [f r]) acc = acc ++ l.map f := by
  induction l generalizing acc with
  | nil => simp
  | cons x xs ih => simp [List.foldl_cons, ih]

lemma sanitizeIdentifier_eq_map (name : GoStr) :
    sanitizeIdentifier name =
      match name.map sanitizeRune with
      | [] => []
      | c :: r => if goIsDigit c then '_' :: c :: r else c :: r := by
  unfold sanitizeIdentifier
  rcases name with _ | ⟨x, xs⟩
  · simp
  · simp [foldl_append_singleton]

/-- C5 (amended): for every directory basename, the stack prefix is obtained
by replacing every rune that is not a Unicode letter, Unicode digit or
underscore with an underscore, prepending an underscore when the result
begins with an ASCII digit, and substituting `stack_<index>` when the result
is empty. -/
theorem C5_theorem (base : GoStr) (idx : Nat) :
    runStackName base idx = amendedStackName base idx := by
  unfold runStackName amendedStackName
  rw [sanitizeIdentifier_eq_map]
  rcases h : base.map sanitizeRune with _ | ⟨c, r⟩ <;> simp

/-- C5 (counterexample): on the basename `é` the code keeps the rune (it is a
Unicode letter), while the claim's `[A-Za-z0-9_]` rule would replace it with
an underscore. -/
theorem C5_counterexample :
    runStackName ['é'] 0 = ['é'] ∧ claimStackName ['é'] 0 = ['_'] ∧
      runStackName ['é'] 0 ≠ claimStackName ['é'] 0 := by decide

/-! ## The IaC runner (`internal/stacks`, file `runner.go`) -/

/-- `filepath.Join` of two components.  The Go function additionally cleans
the result lexically, which is the identity on the already-clean paths the
engine builds. -/
def pathJoin (a b : GoStr) : GoStr := a ++ '/' :: b

/-- `filepath.Base`: strip trailing slashes and keep the part after the last
remaining slash; empty input gives `.` and an all-slash input gives `/`. -/
def goBase (p : GoStr) : GoStr :=
  if p = [] then ['.']
  else
    let q := (p.reverse.dropWhile (· == '/')).reverse
    if q = [] then ['/']
    else (q.reverse.takeWhile (· != '/')).reverse

/-- The `stacks.Runner` configuration. -/
structure Runner where
  terraformPath : GoStr
  root : GoStr
  environment : GoStr
  accountID : GoStr
  region : GoStr
  disableRefresh : Bool
deriving DecidableEq, Repr

/-- `stacks.VarFiles`: the global, environment and stack-local variable
files, each included only when present.  `fileExists` abstracts the
`os.Stat` check of the `fileExists` helper. -/
def VarFiles (fileExists : GoStr → Bool) (root stackDir environment : GoStr) : List GoStr :=
  let global := pathJoin root "globals.tfvars".data
  let envFile := pathJoin (pathJoin root "environment".data) (environment ++ ".tfvars".data)
  let stackFile := pathJoin (pathJoin stackDir "tfvars".data) (environment ++ ".tfvars".data)
  (if fileExists global then [global] else []) ++
    (if fileExists envFile then [envFile] else []) ++
    (if fileExists stackFile then [stackFile] else [])

/-- `Runner.backendConfig`: the derived backend configuration, as the
key/value pairs the runner passes to `terraform init`. -/
def backendConfig (r : Runner) (stackDir : GoStr) : List (GoStr × GoStr) :=
  let stackName := goBase stackDir
  let stateKey := r.environment ++ '/' :: stackName ++ "/terraform.tfstate".data
  let bucket := r.accountID ++ '-' :: r.region ++ "-state".data
  [("bucket".data, bucket), ("key".data, stateKey),
   ("region".data, r.region), ("encrypt".data, "true".data)]

/-- A `tfexec.PlanOption`, as the runner can construct it. -/
inductive PlanOpt where
  | out (path : GoStr)
  | refresh (enabled : Bool)
  | varFile (file : GoStr)
  | lockFlag (enabled : Bool)
deriving DecidableEq, Repr

/-- One invocation the runner performs on the IaC tool. -/
inductive RunnerCall where
  | initCall (dir : GoStr) (upgrade : Bool) (backend : List (GoStr × GoStr))
  | planCall (dir : GoStr) (opts : List PlanOpt)
deriving DecidableEq, Repr

/-- `Runner.planOptions`: `-refresh=false` only when refresh is disabled,
then one `-var-file` per variable file. -/
def planOptions (r : Runner) (fileExists : GoStr → Bool) (stackDir : GoStr) : List PlanOpt :=
  (if r.disableRefresh then [PlanOpt.refresh false] else []) ++
    (VarFiles fileExists r.root stackDir r.environment).map PlanOpt.varFile

/-- `Runner.PlanWithOutput`: init (with upgrade and the derived backend
configuration), then plan with the output path prepended to `planOptions`.
The result is the trace of IaC tool invocations. -/
def PlanWithOutput (r : Runner) (fileExists : GoStr → Bool) (stackDir planPath : GoStr) :
    List RunnerCall :=
  [RunnerCall.initCall stackDir true (backendConfig r stackDir),
   RunnerCall.planCall stackDir (PlanOpt.out planPath :: planOptions r fileExists stackDir)]

/-- C6 (amended): `PlanWithOutput` runs init and then plan with the given
output path, refresh according to the options, and every variable file
returned for the stack — but it passes no `-lock` flag at all, so the state
lock is left at its default (enabled). -/
theorem C6_theorem (r : Runner) (fileExists : GoStr → Bool) (stackDir planPath : GoStr) :
    ∃ opts,
      PlanWithOutput r fileExists stackDir planPath =
        [RunnerCall.initCall stackDir true (backendConfig r stackDir),
         RunnerCall.planCall stackDir opts] ∧
      opts.head? = some (PlanOpt.out planPath) ∧
      ((PlanOpt.refresh false) ∈ opts ↔ r.disableRefresh) ∧
      (∀ vf ∈ VarFiles fileExists r.root stackDir r.environment, PlanOpt.varFile vf ∈ opts) ∧
      (∀ b, PlanOpt.lockFlag b ∉ opts) := by
  refine ⟨PlanOpt.out planPath :: planOptions r fileExists stackDir, rfl, rfl, ?_, ?_, ?_⟩
  · constructor
    · intro h
      rcases List.mem_cons.mp h with h | h
      · cases h
      · unfold planOptions at h
        rcases List.mem_append.mp h with h | h
        · by_contra hd
          simp [hd] at h
        · rcases List.mem_map.mp h with ⟨vf, _, hvf⟩
          cases hvf
    · intro h
      refine List.mem_cons.mpr (Or.inr ?_)
      unfold planOptions
      exact List.mem_append.mpr (Or.inl (by simp [h]))
  · intro vf hvf
    refine List.mem_cons.mpr (Or.inr ?_)
    unfold planOptions
    exact List.mem_append.mpr (Or.inr (List.mem_map.mpr ⟨vf, hvf, rfl⟩))
  · intro b h
    rcases List.mem_cons.mp h with h | h
    · cases h
    · unfold planOptions at h
      rcases List.mem_append.mp h with h | h
      · rcases r.disableRefresh with _ | _ <;> simp_all
      · rcases List.mem_map.mp h with ⟨vf, _, hvf⟩
        cases hvf

/-- C6 (counterexample): for a concrete runner and stack, the plan options
are exactly the output path — no `-lock=false` option is passed, so the
claim's "state lock disabled" part fails on the code. -/
theorem C6_counterexample :
    PlanWithOutput ⟨"tf".data, "/r".data, "dev".data, "123".data, "eu-west-2".data, false⟩
        (fun _ => false) "/r/s".data "/tmp/plan.out".data =
      [RunnerCall.initCall "/r/s".data true
          (backendConfig ⟨"tf".data, "/r".data, "dev".data, "123".data, "eu-west-2".data, false⟩
            "/r/s".data),
       RunnerCall.planCall "/r/s".data [PlanOpt.out "/tmp/plan.out".data]] ∧
      PlanOpt.lockFlag false ∉ [PlanOpt.out "/tmp/plan.out".data] := by
  constructor
  · rfl
  · decide

/-! ## The orchestration lock (`internal/lock/lock.go`)

Instants are modelled as integer nanoseconds since Go's zero time (January 1
of year 1, UTC), so the zero `time.Time` is `0`.  `time.Since` saturates at
the maximum representable `time.Duration`, exactly as `time.Time.Sub`
documents. -/

/-- `lock.LockedExitCode`. -/
def lockedExitCode : Nat := 65

/-- `lock.LockedError`: the structured error returned when an environment is
locked by another actor. -/
structure LockedError where
  env : GoStr
  owner : GoStr
  command : GoStr
  timestamp : Int
deriving DecidableEq, Repr

/-- `LockedError.ExitCode`. -/
def LockedError.exitCode (_ : LockedError) : Nat := lockedExitCode

/-- The maximum Go `time.Duration`, 2^63 − 1 nanoseconds (about 292 years). -/
def maxDuration : Int := 2 ^ 63 - 1

/-- `time.Since(createdAt)` evaluated at instant `now`: the difference,
saturating at the maximum (or minimum) representable `time.Duration`. -/
def timeSince (now createdAt : Int) : Int :=
  if now - createdAt > maxDuration then maxDuration
  else if now - createdAt < -(maxDuration + 1) then -(maxDuration + 1)
  else now - createdAt

/-- `lock.normalizeMetadata`: lower-case every metadata key (modelled for
ASCII keys, which is what S3 user metadata keys are). -/
def normalizeMetadata (meta : List (GoStr × GoStr)) : List (GoStr × GoStr) :=
  meta.map (fun p => (p.1.map Char.toLower, p.2))

/-- Go map lookup with the zero-value default: the first binding of `k`, or
the empty string when `k` is absent. -/
def metaGet (meta : List (GoStr × GoStr)) (k : GoStr) : GoStr :=
  match meta.find? (fun p => p.1 == k) with
  | some p => p.2
  | none => []

/-- The `OrchestrationLock` configuration fields read by `Acquire`, after
the validation prelude. -/
structure LockConfig where
  bucket : GoStr
  env : GoStr
  owner : GoStr
  command : GoStr
  ttl : Int
  pollInterval : Int
deriving DecidableEq, Repr

/-- `defaultTTL` (one hour, in nanoseconds). -/
def defaultTTL : Int := 3600 * 1000000000

/-- `defaultPoll` (fifteen seconds, in nanoseconds). -/
def defaultPoll : Int := 15 * 1000000000

/-- The TTL / poll-interval defaulting at the top of `Acquire`. -/
def applyLockDefaults (cfg : LockConfig) : LockConfig :=
  { cfg with
    ttl := if cfg.ttl ≤ 0 then defaultTTL else cfg.ttl
    pollInterval := if cfg.pollInterval ≤ 0 then defaultPoll else cfg.pollInterval }

/-- Result of the conditional `PutObject` (`If-None-Match: *`). -/
inductive PutResult where
  | created
  | preconditionFailed
  | otherError (msg : GoStr)
deriving DecidableEq, Repr

/-- Result of the `HeadObject` used to inspect an existing lock. -/
inductive HeadResult where
  | meta (m : List (GoStr × GoStr))
  | headError (msg : GoStr)
deriving DecidableEq, Repr

/-- What one iteration of the `Acquire` retry loop does. -/
inductive AcquireOutcome where
  | acquired
  | putFailed (msg : GoStr)
  | headFailed (msg : GoStr)
  /-- Stale lock: warn, `DeleteObject` the key, and continue the loop;
  the flag records whether a short pause precedes the retry (`!force && wait`). -/
  | staleRetry (sleptBeforeRetry : Bool)
  /-- Lock held and `wait` is set: sleep the poll interval, then retry. -/
  | waitRetry
  | locked (e : LockedError)
deriving DecidableEq, Repr

/-- One iteration of the retry loop of `OrchestrationLock.Acquire` (lines
115–182).  `parse` abstracts `time.Parse(time.RFC3339, ·)`; Go returns the
zero time alongside a parse error and the code ignores the error, so a
failed parse contributes the instant `0`.  `put` and `head` are the store's
responses in this iteration, and `now` the current instant. -/
def acquireIter (parse : GoStr → Option Int) (cfg : LockConfig) (wait force : Bool)
    (put : PutResult) (head : HeadResult) (now : Int) : AcquireOutcome :=
  match put with
  | .created => .acquired
  | .otherError m => .putFailed m
  | .preconditionFailed =>
    match head with
    | .headError m => .headFailed m
    | .meta m =>
      let meta := normalizeMetadata m
      let createdAt := (parse (metaGet meta "timestamp".data)).getD 0
      let age := timeSince now createdAt
      if age > cfg.ttl then .staleRetry (!force && wait)
      else if wait then .waitRetry
      else
        .locked
          { env := cfg.env
            owner := metaGet meta "owner".data
            command := metaGet meta "command".data
            timestamp := createdAt }

/-- C7: when the lock is already held (`PutObject` hits the precondition),
the holder's metadata is readable, the lock's age does not exceed the TTL,
and `wait` is false, `Acquire` fails with a structured `LockedError`
carrying the environment and the holder's owner, command and timestamp
metadata — and that error's exit code is 65. -/
theorem C7_theorem (parse : GoStr → Option Int) (cfg : LockConfig) (force : Bool)
    (m : List (GoStr × GoStr)) (now : Int)
    (hage : timeSince now ((parse (metaGet (normalizeMetadata m) "timestamp".data)).getD 0)
      ≤ cfg.ttl) :
    acquireIter parse cfg false force .preconditionFailed (.meta m) now =
      .locked
        { env := cfg.env
          owner := metaGet (normalizeMetadata m) "owner".data
          command := metaGet (normalizeMetadata m) "command".data
          timestamp := (parse (metaGet (normalizeMetadata m) "timestamp".data)).getD 0 } ∧
    LockedError.exitCode
        { env := cfg.env
          owner := metaGet (normalizeMetadata m) "owner".data
          command := metaGet (normalizeMetadata m) "command".data
          timestamp := (parse (metaGet (normalizeMetadata m) "timestamp".data)).getD 0 } = 65 := by
  refine ⟨?_, rfl⟩
  unfold acquireIter
  simp only [if_neg (not_lt.mpr hage), if_neg Bool.false_ne_true]

/-- C7 (witness): a concrete held lock, fresher than the TTL, with
`wait=false`. -/
theorem C7_witness :
    timeSince 100 ((((fun _ => none) : GoStr → Option Int)
        (metaGet (normalizeMetadata [("Owner".data, "ci-job".data)]) "timestamp".data)).getD 0)
      ≤ (⟨"b".data, "dev".data, "me".data, [], defaultTTL, defaultPoll⟩ : LockConfig).ttl ∧
    acquireIter (fun _ => none) ⟨"b".data, "dev".data, "me".data, [], defaultTTL, defaultPoll⟩
        false false .preconditionFailed (.meta [("Owner".data, "ci-job".data)]) 100 =
      .locked
        { env := "dev".data
          owner := metaGet (normalizeMetadata [("Owner".data, "ci-job".data)]) "owner".data
          command := []
          timestamp := 0 } := by
  have h : timeSince 100 ((((fun _ => none) : GoStr → Option Int)
      (metaGet (normalizeMetadata [("Owner".data, "ci-job".data)]) "timestamp".data)).getD 0)
      ≤ (⟨"b".data, "dev".data, "me".data, [], defaultTTL, defaultPoll⟩ : LockConfig).ttl := by
    decide
  refine ⟨h, ?_⟩
  have := C7_theorem (fun _ => none)
    ⟨"b".data, "dev".data, "me".data, [], defaultTTL, defaultPoll⟩
    false [("Owner".data, "ci-job".data)] 100 h
  exact this.1

/-- C10: when the held lock's timestamp metadata does not parse (it is
missing or malformed), `Acquire` computes the age from the zero time; for a
real clock (past the maximum `time.Duration` after year 1) and any TTL below
the maximum duration this classifies the lock as stale, so the iteration
deletes the object and retries — it never returns a `LockedError`. -/
theorem C10_theorem (parse : GoStr → Option Int) (cfg : LockConfig) (wait force : Bool)
    (m : List (GoStr × GoStr)) (now : Int)
    (hparse : parse (metaGet (normalizeMetadata m) "timestamp".data) = none)
    (hnow : maxDuration ≤ now) (httl : cfg.ttl < maxDuration) :
    acquireIter parse cfg wait force .preconditionFailed (.meta m) now =
      .staleRetry (!force && wait) ∧
    ∀ e, acquireIter parse cfg wait force .preconditionFailed (.meta m) now ≠ .locked e := by
  have hzero : ((parse (metaGet (normalizeMetadata m) "timestamp".data)).getD 0) = 0 := by
    rw [hparse]; rfl
  have hage : timeSince now 0 > cfg.ttl := by
    unfold timeSince
    rcases lt_or_ge maxDuration (now - 0) with hgt | hle
    · rw [if_pos hgt]; exact httl
    · have heq : now - 0 = maxDuration := le_antisymm (by simpa using hle) (by simpa using hnow)
      rw [heq]
      have hmax : ¬ (maxDuration > maxDuration) := lt_irrefl _
      rw [if_neg hmax, if_neg (by unfold maxDuration; omega)]
      exact httl
  have hres : acquireIter parse cfg wait force .preconditionFailed (.meta m) now =
      .staleRetry (!force && wait) := by
    simp only [acquireIter, hparse, Option.getD_none]
    rw [if_pos hage]
  exact ⟨hres, fun e he => by rw [hres] at he; cases he⟩

/-- C10 (witness): a concrete lock object with unparseable timestamp
metadata at a realistic clock instant. -/
theorem C10_witness :
    (((fun _ => none) : GoStr → Option Int)
        (metaGet (normalizeMetadata [("owner".data, "ci".data)]) "timestamp".data) = none) ∧
    maxDuration ≤ maxDuration ∧
    (⟨"b".data, "dev".data, "me".data, [], defaultTTL, defaultPoll⟩ : LockConfig).ttl
      < maxDuration ∧
    acquireIter (fun _ => none) ⟨"b".data, "dev".data, "me".data, [], defaultTTL, defaultPoll⟩
        false false .preconditionFailed (.meta [("owner".data, "ci".data)]) maxDuration =
      .staleRetry false := by
  refine ⟨rfl, le_refl _, by decide, ?_⟩
  exact (C10_theorem (fun _ => none)
    ⟨"b".data, "dev".data, "me".data, [], defaultTTL, defaultPoll⟩
    false false [("owner".data, "ci".data)] maxDuration rfl (le_refl _) (by decide)).1

/-! ## The executor (`internal/executor`)

`executeStack` and `planStack` from `run.go` are embedded as functions of an
oracle that answers the file-system reads and stands in for the per-job
`runner` interface double, returning the status, the updated in-memory
plan-hash map, and the trace of runner/cache effects the call performed. -/

/-- `graph.Stack`. -/
structure Stack where
  path : GoStr
  dependencies : List GoStr
  skipDestroy : Bool
deriving DecidableEq, Repr

/-- `executor.Operation`. -/
inductive Operation where
  | initOp
  | plan
  | apply
  | destroy
deriving DecidableEq, Repr

/-- `executor.ResultStatus`. -/
inductive ResultStatus where
  | executed
  | cached
  | skipped
deriving DecidableEq, Repr

/-- The fields of `executor.Options` used by the per-stack execution path. -/
structure ExecOptions where
  rootDir : GoStr
  environment : GoStr
  accountID : GoStr
  region : GoStr
  terraformPath : GoStr
  terraformVersion : GoStr
  parallelism : Int
  useCache : Bool
  forceStacks : List GoStr
  disableRefresh : Bool
deriving DecidableEq, Repr

/-- `Options.IsForced`: membership of the stack's relative path in the
forced-stack set (a Go map, modelled as a list of keys). -/
def ExecOptions.isForced (o : ExecOptions) (rel : GoStr) : Bool :=
  o.forceStacks.contains rel

/-- `cache.PlanDir`. -/
def PlanDir (root env rel : GoStr) : GoStr :=
  pathJoin (pathJoin (pathJoin (pathJoin root ".terraform-wrapper".data) "cache".data) env) rel

/-- `cache.PlanFiles`: the plan artifact and fingerprint paths. -/
def PlanFiles (root env rel : GoStr) : GoStr × GoStr :=
  (pathJoin (PlanDir root env rel) "plan.tfplan".data,
   pathJoin (PlanDir root env rel) "plan.hash".data)

/-- `filepath.Dir`: the path up to the final slash (Go additionally cleans
the result, the identity on the already-clean paths built here). -/
def goDir (p : GoStr) : GoStr :=
  if p.contains '/' then (p.reverse.dropWhile (· != '/')).reverse.dropLast else ['.']

/-- Lexicographic (bytewise) string order, as `sort.Strings` compares. -/
def strLe : GoStr → GoStr → Bool
  | [], _ => true
  | _ :: _, [] => false
  | a :: as, b :: bs => if a = b then strLe as bs else decide (a < b)

/-- `cache.ComputeHash`: SHA-256 over the byte content of the files in
sorted-path order.  `sha` abstracts the SHA-256 digest of a byte stream and
`readFile` the content of each file (an error aborts the hash). -/
def ComputeHash (sha : List Nat → List Nat) (readFile : GoStr → Except GoStr (List Nat))
    (files : List GoStr) : Except GoStr (List Nat) := do
  let sorted := files.mergeSort strLe
  let datas ← sorted.mapM readFile
  pure (sha datas.flatten)

/-- An effect of the per-stack execution path (a runner invocation or a
cache write). -/
inductive ExecAction where
  | applyAction (dir : GoStr)
  | destroyAction (dir : GoStr)
  | initAction (dir : GoStr) (upgrade : Bool)
  | planAction (dir : GoStr) (outPath : GoStr)
  | saveHashAction (path : GoStr) (hash : List Nat)
deriving DecidableEq, Repr

/-- The oracle answering the executor's file-system reads and the outcomes
of the runner double obtained from `newRunner` for the job. -/
structure ExecOracle where
  /-- `newRunner`: `some` error message when constructing the runner fails. -/
  newRunnerErr : Option GoStr
  /-- `runner.VarFilesFor`. -/
  varFilesFor : GoStr → List GoStr
  /-- `cache.StackContentFiles` before appending the extras: the `.tf` and
  `.tfvars` files found walking the stack directory (skipping `.terraform`). -/
  walkContentFiles : GoStr → Except GoStr (List GoStr)
  /-- Byte content of a file, for `cache.ComputeHash`. -/
  readFile : GoStr → Except GoStr (List Nat)
  /-- `cache.LoadHash`: the stored fingerprint at a path, or a read error. -/
  loadHash : GoStr → Except GoStr (List Nat)
  /-- `os.Stat` on the plan artifact succeeds. -/
  planFileStat : GoStr → Bool
  /-- `ensureDir`: `some` error when creating a directory fails. -/
  ensureDirErr : GoStr → Option GoStr
  /-- `runner.PlanWithOutput` outcome. -/
  planErr : GoStr → GoStr → Option GoStr
  /-- `cache.SaveHash` outcome. -/
  saveHashErr : GoStr → List Nat → Option GoStr
  /-- `runner.Apply` outcome. -/
  applyErr : GoStr → Option GoStr
  /-- `runner.Destroy` outcome. -/
  destroyErr : GoStr → Option GoStr
  /-- `runner.InitOnly` outcome. -/
  initErr : GoStr → Option GoStr

/-- `executor.getPlanHash` on the in-memory plan-hash map (a Go map under a
mutex, modelled as an association list); a missing stack yields `none`
(Go's `nil`). -/
def getPlanHash (hashes : List (GoStr × List Nat)) (stackPath : GoStr) : Option (List Nat) :=
  (hashes.find? (fun q => q.1 == stackPath)).map (·.2)

/-- `executor.setPlanHash`: insert or overwrite the stack's fingerprint. -/
def setPlanHash (hashes : List (GoStr × List Nat)) (stackPath : GoStr) (h : List Nat) :
    List (GoStr × List Nat) :=
  if (hashes.find? (fun q => q.1 == stackPath)).isSome then
    hashes.map (fun q => if q.1 == stackPath then (q.1, h) else q)
  else hashes ++ [(stackPath, h)]

/-- The loop of `planStack` composing the final fingerprint input: write the
base digest, then each direct dependency's fingerprint when the in-memory
map has one, skipping missing entries. -/
def composeHashInput (baseHash : List Nat) (deps : List GoStr)
    (hashes : List (GoStr × List Nat)) : List Nat :=
  deps.foldl
    (fun acc dep =>
      match getPlanHash hashes dep with
      | some depHash => acc ++ depHash
      | none => acc)
    baseHash

/-- Result of one per-stack execution: the status (or error), the updated
plan-hash map, and the trace of effects. -/
structure PlanStepResult where
  result : Except GoStr ResultStatus
  planHashes : List (GoStr × List Nat)
  actions : List ExecAction
deriving Repr

/-- The fall-through tail of `planStack` (run.go 294–306): ensure the cache
directory, invoke `PlanWithOutput`, persist the fingerprint, record it in
the plan-hash map and report `executed`. -/
def planStackExecute (o : ExecOracle) (hashes : List (GoStr × List Nat)) (stack : Stack)
    (planPath hashPath : GoStr) (hashBytes : List Nat) : PlanStepResult :=
  match o.ensureDirErr (goDir planPath) with
  | some e => ⟨.error e, hashes, []⟩
  | none =>
    match o.planErr stack.path planPath with
    | some e => ⟨.error e, hashes, [.planAction stack.path planPath]⟩
    | none =>
      match o.saveHashErr hashPath hashBytes with
      | some e =>
        ⟨.error e, hashes,
         [.planAction stack.path planPath, .saveHashAction hashPath hashBytes]⟩
      | none =>
        ⟨.ok .executed, setPlanHash hashes stack.path hashBytes,
         [.planAction stack.path planPath, .saveHashAction hashPath hashBytes]⟩

/-- `executor.planStack` (run.go 258–307): compute the base fingerprint,
compose it with the direct dependencies' fingerprints, consult the plan
cache when enabled and the stack is not forced, and otherwise plan and
persist the new fingerprint. -/
def planStack (sha : List Nat → List Nat) (o : ExecOracle) (opts : ExecOptions)
    (hashes : List (GoStr × List Nat)) (stack : Stack) (rel : GoStr) : PlanStepResult :=
  let varFiles := o.varFilesFor stack.path
  match o.walkContentFiles stack.path with
  | .error e => ⟨.error e, hashes, []⟩
  | .ok walked =>
    match ComputeHash sha o.readFile (walked ++ varFiles) with
    | .error e => ⟨.error e, hashes, []⟩
    | .ok baseHash =>
      let hashBytes := sha (composeHashInput baseHash stack.dependencies hashes)
      let planPath := (PlanFiles opts.rootDir opts.environment rel).1
      let hashPath := (PlanFiles opts.rootDir opts.environment rel).2
      if opts.useCache && !(opts.isForced rel) then
        match o.loadHash hashPath with
        | .ok cachedHash =>
          if cachedHash == hashBytes then
            if o.planFileStat planPath then
              ⟨.ok .cached, setPlanHash hashes stack.path cachedHash, []⟩
            else planStackExecute o hashes stack planPath hashPath hashBytes
          else planStackExecute o hashes stack planPath hashPath hashBytes
        | .error _ => planStackExecute o hashes stack planPath hashPath hashBytes
      else planStackExecute o hashes stack planPath hashPath hashBytes

/-- `executor.executeStack` (run.go 231–256): obtain a runner for the job
and dispatch on the operation.  Apply, destroy and init call straight
through; plan goes to `planStack`.  No field of the stack other than its
path and dependencies is consulted. -/
def executeStack (sha : List Nat → List Nat) (o : ExecOracle) (opts : ExecOptions)
    (hashes : List (GoStr × List Nat)) (stack : Stack) (rel : GoStr) (op : Operation) :
    PlanStepResult :=
  match o.newRunnerErr with
  | some e => ⟨.error e, hashes, []⟩
  | none =>
    match op with
    | .plan => planStack sha o opts hashes stack rel
    | .apply =>
      ⟨match o.applyErr stack.path with
        | some e => .error e
        | none => .ok .executed,
       hashes, [.applyAction stack.path]⟩
    | .destroy =>
      ⟨match o.destroyErr stack.path with
        | some e => .error e
        | none => .ok .executed,
       hashes, [.destroyAction stack.path]⟩
    | .initOp =>
      ⟨match o.initErr stack.path with
        | some e => .error e
        | none => .ok .executed,
       hashes, [.initAction stack.path true]⟩

/-- `executor.DestroyAll` disables the cache and runs every stack with the
destroy operation; per stack this is `executeStack` with `.destroy`. -/
def destroyAllOp : Operation := .destroy

/-- C1 (code behaviour at the failing input): for every stack whose
`skipDestroy` flag is true, the destroy dispatch still invokes the runner's
Destroy on the stack and never reports the `skipped` status — the flag is
not consulted, contradicting the claim. -/
theorem C1_code_behavior (sha : List Nat → List Nat) (o : ExecOracle) (opts : ExecOptions)
    (hashes : List (GoStr × List Nat)) (p : GoStr) (deps : List GoStr) (rel : GoStr)
    (hrunner : o.newRunnerErr = none) :
    (executeStack sha o opts hashes ⟨p, deps, true⟩ rel destroyAllOp).actions
        = [ExecAction.destroyAction p] ∧
    (executeStack sha o opts hashes ⟨p, deps, true⟩ rel destroyAllOp).result
        ≠ .ok .skipped := by
  unfold executeStack destroyAllOp
  rw [hrunner]
  refine ⟨rfl, ?_⟩
  cases h : o.destroyErr p <;> simp [h]

/-- C1 (witness): a concrete stack marked `skip_when_destroying` is
destroyed anyway. -/
theorem C1_code_behavior_witness :
    (⟨none, fun _ => [], fun _ => .ok [], fun _ => .ok [], fun _ => .error [],
      fun _ => false, fun _ => none, fun _ _ => none, fun _ _ => none,
      fun _ => none, fun _ => none, fun _ => none⟩ : ExecOracle).newRunnerErr = none ∧
    (executeStack (fun l => l)
        ⟨none, fun _ => [], fun _ => .ok [], fun _ => .ok [], fun _ => .error [],
         fun _ => false, fun _ => none, fun _ _ => none, fun _ _ => none,
         fun _ => none, fun _ => none, fun _ => none⟩
        ⟨"/r".data, "dev".data, "1".data, "eu".data, "tf".data, [], 4, false, [], false⟩
        [] ⟨"/r/s".data, [], true⟩ "s".data destroyAllOp).actions
      = [ExecAction.destroyAction "/r/s".data] := by
  refine ⟨rfl, ?_⟩
  exact (C1_code_behavior (fun l => l)
    ⟨none, fun _ => [], fun _ => .ok [], fun _ => .ok [], fun _ => .error [],
     fun _ => false, fun _ => none, fun _ _ => none, fun _ _ => none,
     fun _ => none, fun _ => none, fun _ => none⟩
    ⟨"/r".data, "dev".data, "1".data, "eu".data, "tf".data, [], 4, false, [], false⟩
    [] "/r/s".data [] "s".data rfl).1

lemma planStackExecute_success (o : ExecOracle) (hashes : List (GoStr × List Nat))
    (stack : Stack) (planPath hashPath : GoStr) (hashBytes : List Nat)
    (hdir : o.ensureDirErr (goDir planPath) = none)
    (hplan : o.planErr stack.path planPath = none)
    (hsave : o.saveHashErr hashPath hashBytes = none) :
    planStackExecute o hashes stack planPath hashPath hashBytes =
      ⟨.ok .executed, setPlanHash hashes stack.path hashBytes,
       [.planAction stack.path planPath, .saveHashAction hashPath hashBytes]⟩ := by
  unfold planStackExecute
  rw [hdir, hplan, hsave]

/-- C2: with caching enabled and the stack not in the forced set, the plan
step reports a cache hit — status `cached`, no effect performed — exactly
when the stored on-disk fingerprint equals the freshly computed composed
fingerprint and the plan artifact file exists; otherwise (the cache
directory, plan invocation and fingerprint write succeeding) it invokes
Plan with the cache's output path and persists the new fingerprint. -/
theorem C2_theorem (sha : List Nat → List Nat) (o : ExecOracle) (opts : ExecOptions)
    (hashes : List (GoStr × List Nat)) (stack : Stack) (rel : GoStr)
    (walked : List GoStr) (baseHash : List Nat)
    (hcache : opts.useCache = true) (hforce : opts.isForced rel = false)
    (hwalk : o.walkContentFiles stack.path = .ok walked)
    (hhash : ComputeHash sha o.readFile (walked ++ o.varFilesFor stack.path) = .ok baseHash)
    (hdir : o.ensureDirErr (goDir (PlanFiles opts.rootDir opts.environment rel).1) = none)
    (hplan : o.planErr stack.path (PlanFiles opts.rootDir opts.environment rel).1 = none)
    (hsave : o.saveHashErr (PlanFiles opts.rootDir opts.environment rel).2
        (sha (composeHashInput baseHash stack.dependencies hashes)) = none) :
    (((planStack sha o opts hashes stack rel).result = .ok .cached ∧
        (planStack sha o opts hashes stack rel).actions = []) ↔
      (o.loadHash (PlanFiles opts.rootDir opts.environment rel).2 =
          .ok (sha (composeHashInput baseHash stack.dependencies hashes)) ∧
        o.planFileStat (PlanFiles opts.rootDir opts.environment rel).1 = true)) ∧
    (¬ (o.loadHash (PlanFiles opts.rootDir opts.environment rel).2 =
          .ok (sha (composeHashInput baseHash stack.dependencies hashes)) ∧
        o.planFileStat (PlanFiles opts.rootDir opts.environment rel).1 = true) →
      (planStack sha o opts hashes stack rel).result = .ok .executed ∧
        (planStack sha o opts hashes stack rel).actions =
          [.planAction stack.path (PlanFiles opts.rootDir opts.environment rel).1,
           .saveHashAction (PlanFiles opts.rootDir opts.environment rel).2
             (sha (composeHashInput baseHash stack.dependencies hashes))]) := by
  have hexec := planStackExecute_success o hashes stack
    (PlanFiles opts.rootDir opts.environment rel).1
    (PlanFiles opts.rootDir opts.environment rel).2
    (sha (composeHashInput baseHash stack.dependencies hashes)) hdir hplan hsave
  cases hld : o.loadHash (PlanFiles opts.rootDir opts.environment rel).2 with
  | ok cachedHash =>
    have hps : planStack sha o opts hashes stack rel =
        (if cachedHash = sha (composeHashInput baseHash stack.dependencies hashes) then
          if o.planFileStat (PlanFiles opts.rootDir opts.environment rel).1 then
            ⟨.ok .cached, setPlanHash hashes stack.path cachedHash, []⟩
          else
            planStackExecute o hashes stack
              (PlanFiles opts.rootDir opts.environment rel).1
              (PlanFiles opts.rootDir opts.environment rel).2
              (sha (composeHashInput baseHash stack.dependencies hashes))
        else
          planStackExecute o hashes stack
            (PlanFiles opts.rootDir opts.environment rel).1
            (PlanFiles opts.rootDir opts.environment rel).2
            (sha (composeHashInput baseHash stack.dependencies hashes))) := by
      simp [planStack, hwalk, hhash, hcache, hforce, hld]
    by_cases heq : cachedHash = sha (composeHashInput baseHash stack.dependencies hashes)
    · rw [if_pos heq] at hps
      by_cases hst : o.planFileStat (PlanFiles opts.rootDir opts.environment rel).1 = true
      · rw [if_pos hst] at hps
        refine ⟨⟨fun _ => ⟨by rw [heq], hst⟩, fun _ => by rw [hps]; exact ⟨rfl, rfl⟩⟩,
          fun hnot => absurd ⟨by rw [heq], hst⟩ hnot⟩
      · rw [if_neg hst, hexec] at hps
        refine ⟨⟨fun h => ?_, fun h => absurd h.2 hst⟩,
          fun _ => by rw [hps]; exact ⟨rfl, rfl⟩⟩
        rw [hps] at h
        simp at h
    · rw [if_neg heq, hexec] at hps
      refine ⟨⟨fun h => ?_, fun h => absurd (Except.ok.inj h.1) heq⟩,
        fun _ => by rw [hps]; exact ⟨rfl, rfl⟩⟩
      rw [hps] at h
      simp at h
  | error e =>
    have hps : planStack sha o opts hashes stack rel =
        planStackExecute o hashes stack
          (PlanFiles opts.rootDir opts.environment rel).1
          (PlanFiles opts.rootDir opts.environment rel).2
          (sha (composeHashInput baseHash stack.dependencies hashes)) := by
      simp [planStack, hwalk, hhash, hcache, hforce, hld]
    rw [hexec] at hps
    refine ⟨⟨fun h => ?_, fun h => absurd h.1 (by simp)⟩,
      fun _ => by rw [hps]; exact ⟨rfl, rfl⟩⟩
    rw [hps] at h
    simp at h

/-- C2 (witness): a concrete miss — no stored fingerprint — executes the
plan and persists the computed fingerprint. -/
theorem C2_witness :
    (⟨"/r".data, "dev".data, "1".data, "eu".data, "tf".data, [], 4, true, [], false⟩
        : ExecOptions).useCache = true ∧
    (planStack (fun l => l)
        ⟨none, fun _ => [], fun _ => .ok [], fun _ => .ok [], fun _ => .error [],
         fun _ => false, fun _ => none, fun _ _ => none, fun _ _ => none,
         fun _ => none, fun _ => none, fun _ => none⟩
        ⟨"/r".data, "dev".data, "1".data, "eu".data, "tf".data, [], 4, true, [], false⟩
        [] ⟨"/r/s".data, [], false⟩ "s".data).result = .ok .executed := by
  refine ⟨rfl, ?_⟩
  have h := C2_theorem (fun l => l)
    ⟨none, fun _ => [], fun _ => .ok [], fun _ => .ok [], fun _ => .error [],
     fun _ => false, fun _ => none, fun _ _ => none, fun _ _ => none,
     fun _ => none, fun _ => none, fun _ => none⟩
    ⟨"/r".data, "dev".data, "1".data, "eu".data, "tf".data, [], 4, true, [], false⟩
    [] ⟨"/r/s".data, [], false⟩ "s".data [] []
    rfl rfl rfl (by simp [ComputeHash]; rfl) rfl rfl rfl
  exact (h.2 (by rintro ⟨h1, _⟩; simp at h1)).1

lemma composeHashInput_eq_filterMap (hashes : List (GoStr × List Nat)) (deps : List GoStr) :
    ∀ acc : List Nat,
      deps.foldl
          (fun acc dep =>
            match getPlanHash hashes dep with
            | some depHash => acc ++ depHash
            | none => acc)
          acc =
        acc ++ (deps.filterMap (getPlanHash hashes)).flatten := by
  induction deps with
  | nil => intro acc; simp
  | cons d ds ih =>
    intro acc
    rw [List.foldl_cons, List.filterMap_cons]
    cases h : getPlanHash hashes d with
    | none => rw [ih]
    | some dh => rw [ih, List.flatten_cons, List.append_assoc]

/-- C9: the composed plan fingerprint input is the base digest followed by
exactly the direct-dependency fingerprints present in the in-memory map, in
dependency order — a dependency absent from the map is silently skipped —
and `planStack` (here with the cache disabled) reports `executed` and
persists the digest of that input, raising no error for the missing
dependencies. -/
theorem C9_theorem (sha : List Nat → List Nat) (o : ExecOracle) (opts : ExecOptions)
    (hashes : List (GoStr × List Nat)) (stack : Stack) (rel : GoStr)
    (walked : List GoStr) (baseHash : List Nat)
    (hcache : opts.useCache = false)
    (hwalk : o.walkContentFiles stack.path = .ok walked)
    (hhash : ComputeHash sha o.readFile (walked ++ o.varFilesFor stack.path) = .ok baseHash)
    (hdir : o.ensureDirErr (goDir (PlanFiles opts.rootDir opts.environment rel).1) = none)
    (hplan : o.planErr stack.path (PlanFiles opts.rootDir opts.environment rel).1 = none)
    (hsave : o.saveHashErr (PlanFiles opts.rootDir opts.environment rel).2
        (sha (composeHashInput baseHash stack.dependencies hashes)) = none) :
    composeHashInput baseHash stack.dependencies hashes =
      baseHash ++ (stack.dependencies.filterMap (getPlanHash hashes)).flatten ∧
    (planStack sha o opts hashes stack rel).result = .ok .executed ∧
    (planStack sha o opts hashes stack rel).actions =
      [.planAction stack.path (PlanFiles opts.rootDir opts.environment rel).1,
       .saveHashAction (PlanFiles opts.rootDir opts.environment rel).2
         (sha (baseHash ++ (stack.dependencies.filterMap (getPlanHash hashes)).flatten))] := by
  have hcomp : composeHashInput baseHash stack.dependencies hashes =
      baseHash ++ (stack.dependencies.filterMap (getPlanHash hashes)).flatten :=
    composeHashInput_eq_filterMap hashes stack.dependencies baseHash
  have hexec := planStackExecute_success o hashes stack
    (PlanFiles opts.rootDir opts.environment rel).1
    (PlanFiles opts.rootDir opts.environment rel).2
    (sha (composeHashInput baseHash stack.dependencies hashes)) hdir hplan hsave
  have hps : planStack sha o opts hashes stack rel =
      planStackExecute o hashes stack
        (PlanFiles opts.rootDir opts.environment rel).1
        (PlanFiles opts.rootDir opts.environment rel).2
        (sha (composeHashInput baseHash stack.dependencies hashes)) := by
    simp [planStack, hwalk, hhash, hcache]
  rw [hps, hexec, ← hcomp]
  exact ⟨rfl, rfl, rfl⟩

/-- C9 (witness): a stack with two dependencies of which only one has a
recorded fingerprint — the other is skipped and the step succeeds. -/
theorem C9_witness :
    getPlanHash [("/r/a".data, [1, 2])] "/r/b".data = none ∧
    composeHashInput [9] ["/r/a".data, "/r/b".data] [("/r/a".data, [1, 2])] = [9, 1, 2] ∧
    (planStack (fun l => l)
        ⟨none, fun _ => [], fun _ => .ok [], fun _ => .ok [], fun _ => .error [],
         fun _ => false, fun _ => none, fun _ _ => none, fun _ _ => none,
         fun _ => none, fun _ => none, fun _ => none⟩
        ⟨"/r".data, "dev".data, "1".data, "eu".data, "tf".data, [], 4, false, [], false⟩
        [("/r/a".data, [1, 2])] ⟨"/r/s".data, ["/r/a".data, "/r/b".data], false⟩
        "s".data).result = .ok .executed := by
  refine ⟨rfl, ?_, ?_⟩
  · decide
  · exact (C9_theorem (fun l => l)
      ⟨none, fun _ => [], fun _ => .ok [], fun _ => .ok [], fun _ => .error [],
       fun _ => false, fun _ => none, fun _ _ => none, fun _ _ => none,
       fun _ => none, fun _ => none, fun _ => none⟩
      ⟨"/r".data, "dev".data, "1".data, "eu".data, "tf".data, [], 4, false, [], false⟩
      [("/r/a".data, [1, 2])] ⟨"/r/s".data, ["/r/a".data, "/r/b".data], false⟩
      "s".data [] [] rfl rfl (by simp [ComputeHash]; rfl) rfl rfl rfl).2.1

/-! ## The version lock file (`internal/versioning`, file `lockfile.go`)

`LockFile.normalize` cleans every `detected_from` entry with
`filepath.Clean`, drops `.` and empty entries, deduplicates and sorts.  The
string and path helpers it relies on are modelled here over rune lists. -/

/-- `strings.Split` by a single separator rune. -/
def splitSep (sep : Char) : GoStr → List GoStr
  | [] => [[]]
  | c :: rest =>
    if c = sep then [] :: splitSep sep rest
    else
      match splitSep sep rest with
      | [] => [[c]]
      | seg :: segs => (c :: seg) :: segs

/-- `strings.Join` with a single separator rune. -/
def joinSep (sep : Char) : List GoStr → GoStr
  | [] => []
  | [s] => s
  | s :: rest => s ++ sep :: joinSep sep rest

lemma splitSep_nil (sep : Char) : splitSep sep [] = [[]] := rfl

lemma splitSep_ne_nil (sep : Char) (s : GoStr) : splitSep sep s ≠ [] := by
  cases s with
  | nil => simp [splitSep]
  | cons c rest =>
    by_cases h : c = sep
    · simp [splitSep, h]
    · simp only [splitSep, if_neg h]
      cases hs : splitSep sep rest <;> simp

lemma not_mem_of_splitSep (sep : Char) (s : GoStr) :
    ∀ seg ∈ splitSep sep s, sep ∉ seg := by
  induction s with
  | nil =>
    intro seg hseg
    simp [splitSep] at hseg
    subst hseg
    simp
  | cons c rest ih =>
    intro seg hseg
    by_cases h : c = sep
    · rw [splitSep, if_pos h] at hseg
      rcases List.mem_cons.mp hseg with h1 | h1
      · subst h1; simp
      · exact ih seg h1
    · rw [splitSep, if_neg h] at hseg
      cases hs : splitSep sep rest with
      | nil => exact absurd hs (splitSep_ne_nil sep rest)
      | cons seg0 segs =>
        rw [hs] at hseg
        rcases List.mem_cons.mp hseg with h1 | h1
        · subst h1
          intro hmem
          rcases List.mem_cons.mp hmem with h2 | h2
          · exact h h2.symm
          · exact ih seg0 (hs ▸ List.mem_cons_self _ _) h2
        · exact ih seg (hs ▸ List.mem_cons_of_mem _ h1)

lemma splitSep_of_not_mem (sep : Char) (s : GoStr) (h : sep ∉ s) :
    splitSep sep s = [s] := by
  induction s with
  | nil => rfl
  | cons c rest ih =>
    have hc : ¬ c = sep := fun hc => h (hc ▸ List.mem_cons_self _ _)
    have hrest : sep ∉ rest := fun hm => h (List.mem_cons_of_mem _ hm)
    rw [splitSep, if_neg hc, ih hrest]

lemma splitSep_append_sep (sep : Char) (s t : GoStr) (h : sep ∉ s) :
    splitSep sep (s ++ sep :: t) = s :: splitSep sep t := by
  induction s with
  | nil => simp [splitSep]
  | cons c rest ih =>
    have hc : ¬ c = sep := fun hc => h (hc ▸ List.mem_cons_self _ _)
    have hrest : sep ∉ rest := fun hm => h (List.mem_cons_of_mem _ hm)
    rw [List.cons_append, splitSep, if_neg hc, ih hrest]

lemma splitSep_joinSep (sep : Char) (segs : List GoStr) (hne : segs ≠ [])
    (hfree : ∀ seg ∈ segs, sep ∉ seg) :
    splitSep sep (joinSep sep segs) = segs := by
  induction segs with
  | nil => exact absurd rfl hne
  | cons s rest ih =>
    cases rest with
    | nil =>
      rw [joinSep, splitSep_of_not_mem sep s (hfree s (List.mem_cons_self _ _))]
    | cons s2 rest2 =>
      rw [joinSep, splitSep_append_sep sep s _ (hfree s (List.mem_cons_self _ _))]
      rw [ih (by simp) (fun seg hseg => hfree seg (List.mem_cons_of_mem _ hseg))]
      all_goals simp

lemma joinSep_head (sep : Char) (s : GoStr) (rest : List GoStr) (hs : s ≠ []) :
    (joinSep sep (s :: rest)).head? = s.head? := by
  cases rest with
  | nil => rfl
  | cons s2 rest2 =>
    rw [joinSep]
    case x_1 => simp
    cases s with
    | nil => exact absurd rfl hs
    | cons c cs => rfl

lemma joinSep_ne_nil (sep : Char) (s : GoStr) (rest : List GoStr) (hs : s ≠ []) :
    joinSep sep (s :: rest) ≠ [] := by
  cases rest with
  | nil => exact hs
  | cons s2 rest2 =>
    rw [joinSep]
    case x_1 => simp
    cases s with
    | nil => exact absurd rfl hs
    | cons c cs => simp

/-- A plain path element: not empty, not `.`, not `..`, and slash-free. -/
def PlainElem (e : GoStr) : Prop :=
  e ≠ [] ∧ e ≠ ['.'] ∧ e ≠ ['.', '.'] ∧ '/' ∉ e

/-- One element step of the lexical cleaning of `filepath.Clean` (Unix
rules), over a stack of output elements held most-recent-first: empty and
`.` elements vanish, `..` pops a poppable element — when nothing can be
popped it is kept on relative paths and dropped on rooted ones — and any
other element is pushed. -/
def cleanPush (rooted : Bool) (stack : List GoStr) (elem : GoStr) : List GoStr :=
  if elem = [] ∨ elem = ['.'] then stack
  else if elem = ['.', '.'] then
    match stack with
    | [] => if rooted then [] else [['.', '.']]
    | top :: rest => if top = ['.', '.'] then ['.', '.'] :: top :: rest else rest
  else elem :: stack

/-- `filepath.Clean` for slash-separated (Unix) paths: split into elements,
process them left to right, and reassemble; an empty result is `.` (or `/`
when the path was rooted). -/
def goClean (p : GoStr) : GoStr :=
  if p = [] then ['.']
  else
    let rooted := p.head? == some '/'
    let stack := (splitSep '/' p).foldl (cleanPush rooted) []
    let out := joinSep '/' stack.reverse
    if rooted then '/' :: out
    else if out = [] then ['.']
    else out

/-- The shape invariant of the cleaning stack: plain elements atop a run of
`..` markers, the latter only on relative paths. -/
def CleanStackOK (rooted : Bool) (stack : List GoStr) : Prop :=
  ∃ ps ds, stack = ps ++ ds ∧ (∀ e ∈ ps, PlainElem e) ∧
    (∀ e ∈ ds, e = ['.', '.']) ∧ (rooted = true → ds = [])

lemma cleanStackOK_nil (rooted : Bool) : CleanStackOK rooted [] :=
  ⟨[], [], rfl, by simp, by simp, fun _ => rfl⟩

lemma cleanPush_preserves (rooted : Bool) (stack : List GoStr) (elem : GoStr)
    (hst : CleanStackOK rooted stack) (hfree : '/' ∉ elem) :
    CleanStackOK rooted (cleanPush rooted stack elem) := by
  obtain ⟨ps, ds, hshape, hps, hds, hroot⟩ := hst
  by_cases h1 : elem = [] ∨ elem = ['.']
  · rw [cleanPush.eq_def, if_pos h1]
    exact ⟨ps, ds, hshape, hps, hds, hroot⟩
  · by_cases h2 : elem = ['.', '.']
    · rw [cleanPush.eq_def, if_neg h1, if_pos h2]
      cases hpse : ps with
      | cons p0 ps' =>
        have hplain := hps p0 (hpse ▸ List.mem_cons_self _ _)
        have hstack : stack = p0 :: (ps' ++ ds) := by simp [hshape, hpse]
        rw [hstack]
        show CleanStackOK rooted
          (if p0 = ['.', '.'] then ['.', '.'] :: p0 :: (ps' ++ ds) else ps' ++ ds)
        rw [if_neg hplain.2.2.1]
        exact ⟨ps', ds, rfl, fun e he => hps e (hpse ▸ List.mem_cons_of_mem _ he), hds, hroot⟩
      | nil =>
        cases hdse : ds with
        | nil =>
          have hstack : stack = [] := by simp [hshape, hpse, hdse]
          rw [hstack]
          show CleanStackOK rooted (if rooted then [] else [['.', '.']])
          cases rooted with
          | true => exact ⟨[], [], by simp, by simp, by simp, fun _ => rfl⟩
          | false =>
            refine ⟨[], [['.', '.']], by simp, by simp, ?_, ?_⟩
            · intro e he
              simpa using he
            · intro hcontra
              cases hcontra
        | cons d ds' =>
          have hstack : stack = d :: ds' := by simp [hshape, hpse, hdse]
          have hd : d = ['.', '.'] := hds d (hdse ▸ List.mem_cons_self _ _)
          rw [hstack]
          show CleanStackOK rooted (if d = ['.', '.'] then ['.', '.'] :: d :: ds' else ds')
          rw [if_pos hd]
          refine ⟨[], ['.', '.'] :: d :: ds', by simp, by simp, ?_, ?_⟩
          · intro e he
            rcases List.mem_cons.mp he with h | h
            · exact h
            · exact hds e (hdse ▸ h)
          · intro hr
            have hnil := hroot hr
            rw [hdse] at hnil
            cases hnil
    · rw [cleanPush.eq_def, if_neg h1, if_neg h2]
      push_neg at h1
      refine ⟨elem :: ps, ds, by simp [hshape], ?_, hds, hroot⟩
      intro e he
      rcases List.mem_cons.mp he with h | h
      · subst h
        exact ⟨h1.1, h1.2, h2, hfree⟩
      · exact hps e h

lemma foldl_cleanPush_preserves (rooted : Bool) (elems : List GoStr)
    (stack : List GoStr) (hst : CleanStackOK rooted stack)
    (hfree : ∀ e ∈ elems, '/' ∉ e) :
    CleanStackOK rooted (elems.foldl (cleanPush rooted) stack) := by
  induction elems generalizing stack with
  | nil => exact hst
  | cons e es ih =>
    rw [List.foldl_cons]
    exact ih _ (cleanPush_preserves rooted stack e hst (hfree e (List.mem_cons_self _ _)))
      (fun x hx => hfree x (List.mem_cons_of_mem _ hx))

lemma foldl_cleanPush_plains (rooted : Bool) (qs : List GoStr) (acc : List GoStr)
    (hqs : ∀ e ∈ qs, PlainElem e) :
    qs.foldl (cleanPush rooted) acc = qs.reverse ++ acc := by
  induction qs generalizing acc with
  | nil => simp
  | cons q qs' ih =>
    have hq := hqs q (List.mem_cons_self _ _)
    rw [List.foldl_cons]
    have hstep : cleanPush rooted acc q = q :: acc := by
      rw [cleanPush.eq_def, if_neg (by push_neg; exact ⟨hq.1, hq.2.1⟩), if_neg hq.2.2.1]
    rw [hstep, ih _ (fun x hx => hqs x (List.mem_cons_of_mem _ hx))]
    simp

lemma reverse_of_all_eq (l : List GoStr) (a : GoStr) (h : ∀ e ∈ l, e = a) :
    l.reverse = l := by
  have hl : l = List.replicate l.length a := List.eq_replicate_of_mem h
  rw [hl, List.reverse_replicate]

lemma foldl_cleanPush_dots (ds acc : List GoStr) (hds : ∀ e ∈ ds, e = ['.', '.'])
    (hacc : ∀ e ∈ acc, e = ['.', '.']) :
    ds.foldl (cleanPush false) acc = ds.reverse ++ acc := by
  induction ds generalizing acc with
  | nil => simp
  | cons d ds' ih =>
    have hd : d = ['.', '.'] := hds d (List.mem_cons_self _ _)
    have hstep : cleanPush false acc d = d :: acc := by
      subst hd
      rw [cleanPush.eq_def, if_neg (by simp), if_pos rfl]
      cases acc with
      | nil => rfl
      | cons top rest =>
        have htop : top = ['.', '.'] := hacc top (List.mem_cons_self _ _)
        show (if top = ['.', '.'] then ['.', '.'] :: top :: rest else rest) =
          ['.', '.'] :: top :: rest
        rw [if_pos htop]
    rw [List.foldl_cons, hstep,
      ih (d :: acc) (fun e he => hds e (List.mem_cons_of_mem _ he))
        (fun e he => by
          rcases List.mem_cons.mp he with h | h
          · exact h ▸ hd
          · exact hacc e h)]
    simp

lemma refold_cleanStack (rooted : Bool) (stack : List GoStr)
    (hst : CleanStackOK rooted stack) :
    stack.reverse.foldl (cleanPush rooted) [] = stack := by
  obtain ⟨ps, ds, hshape, hps, hds, hroot⟩ := hst
  subst hshape
  rw [List.reverse_append, List.foldl_append]
  cases rooted with
  | true =>
    have hds0 : ds = [] := hroot rfl
    subst hds0
    simp only [List.reverse_nil, List.foldl_nil, List.append_nil]
    rw [foldl_cleanPush_plains true ps.reverse []
      (fun e he => hps e (List.mem_reverse.mp he))]
    simp
  | false =>
    rw [foldl_cleanPush_dots ds.reverse []
      (fun e he => hds e (List.mem_reverse.mp he)) (by simp)]
    simp only [List.reverse_reverse, List.append_nil]
    rw [foldl_cleanPush_plains false ps.reverse ds
      (fun e he => hps e (List.mem_reverse.mp he))]
    simp

lemma cleanStack_elem_free (rooted : Bool) (stack : List GoStr)
    (hst : CleanStackOK rooted stack) :
    ∀ e ∈ stack, e ≠ [] ∧ e ≠ ['.'] ∧ '/' ∉ e := by
  obtain ⟨ps, ds, hshape, hps, hds, _⟩ := hst
  subst hshape
  intro e he
  rcases List.mem_append.mp he with h | h
  · exact ⟨(hps e h).1, (hps e h).2.1, (hps e h).2.2.2⟩
  · rw [hds e h]
    refine ⟨by simp, by simp, by simp⟩

lemma goClean_eq (p : GoStr) (hp : p ≠ []) :
    goClean p =
      (if (p.head? == some '/') then
        '/' :: joinSep '/' (((splitSep '/' p).foldl (cleanPush (p.head? == some '/')) []).reverse)
      else if joinSep '/' (((splitSep '/' p).foldl (cleanPush (p.head? == some '/')) []).reverse)
          = [] then ['.']
      else joinSep '/' (((splitSep '/' p).foldl (cleanPush (p.head? == some '/')) []).reverse)) := by
  rw [goClean, if_neg hp]

lemma goClean_rooted_out (stack : List GoStr) (hst : CleanStackOK true stack) :
    goClean ('/' :: joinSep '/' stack.reverse) = '/' :: joinSep '/' stack.reverse := by
  have hfree := cleanStack_elem_free true stack hst
  by_cases h0 : stack = []
  · subst h0
    rfl
  · have hp : ('/' :: joinSep '/' stack.reverse : GoStr) ≠ [] := by simp
    rw [goClean_eq _ hp]
    have hhead : ((('/' : Char) :: joinSep '/' stack.reverse).head? == some '/') = true := rfl
    rw [hhead, if_pos rfl]
    have hsplit : splitSep '/' ('/' :: joinSep '/' stack.reverse) =
        [] :: splitSep '/' (joinSep '/' stack.reverse) := rfl
    rw [hsplit, List.foldl_cons]
    have hnil : cleanPush true [] [] = [] := rfl
    rw [hnil]
    have hrevne : stack.reverse ≠ [] := by simpa using h0
    rw [splitSep_joinSep '/' stack.reverse hrevne
      (fun seg hseg => (hfree seg (List.mem_reverse.mp hseg)).2.2)]
    rw [refold_cleanStack true stack hst]

lemma goClean_rel_out (stack : List GoStr) (hst : CleanStackOK false stack)
    (h0 : stack ≠ []) :
    goClean (joinSep '/' stack.reverse) = joinSep '/' stack.reverse := by
  have hfree := cleanStack_elem_free false stack hst
  have hrevne : stack.reverse ≠ [] := by simpa using h0
  obtain ⟨f, rest', hrev⟩ := List.exists_cons_of_ne_nil hrevne
  have hfmem : f ∈ stack := List.mem_reverse.mp (hrev ▸ List.mem_cons_self _ _)
  have hf := hfree f hfmem
  have hout_ne : joinSep '/' stack.reverse ≠ [] := by
    rw [hrev]
    exact joinSep_ne_nil '/' f rest' hf.1
  have hhead : (joinSep '/' stack.reverse).head? = f.head? := by
    rw [hrev]
    exact joinSep_head '/' f rest' hf.1
  obtain ⟨fc, ftail, hfc⟩ := List.exists_cons_of_ne_nil hf.1
  have hfc_ne : fc ≠ '/' := fun h => hf.2.2 (h ▸ (hfc ▸ List.mem_cons_self _ _))
  have hroot : ((joinSep '/' stack.reverse).head? == some '/') = false := by
    rw [hhead, hfc]
    simp [hfc_ne]
  rw [goClean_eq _ hout_ne, hroot, if_neg Bool.false_ne_true]
  rw [splitSep_joinSep '/' stack.reverse hrevne
    (fun seg hseg => (hfree seg (List.mem_reverse.mp hseg)).2.2)]
  rw [refold_cleanStack false stack hst]
  rw [if_neg hout_ne]

lemma goClean_goClean (p : GoStr) : goClean (goClean p) = goClean p := by
  by_cases hp : p = []
  · subst hp
    rfl
  · rw [goClean_eq p hp]
    cases hr : (p.head? == some '/') with
    | true =>
      rw [if_pos rfl]
      have hinv : CleanStackOK true ((splitSep '/' p).foldl (cleanPush true) []) :=
        foldl_cleanPush_preserves true (splitSep '/' p) [] (cleanStackOK_nil true)
          (not_mem_of_splitSep '/' p)
      exact goClean_rooted_out _ hinv
    | false =>
      rw [if_neg Bool.false_ne_true]
      have hinv : CleanStackOK false ((splitSep '/' p).foldl (cleanPush false) []) :=
        foldl_cleanPush_preserves false (splitSep '/' p) [] (cleanStackOK_nil false)
          (not_mem_of_splitSep '/' p)
      by_cases hout :
          joinSep '/' (((splitSep '/' p).foldl (cleanPush false) []).reverse) = []
      · rw [if_pos hout]
        rfl
      · rw [if_neg hout]
        have hstne : (splitSep '/' p).foldl (cleanPush false) [] ≠ [] := by
          intro h
          apply hout
          rw [h]
          rfl
        exact goClean_rel_out _ hinv hstne

lemma joinSep_cons_ex (sep : Char) (f : GoStr) (rest : List GoStr) :
    ∃ t, joinSep sep (f :: rest) = f ++ t := by
  cases rest with
  | nil => exact ⟨[], by simp [joinSep]⟩
  | cons a b => exact ⟨sep :: joinSep sep (a :: b), rfl⟩

lemma goClean_not_dotslash (s : GoStr) : ¬ (['.', '/'] <+: goClean s) := by
  intro h
  by_cases hs : s = []
  · subst hs
    have hlen := h.length_le
    simp [goClean] at hlen
  · rw [goClean_eq s hs] at h
    cases hr : (s.head? == some '/') with
    | true =>
      rw [hr, if_pos rfl] at h
      rcases h with ⟨t, ht⟩
      simp at ht
    | false =>
      rw [hr, if_neg Bool.false_ne_true] at h
      set st := (splitSep '/' s).foldl (cleanPush false) [] with hstdef
      have hinv : CleanStackOK false st :=
        foldl_cleanPush_preserves false (splitSep '/' s) [] (cleanStackOK_nil false)
          (not_mem_of_splitSep '/' s)
      by_cases hout : joinSep '/' st.reverse = []
      · rw [if_pos hout] at h
        have hlen := h.length_le
        simp at hlen
      · rw [if_neg hout] at h
        have hstne : st ≠ [] := by
          intro h0
          exact hout (by rw [h0]; rfl)
        have hrevne : st.reverse ≠ [] := by simpa using hstne
        obtain ⟨f, rest', hrev⟩ := List.exists_cons_of_ne_nil hrevne
        have hfmem : f ∈ st := List.mem_reverse.mp (hrev ▸ List.mem_cons_self _ _)
        have hf := cleanStack_elem_free false st hinv f hfmem
        obtain ⟨t0, hjoin⟩ := joinSep_cons_ex '/' f rest'
        rw [hrev, hjoin] at h
        obtain ⟨fc, ftail, hfc⟩ := List.exists_cons_of_ne_nil hf.1
        subst hfc
        rcases h with ⟨t1, ht1⟩
        simp only [List.cons_append, List.nil_append] at ht1
        injection ht1 with h1 h2
        cases hft : ftail with
        | nil =>
          apply hf.2.1
          rw [← h1, hft]
        | cons f2 f2s =>
          rw [hft] at h2
          simp only [List.cons_append] at h2
          injection h2 with h3 h4
          apply hf.2.2
          rw [hft, ← h3]
          exact List.mem_cons_of_mem _ (List.mem_cons_self _ _)

/-- `strings.TrimPrefix`. -/
def trimPre (pre s : GoStr) : GoStr :=
  if pre.isPrefixOf s then s.drop pre.length else s

lemma trimPre_of_not (pre s : GoStr) (h : ¬ (pre <+: s)) : trimPre pre s = s := by
  rw [trimPre, if_neg]
  intro hb
  exact h (List.isPrefixOf_iff_prefix.mp hb)

/-- One entry of `LockFile.normalize`: `filepath.ToSlash` (the identity on
Unix paths), then `filepath.Clean`, turning `.` into the empty string, and
`strings.TrimPrefix "./"`. -/
def normalizeEntry (s : GoStr) : GoStr :=
  let s1 := goClean s
  let s2 := if s1 = ['.'] then [] else s1
  trimPre ['.', '/'] s2

lemma normalizeEntry_eq (s : GoStr) (h : goClean s ≠ ['.']) :
    normalizeEntry s = goClean s := by
  rw [normalizeEntry]
  simp only [if_neg h]
  exact trimPre_of_not _ _ (goClean_not_dotslash s)

lemma normalizeEntry_fix (s : GoStr) (hne : normalizeEntry s ≠ []) :
    normalizeEntry (normalizeEntry s) = normalizeEntry s := by
  by_cases h : goClean s = ['.']
  · exfalso
    apply hne
    rw [normalizeEntry]
    simp only [if_pos h]
    rfl
  · rw [normalizeEntry_eq s h]
    have hidem := goClean_goClean s
    have h2 : goClean (goClean s) ≠ ['.'] := by rw [hidem]; exact h
    rw [normalizeEntry_eq (goClean s) h2, hidem]

lemma strLe_total (a b : GoStr) : strLe a b = true ∨ strLe b a = true := by
  induction a generalizing b with
  | nil => left; rfl
  | cons x xs ih =>
    cases b with
    | nil => right; rfl
    | cons y ys =>
      by_cases hxy : x = y
      · subst hxy
        rcases ih ys with h | h
        · left
          rw [strLe, if_pos rfl]
          exact h
        · right
          rw [strLe, if_pos rfl]
          exact h
      · rcases lt_trichotomy x y with h | h | h
        · left
          rw [strLe, if_neg hxy]
          exact decide_eq_true h
        · exact absurd h hxy
        · right
          rw [strLe, if_neg (Ne.symm hxy)]
          exact decide_eq_true h

lemma strLe_trans (a b c : GoStr) (hab : strLe a b = true) (hbc : strLe b c = true) :
    strLe a c = true := by
  induction a generalizing b c with
  | nil => rfl
  | cons x xs ih =>
    cases b with
    | nil => simp [strLe] at hab
    | cons y ys =>
      cases c with
      | nil => simp [strLe] at hbc
      | cons z zs =>
        by_cases hxy : x = y
        · subst hxy
          rw [strLe, if_pos rfl] at hab
          by_cases hxz : x = z
          · subst hxz
            rw [strLe, if_pos rfl] at hbc ⊢
            exact ih ys zs hab hbc
          · rw [strLe, if_neg hxz] at hbc ⊢
            exact hbc
        · rw [strLe, if_neg hxy] at hab
          have hxy' : x < y := of_decide_eq_true hab
          by_cases hyz : y = z
          · subst hyz
            rw [strLe, if_neg hxy]
            exact decide_eq_true hxy'
          · rw [strLe, if_neg hyz] at hbc
            have hyz' : y < z := of_decide_eq_true hbc
            have hxz : x < z := lt_trans hxy' hyz'
            rw [strLe, if_neg (ne_of_lt hxz)]
            exact decide_eq_true hxz

/-- Ordered insertion by the bytewise string order. -/
def insertStr (x : GoStr) : List GoStr → List GoStr
  | [] => [x]
  | y :: ys => if strLe x y then x :: y :: ys else y :: insertStr x ys

/-- `sort.Strings`, modelled as insertion sort by the bytewise order (the
result is the unique sorted arrangement, as for any comparison sort). -/
def sortStrings (l : List GoStr) : List GoStr := l.foldr insertStr []

lemma insertStr_perm (x : GoStr) (l : List GoStr) : List.Perm (insertStr x l) (x :: l) := by
  induction l with
  | nil => exact List.Perm.refl _
  | cons y ys ih =>
    rw [insertStr]
    by_cases h : strLe x y
    · rw [if_pos h]
    · rw [if_neg h]
      exact Trans.trans (List.Perm.cons y ih) (List.Perm.swap x y ys)

lemma sortStrings_perm (l : List GoStr) : List.Perm (sortStrings l) l := by
  induction l with
  | nil => exact List.Perm.refl _
  | cons x xs ih =>
    rw [sortStrings, List.foldr_cons]
    exact Trans.trans (insertStr_perm x (sortStrings xs)) (List.Perm.cons x ih)

/-- Sortedness by the bytewise order. -/
def StrSorted (l : List GoStr) : Prop := l.Pairwise (fun a b => strLe a b = true)

lemma insertStr_sorted (x : GoStr) (l : List GoStr) (hl : StrSorted l) :
    StrSorted (insertStr x l) := by
  induction l with
  | nil => simp [insertStr, StrSorted]
  | cons y ys ih =>
    obtain ⟨hy, hys⟩ := List.pairwise_cons.mp hl
    rw [insertStr]
    by_cases h : strLe x y = true
    · rw [if_pos h]
      refine List.Pairwise.cons ?_ hl
      intro z hz
      rcases List.mem_cons.mp hz with hz | hz
      · exact hz ▸ h
      · exact strLe_trans x y z h (hy z hz)
    · rw [if_neg h]
      have hyx : strLe y x = true := (strLe_total x y).resolve_left h
      refine List.Pairwise.cons ?_ (ih hys)
      intro z hz
      have hz' : z ∈ x :: ys := (insertStr_perm x ys).mem_iff.mp hz
      rcases List.mem_cons.mp hz' with hz' | hz'
      · exact hz' ▸ hyx
      · exact hy z hz'

lemma sortStrings_sorted (l : List GoStr) : StrSorted (sortStrings l) := by
  induction l with
  | nil => exact List.Pairwise.nil
  | cons x xs ih => exact insertStr_sorted x _ ih

lemma sortStrings_eq_self (l : List GoStr) (hl : StrSorted l) : sortStrings l = l := by
  induction l with
  | nil => rfl
  | cons x xs ih =>
    obtain ⟨hx, hxs⟩ := List.pairwise_cons.mp hl
    rw [sortStrings, List.foldr_cons]
    have htail : List.foldr insertStr [] xs = xs := ih hxs
    rw [htail]
    cases xs with
    | nil => rfl
    | cons y ys =>
      rw [insertStr, if_pos (hx y (List.mem_cons_self _ _))]

/-- `versioning.LockFile`. -/
structure LockFile where
  version : GoStr
  usedSystemBinary : Bool
  binaryPath : GoStr
  detectedFrom : List GoStr
deriving DecidableEq, Repr

/-- `LockFile.normalize`: clean each `detected_from` entry, drop the ones
that collapse to empty, deduplicate (Go inserts survivors into a set; here
`dedup` keeps first occurrences, which the final sort makes equivalent) and
sort. -/
def LockFile.normalize (l : LockFile) : LockFile :=
  if l.detectedFrom = [] then l
  else
    let cleaned := ((l.detectedFrom.map normalizeEntry).filter (fun s => s != [])).dedup
    if cleaned = [] then { l with detectedFrom := [] }
    else { l with detectedFrom := sortStrings cleaned }

/-- `WriteLockFile`: normalize, require a non-empty version, and write the
JSON-marshalled value to a temp file renamed into place.  `encoding/json`
round-trips this struct field for field, so the persisted document is
modelled by the normalized record itself. -/
def WriteLockFile (l : LockFile) : Except GoStr LockFile :=
  let n := l.normalize
  if n.version = [] then Except.error "lock file version cannot be empty".data
  else Except.ok n

/-- `ReadLockFile` on a file holding the marshalled `stored` record:
unmarshal and normalize. -/
def ReadLockFile (stored : LockFile) : LockFile := stored.normalize

lemma normalize_idem (l : LockFile) : l.normalize.normalize = l.normalize := by
  by_cases h0 : l.detectedFrom = []
  · have h1 : l.normalize = l := by rw [LockFile.normalize, if_pos h0]
    rw [h1]
    exact h1
  · set cleaned := ((l.detectedFrom.map normalizeEntry).filter (fun s => s != [])).dedup
      with hcdef
    by_cases hc : cleaned = []
    · have h1 : l.normalize = { l with detectedFrom := [] } := by
        simp only [LockFile.normalize, if_neg h0]
        rw [← hcdef, if_pos hc]
      have h2 : ({ l with detectedFrom := [] } : LockFile).normalize =
          { l with detectedFrom := [] } := by
        rw [LockFile.normalize, if_pos rfl]
      rw [h1]
      exact h2
    · have h1 : l.normalize = { l with detectedFrom := sortStrings cleaned } := by
        simp only [LockFile.normalize, if_neg h0]
        rw [← hcdef, if_neg hc]
      rw [h1]
      have hmem : ∀ e ∈ sortStrings cleaned, normalizeEntry e = e ∧ e ≠ [] := by
        intro e he
        have he1 : e ∈ cleaned := (sortStrings_perm cleaned).mem_iff.mp he
        have he2 : e ∈ (l.detectedFrom.map normalizeEntry).filter (fun s => s != []) :=
          List.mem_dedup.mp (hcdef ▸ he1)
        obtain ⟨hemem, hene⟩ := List.mem_filter.mp he2
        have hene' : e ≠ [] := by simpa using hene
        obtain ⟨src, _, hsrc⟩ := List.mem_map.mp hemem
        refine ⟨?_, hene'⟩
        rw [← hsrc]
        exact normalizeEntry_fix src (hsrc.symm ▸ hene')
      have hsortne : sortStrings cleaned ≠ [] := by
        intro hnil
        have hp := sortStrings_perm cleaned
        rw [hnil] at hp
        exact hc hp.symm.eq_nil
      have hmapid : (sortStrings cleaned).map normalizeEntry = sortStrings cleaned := by
        conv_rhs => rw [← List.map_id (sortStrings cleaned)]
        exact List.map_congr_left (fun e he => (hmem e he).1)
      have hfilter : (sortStrings cleaned).filter (fun s => s != []) = sortStrings cleaned :=
        List.filter_eq_self.mpr (fun e he => by simpa using (hmem e he).2)
      have hnodup : (sortStrings cleaned).Nodup :=
        (sortStrings_perm cleaned).symm.nodup (hcdef ▸ List.nodup_dedup _)
      have hdedup : (sortStrings cleaned).dedup = sortStrings cleaned :=
        List.dedup_eq_self.mpr hnodup
      have hsort2 : sortStrings (sortStrings cleaned) = sortStrings cleaned :=
        sortStrings_eq_self _ (sortStrings_sorted cleaned)
      simp only [LockFile.normalize, hmapid, hfilter, hdedup, hsort2, if_neg hsortne]

/-- C8: writing a lock file value and reading it back yields its
normalization — `detected_from` deduplicated, sorted, with `.`-style
prefixes collapsed — provided the value has a version so the write
succeeds. -/
theorem C8_theorem (l stored : LockFile) (hw : WriteLockFile l = .ok stored) :
    ReadLockFile stored = l.normalize := by
  have hstored : stored = l.normalize := by
    rw [WriteLockFile] at hw
    by_cases hv : l.normalize.version = []
    · rw [if_pos hv] at hw
      cases hw
    · rw [if_neg hv] at hw
      exact (Except.ok.inj hw).symm
  subst hstored
  exact normalize_idem l

/-- C8 (witness): a concrete lock file with duplicate, `./`-prefixed and
uncleaned entries round-trips to its normalization. -/
theorem C8_witness :
    WriteLockFile ⟨"1.5.0".data, false, [],
        ["./b".data, "b".data, "a//c/".data, "./x/../a".data, ".".data]⟩ =
      .ok ⟨"1.5.0".data, false, [], ["a".data, "a/c".data, "b".data]⟩ ∧
    ReadLockFile ⟨"1.5.0".data, false, [], ["a".data, "a/c".data, "b".data]⟩ =
      LockFile.normalize ⟨"1.5.0".data, false, [],
        ["./b".data, "b".data, "a//c/".data, "./x/../a".data, ".".data]⟩ := by
  constructor
  · rfl
  · exact C8_theorem
      ⟨"1.5.0".data, false, [], ["./b".data, "b".data, "a//c/".data, "./x/../a".data, ".".data]⟩
      ⟨"1.5.0".data, false, [], ["a".data, "a/c".data, "b".data]⟩ rfl

/-! ## The superplan snapshot rewrite (`internal/superplan/run.go`)

Snapshots are dynamically shaped JSON documents; `encoding/json` unmarshals
them into `map[string]interface{}` values, modelled by `JVal` with objects
as association lists with unique keys.  The in-place map mutations of the
Go code become functional updates (`objSet`). -/

/-- A dynamically shaped JSON value.  Numbers are carried opaquely (the
rewrite never reads them). -/
inductive JVal where
  | jnull
  | jbool (b : Bool)
  | jnum (n : Int)
  | jstr (s : GoStr)
  | jarr (xs : List JVal)
  | jobj (fields : List (GoStr × JVal))

/-- An unmarshalled JSON object. -/
abbrev Obj := List (GoStr × JVal)

/-- Go map read `m[k]`: the value of the binding of `k` (objects produced
by `encoding/json` bind each key once). -/
def objGet : Obj → GoStr → Option JVal
  | [], _ => none
  | q :: f, k => if q.1 = k then some q.2 else objGet f k

/-- Whether the object binds `k`. -/
def objHas : Obj → GoStr → Bool
  | [], _ => false
  | q :: f, k => q.1 = k || objHas f k

/-- Replace every binding of `k` by `v`. -/
def objPut : Obj → GoStr → JVal → Obj
  | [], _, _ => []
  | q :: f, k, v => (if q.1 = k then (q.1, v) else q) :: objPut f k v

/-- Go map write `m[k] = v`: replace the binding of `k` in place, or append
a new binding when `k` is absent. -/
def objSet (f : Obj) (k : GoStr) (v : JVal) : Obj :=
  if objHas f k then objPut f k v else f ++ [(k, v)]

lemma objGet_objPut_same (f : Obj) (k : GoStr) (v : JVal) (h : objHas f k = true) :
    objGet (objPut f k v) k = some v := by
  induction f with
  | nil => simp [objHas] at h
  | cons q f' ih =>
    rw [objPut]
    by_cases hq : q.1 = k
    · rw [if_pos hq, objGet, if_pos hq]
    · rw [if_neg hq, objGet, if_neg hq]
      rw [objHas] at h
      simp only [Bool.or_eq_true, decide_eq_true_eq] at h
      exact ih (h.resolve_left hq)

lemma objGet_append_single (f : Obj) (k : GoStr) (v : JVal) (h : objHas f k = false) :
    objGet (f ++ [(k, v)]) k = some v := by
  induction f with
  | nil => simp [objGet]
  | cons q f' ih =>
    rw [objHas] at h
    simp only [Bool.or_eq_false_iff, decide_eq_false_iff_not] at h
    rw [List.cons_append, objGet, if_neg h.1]
    exact ih h.2

lemma objGet_objSet_same (f : Obj) (k : GoStr) (v : JVal) :
    objGet (objSet f k v) k = some v := by
  rw [objSet]
  cases h : objHas f k with
  | true => rw [if_pos rfl]; exact objGet_objPut_same f k v h
  | false =>
    rw [if_neg Bool.false_ne_true]
    exact objGet_append_single f k v h

lemma objGet_objPut_other (f : Obj) (k k2 : GoStr) (v : JVal) (hne : k2 ≠ k) :
    objGet (objPut f k v) k2 = objGet f k2 := by
  induction f with
  | nil => rfl
  | cons q f' ih =>
    rw [objPut]
    by_cases hq : q.1 = k
    · have hq2 : ¬ q.1 = k2 := fun hc => hne (hc.symm.trans hq)
      rw [if_pos hq]
      show (if q.1 = k2 then some v else objGet (objPut f' k v) k2) =
        (if q.1 = k2 then some q.2 else objGet f' k2)
      rw [if_neg hq2, if_neg hq2]
      exact ih
    · rw [if_neg hq]
      show (if q.1 = k2 then some q.2 else objGet (objPut f' k v) k2) =
        (if q.1 = k2 then some q.2 else objGet f' k2)
      by_cases hq2 : q.1 = k2
      · rw [if_pos hq2, if_pos hq2]
      · rw [if_neg hq2, if_neg hq2]
        exact ih

lemma objGet_append_other (f : Obj) (k k2 : GoStr) (v : JVal) (hne : k2 ≠ k) :
    objGet (f ++ [(k, v)]) k2 = objGet f k2 := by
  induction f with
  | nil =>
    show (if k = k2 then some v else none) = none
    rw [if_neg (fun hc => hne hc.symm)]
  | cons q f' ih =>
    rw [List.cons_append]
    show (if q.1 = k2 then some q.2 else objGet (f' ++ [(k, v)]) k2) =
      (if q.1 = k2 then some q.2 else objGet f' k2)
    by_cases hq2 : q.1 = k2
    · rw [if_pos hq2, if_pos hq2]
    · rw [if_neg hq2, if_neg hq2]
      exact ih

lemma objGet_objSet_other (f : Obj) (k k2 : GoStr) (v : JVal) (hne : k2 ≠ k) :
    objGet (objSet f k v) k2 = objGet f k2 := by
  rw [objSet]
  by_cases h : objHas f k = true
  · rw [if_pos h]
    exact objGet_objPut_other f k k2 v hne
  · rw [if_neg h]
    exact objGet_append_other f k k2 v hne

/-- Every binding of `k` in `f` carries the value `v`. -/
def AllEq (f : Obj) (k : GoStr) (v : JVal) : Prop :=
  ∀ q ∈ f, q.1 = k → q.2 = v

lemma objHas_false_no_mem (f : Obj) (k : GoStr) (h : objHas f k = false) :
    ∀ q ∈ f, q.1 ≠ k := by
  induction f with
  | nil => intro q hq; cases hq
  | cons q0 f' ih =>
    rw [objHas] at h
    simp only [Bool.or_eq_false_iff, decide_eq_false_iff_not] at h
    intro q hq
    rcases List.mem_cons.mp hq with hq1 | hq1
    · exact hq1 ▸ h.1
    · exact ih h.2 q hq1

lemma allEq_objPut_same (f : Obj) (k : GoStr) (v : JVal) : AllEq (objPut f k v) k v := by
  induction f with
  | nil => intro q hq; cases hq
  | cons q0 f' ih =>
    rw [objPut]
    intro q hq hk
    rcases List.mem_cons.mp hq with hq1 | hq1
    · by_cases hq0 : q0.1 = k
      · rw [if_pos hq0] at hq1
        rw [hq1]
      · rw [if_neg hq0] at hq1
        exact absurd (hq1 ▸ hk) hq0
    · exact ih q hq1 hk

lemma allEq_objSet_same (f : Obj) (k : GoStr) (v : JVal) : AllEq (objSet f k v) k v := by
  rw [objSet]
  by_cases h : objHas f k = true
  · rw [if_pos h]
    exact allEq_objPut_same f k v
  · rw [if_neg h]
    intro q hq hk
    rcases List.mem_append.mp hq with hq1 | hq1
    · exact absurd hk (objHas_false_no_mem f k (by simpa using h) q hq1)
    · rw [List.mem_singleton.mp hq1]

lemma allEq_objSet_other (f : Obj) (k k2 : GoStr) (v w : JVal) (h : AllEq f k v)
    (hne : k ≠ k2) : AllEq (objSet f k2 w) k v := by
  rw [objSet]
  by_cases hp : objHas f k2 = true
  · rw [if_pos hp]
    clear hp
    induction f with
    | nil => intro q hq; cases hq
    | cons q0 f' ih =>
      rw [objPut]
      intro q hq hk
      rcases List.mem_cons.mp hq with hq1 | hq1
      · by_cases hq0 : q0.1 = k2
        · rw [if_pos hq0] at hq1
          exfalso
          apply hne
          rw [← hk, hq1]
          exact hq0
        · rw [if_neg hq0] at hq1
          rw [hq1]
          exact h q0 (List.mem_cons_self _ _) (hq1 ▸ hk)
      · exact ih (fun e he hek => h e (List.mem_cons_of_mem _ he) hek) q hq1 hk
  · rw [if_neg hp]
    intro q hq hk
    rcases List.mem_append.mp hq with hq1 | hq1
    · exact h q hq1 hk
    · rw [List.mem_singleton.mp hq1] at hk
      exact absurd hk.symm hne

lemma objHas_of_objGet (f : Obj) (k : GoStr) (w : JVal) (h : objGet f k = some w) :
    objHas f k = true := by
  induction f with
  | nil => cases h
  | cons q f' ih =>
    rw [objGet] at h
    rw [objHas]
    by_cases hq : q.1 = k
    · simp [hq]
    · rw [if_neg hq] at h
      simp only [Bool.or_eq_true, decide_eq_true_eq]
      exact Or.inr (ih h)

lemma objPut_eq_self (f : Obj) (k : GoStr) (v : JVal) (h : AllEq f k v) :
    objPut f k v = f := by
  induction f with
  | nil => rfl
  | cons q f' ih =>
    rw [objPut]
    rw [ih (fun e he hk => h e (List.mem_cons_of_mem _ he) hk)]
    by_cases hq : q.1 = k
    · rw [if_pos hq]
      have h2 : q.2 = v := h q (List.mem_cons_self _ _) hq
      rw [← h2]
    · rw [if_neg hq]

lemma objSet_eq_self (f : Obj) (k : GoStr) (v w : JVal) (hall : AllEq f k v)
    (hget : objGet f k = some w) : objSet f k v = f := by
  rw [objSet, if_pos (objHas_of_objGet f k w hget), objPut_eq_self f k v hall]

/-- `prefixSegment` (run.go 554–563): prepend `<prefix>_` unless the segment
already carries it or the prefix is empty. -/
def prefixSegment (pre segment : GoStr) : GoStr :=
  if pre = [] then segment
  else if (pre ++ ['_']).isPrefixOf segment then segment
  else (pre ++ ['_']) ++ segment

lemma prefixSegment_cases (pre s : GoStr) :
    prefixSegment pre s = s ∨ prefixSegment pre s = (pre ++ ['_']) ++ s := by
  rw [prefixSegment]
  by_cases hp : pre = []
  · rw [if_pos hp]
    left
    rfl
  · rw [if_neg hp]
    by_cases hpre : (pre ++ ['_']).isPrefixOf s
    · rw [if_pos hpre]
      left
      rfl
    · rw [if_neg hpre]
      right
      rfl

lemma prefixSegment_idem (pre s : GoStr) :
    prefixSegment pre (prefixSegment pre s) = prefixSegment pre s := by
  by_cases hp : pre = []
  · rw [prefixSegment, if_pos hp]
  · rcases prefixSegment_cases pre s with h | h
    · rw [h]
      exact h
    · rw [h, prefixSegment, if_neg hp,
        if_pos (List.isPrefixOf_iff_prefix.mpr (List.prefix_append _ _))]

lemma prefixSegment_free (pre s : GoStr) (hp : '.' ∉ pre) (hs : '.' ∉ s) :
    '.' ∉ prefixSegment pre s := by
  rcases prefixSegment_cases pre s with h | h <;> rw [h]
  · exact hs
  · intro hmem
    rcases List.mem_append.mp hmem with h1 | h1
    · rcases List.mem_append.mp h1 with h2 | h2
      · exact hp h2
      · simp at h2
    · exact hs h1

lemma prefixSegment_ne_module (pre s : GoStr) (hp : pre ≠ []) :
    prefixSegment pre s ≠ "module".data := by
  rw [prefixSegment, if_neg hp]
  by_cases hpre : (pre ++ ['_']).isPrefixOf s
  · rw [if_pos hpre]
    intro hc
    have hmem : '_' ∈ s :=
      (List.isPrefixOf_iff_prefix.mp hpre).subset
        (List.mem_append.mpr (Or.inr (List.mem_singleton_self _)))
    rw [hc] at hmem
    exact absurd hmem (by decide)
  · rw [if_neg hpre]
    intro hc
    have hmem : '_' ∈ (pre ++ ['_']) ++ s :=
      List.mem_append.mpr (Or.inl (List.mem_append.mpr (Or.inr (List.mem_singleton_self _))))
    rw [hc] at hmem
    exact absurd hmem (by decide)

/-- The module-token scan shared by `rewriteAddress` (run.go 500–508) and
`rewriteModuleAddress` (run.go 541–549): walk the dot-separated tokens; at
each `module` token that still has a successor, prefix the successor when
none has been prefixed yet, record that in the flag, and skip the
successor. -/
def scanModuleParts : GoStr → Bool → List GoStr → List GoStr × Bool
  | _, modPrefixed, [] => ([], modPrefixed)
  | _, modPrefixed, [x] => ([x], modPrefixed)
  | stackName, modPrefixed, x :: y :: rest =>
    if x = "module".data then
      let y2 := if modPrefixed then y else prefixSegment stackName y
      let r := scanModuleParts stackName true rest
      (x :: y2 :: r.1, r.2)
    else
      let r := scanModuleParts stackName modPrefixed (y :: rest)
      (x :: r.1, r.2)

lemma scanModuleParts_length (p : GoStr) (b : Bool) (xs : List GoStr) :
    (scanModuleParts p b xs).1.length = xs.length := by
  induction p, b, xs using scanModuleParts.induct with
  | case1 p b => rfl
  | case2 p b x => rfl
  | case3 p b y rest ih =>
    rw [scanModuleParts, if_pos rfl]
    simp only [List.length_cons, ih]
  | case4 p b x y rest hx ih =>
    rw [scanModuleParts, if_neg hx]
    simp only [List.length_cons] at ih ⊢
    rw [ih]

lemma scanModuleParts_true (p : GoStr) (b : Bool) (xs : List GoStr) :
    b = true → scanModuleParts p b xs = (xs, true) := by
  induction p, b, xs using scanModuleParts.induct with
  | case1 p b =>
    intro hb
    rw [scanModuleParts, hb]
  | case2 p b x =>
    intro hb
    rw [scanModuleParts, hb]
  | case3 p b y rest ih =>
    intro hb
    subst hb
    rw [scanModuleParts, if_pos rfl]
    simp only [ih rfl, if_true]
  | case4 p b x y rest hx ih =>
    intro hb
    subst hb
    rw [scanModuleParts, if_neg hx]
    simp only [ih rfl]

/-- No `module` token that has a successor. -/
def noModulePair : List GoStr → Prop
  | [] => True
  | [_] => True
  | x :: y :: rest => x ≠ "module".data ∧ noModulePair (y :: rest)

lemma scanModuleParts_false_eq (p : GoStr) (b : Bool) (xs : List GoStr) :
    b = false → ∀ ys, scanModuleParts p b xs = (ys, false) →
      ys = xs ∧ noModulePair xs := by
  induction p, b, xs using scanModuleParts.induct with
  | case1 p b =>
    intro _ ys h
    rw [scanModuleParts] at h
    exact ⟨((Prod.mk.injEq _ _ _ _).mp h).1.symm, trivial⟩
  | case2 p b x =>
    intro _ ys h
    rw [scanModuleParts] at h
    exact ⟨((Prod.mk.injEq _ _ _ _).mp h).1.symm, trivial⟩
  | case3 p b y rest ih =>
    intro hb ys h
    subst hb
    rw [scanModuleParts, if_pos rfl] at h
    simp only [scanModuleParts_true p true rest rfl] at h
    exact absurd ((Prod.mk.injEq _ _ _ _).mp h).2 (by simp)
  | case4 p b x y rest hx ih =>
    intro hb ys h
    subst hb
    rw [scanModuleParts, if_neg hx] at h
    cases hr : scanModuleParts p false (y :: rest) with
    | mk zs b2 =>
      rw [hr] at h
      have h2 : b2 = false := ((Prod.mk.injEq _ _ _ _).mp h).2
      have hys : ys = x :: zs := ((Prod.mk.injEq _ _ _ _).mp h).1.symm
      obtain ⟨he, hnp⟩ := ih rfl zs (by rw [hr, h2])
      rw [hys, he]
      exact ⟨rfl, hx, hnp⟩

lemma scanModuleParts_of_noPair (p : GoStr) (b : Bool) (xs : List GoStr)
    (h : noModulePair xs) : scanModuleParts p b xs = (xs, b) := by
  induction p, b, xs using scanModuleParts.induct with
  | case1 p b => rw [scanModuleParts]
  | case2 p b x => rw [scanModuleParts]
  | case3 p b y rest ih =>
    rw [noModulePair] at h
    exact absurd rfl h.1
  | case4 p b x y rest hx ih =>
    rw [scanModuleParts, if_neg hx]
    rw [noModulePair] at h
    simp only [ih h.2]

lemma scanModuleParts_free (p : GoStr) (b : Bool) (xs : List GoStr) (hp : '.' ∉ p) :
    (∀ e ∈ xs, '.' ∉ e) → ∀ e ∈ (scanModuleParts p b xs).1, '.' ∉ e := by
  induction p, b, xs using scanModuleParts.induct with
  | case1 p b =>
    intro _ e he
    cases he
  | case2 p b x =>
    intro hxs e he
    rw [scanModuleParts] at he
    rw [List.mem_singleton.mp he]
    exact hxs x (List.mem_cons_self _ _)
  | case3 p b y rest ih =>
    intro hxs e he
    rw [scanModuleParts, if_pos rfl] at he
    rcases List.mem_cons.mp he with h1 | h1
    · rw [h1]
      exact hxs _ (List.mem_cons_self _ _)
    · rcases List.mem_cons.mp h1 with h2 | h2
      · rw [h2]
        cases b with
        | true =>
          simp only [if_true]
          exact hxs y (List.mem_cons_of_mem _ (List.mem_cons_self _ _))
        | false =>
          simp only [Bool.false_eq_true, if_false]
          exact prefixSegment_free p y hp
            (hxs y (List.mem_cons_of_mem _ (List.mem_cons_self _ _)))
      · exact ih hp
          (fun z hz => hxs z (List.mem_cons_of_mem _ (List.mem_cons_of_mem _ hz))) e h2
  | case4 p b x y rest hx ih =>
    intro hxs e he
    rw [scanModuleParts, if_neg hx] at he
    rcases List.mem_cons.mp he with h1 | h1
    · rw [h1]
      exact hxs x (List.mem_cons_self _ _)
    · exact ih hp (fun z hz => hxs z (List.mem_cons_of_mem _ hz)) e h1

lemma scanModuleParts_false_idem (p : GoStr) (b : Bool) (xs : List GoStr) :
    b = false → ∀ ys, scanModuleParts p b xs = (ys, true) →
      scanModuleParts p false ys = (ys, true) := by
  induction p, b, xs using scanModuleParts.induct with
  | case1 p b =>
    intro hb ys h
    rw [scanModuleParts, hb] at h
    exact absurd ((Prod.mk.injEq _ _ _ _).mp h).2 (by simp)
  | case2 p b x =>
    intro hb ys h
    rw [scanModuleParts, hb] at h
    exact absurd ((Prod.mk.injEq _ _ _ _).mp h).2 (by simp)
  | case3 p b y rest ih =>
    intro hb ys h
    subst hb
    rw [scanModuleParts, if_pos rfl] at h
    simp only [scanModuleParts_true p true rest rfl, Bool.false_eq_true, if_false] at h
    have hys : ys = "module".data :: prefixSegment p y :: rest :=
      ((Prod.mk.injEq _ _ _ _).mp h).1.symm
    rw [hys, scanModuleParts, if_pos rfl]
    simp only [scanModuleParts_true p true rest rfl, Bool.false_eq_true, if_false,
      prefixSegment_idem]
  | case4 p b x y rest hx ih =>
    intro hb ys h
    subst hb
    rw [scanModuleParts, if_neg hx] at h
    cases hr : scanModuleParts p false (y :: rest) with
    | mk zs b2 =>
      rw [hr] at h
      have h2 : b2 = true := ((Prod.mk.injEq _ _ _ _).mp h).2
      have hys : ys = x :: zs := ((Prod.mk.injEq _ _ _ _).mp h).1.symm
      have hih := ih rfl zs (by rw [hr, h2])
      have hlen : zs.length = (y :: rest).length := by
        have := scanModuleParts_length p false (y :: rest)
        rw [hr] at this
        exact this
      cases zs with
      | nil => simp at hlen
      | cons z zs2 =>
        rw [hys, scanModuleParts, if_neg hx]
        simp only [hih]

lemma joinSep_splitSep (sep : Char) (s : GoStr) :
    joinSep sep (splitSep sep s) = s := by
  induction s with
  | nil => rfl
  | cons c rest ih =>
    by_cases h : c = sep
    · rw [splitSep, if_pos h]
      cases hr : splitSep sep rest with
      | nil => exact absurd hr (splitSep_ne_nil sep rest)
      | cons seg segs =>
        rw [joinSep]
        · rw [List.nil_append, ← hr, ih, h]
        · simp
    · rw [splitSep, if_neg h]
      cases hr : splitSep sep rest with
      | nil => exact absurd hr (splitSep_ne_nil sep rest)
      | cons seg segs =>
        rw [hr] at ih
        cases segs with
        | nil =>
          rw [joinSep] at ih ⊢
          rw [ih]
        | cons s2 r2 =>
          rw [joinSep]
          · rw [joinSep] at ih
            · rw [List.cons_append, ih]
            · simp
          · simp

lemma joinSep_two_ne_nil (sep : Char) (a b : GoStr) (r : List GoStr) :
    joinSep sep (a :: b :: r) ≠ [] := by
  rw [joinSep]
  case x_1 => simp
  simp

lemma scanModuleParts_true_two (p : GoStr) (xs ys : List GoStr)
    (h : scanModuleParts p false xs = (ys, true)) : 2 ≤ ys.length := by
  cases xs with
  | nil =>
    rw [scanModuleParts] at h
    exact absurd ((Prod.mk.injEq _ _ _ _).mp h).2 (by simp)
  | cons x xs1 =>
    cases xs1 with
    | nil =>
      rw [scanModuleParts] at h
      exact absurd ((Prod.mk.injEq _ _ _ _).mp h).2 (by simp)
    | cons y rest =>
      have hl := scanModuleParts_length p false (x :: y :: rest)
      rw [h] at hl
      simp only [List.length_cons] at hl
      omega

lemma noModulePair_cons (x : GoStr) (l : List GoStr) :
    noModulePair (x :: l) ↔ ((x ≠ "module".data ∨ l = []) ∧ noModulePair l) := by
  cases l with
  | nil => simp [noModulePair]
  | cons y r => simp [noModulePair]

lemma noModulePair_set (ps : List GoStr) (k : Nat) (v : GoStr)
    (hv : v ≠ "module".data) (h : noModulePair ps) :
    noModulePair (ps.set k v) := by
  induction ps generalizing k with
  | nil => exact trivial
  | cons x l ih =>
    cases k with
    | zero =>
      rw [List.set_cons_zero, noModulePair_cons] at *
      exact ⟨Or.inl hv, h.2⟩
    | succ n =>
      rw [List.set_cons_succ]
      rw [noModulePair_cons] at h ⊢
      refine ⟨?_, ih n h.2⟩
      rcases h.1 with h1 | h1
      · exact Or.inl h1
      · subst h1
        exact Or.inr rfl

lemma headD_set_succ (l : List GoStr) (n : Nat) (v d : GoStr) :
    (l.set (n + 1) v).headD d = l.headD d := by
  cases l with
  | nil => rfl
  | cons x r =>
    rw [List.set_cons_succ]
    rfl

lemma getD_set_self (l : List GoStr) (n : Nat) (v d : GoStr) (h : n < l.length) :
    (l.set n v).getD n d = v := by
  induction l generalizing n with
  | nil => simp at h
  | cons x r ih =>
    cases n with
    | zero => rfl
    | succ m =>
      rw [List.set_cons_succ, List.getD_cons_succ]
      exact ih m (Nat.lt_of_succ_lt_succ (by simpa using h))

lemma getD_mem (l : List GoStr) (n : Nat) (d : GoStr) (h : n < l.length) :
    l.getD n d ∈ l := by
  induction l generalizing n with
  | nil => simp at h
  | cons x r ih =>
    cases n with
    | zero => exact List.mem_cons_self _ _
    | succ m =>
      rw [List.getD_cons_succ]
      exact List.mem_cons_of_mem _ (ih m (Nat.lt_of_succ_lt_succ (by simpa using h)))

/-- The non-module tail of `rewriteAddress` (run.go 512–530): locate the
resource-name token (one past the type token, itself one past an optional
leading `data` token), prefix it, and join; out-of-range indices return the
joined parts unchanged. -/
def typeTargetRewrite (stackName : GoStr) (parts : List GoStr) : GoStr :=
  let typeIdx := if parts.headD [] = "data".data then 1 else 0
  if parts.length ≤ typeIdx then joinSep '.' parts
  else if parts.length ≤ typeIdx + 1 then joinSep '.' parts
  else joinSep '.'
    (parts.set (typeIdx + 1) (prefixSegment stackName (parts.getD (typeIdx + 1) [])))

/-- `rewriteAddress` (run.go 492–531): split the address on dots, prefix the
first `module` successor if any, otherwise prefix the resource-name token. -/
def rewriteAddress (stackName address : GoStr) : GoStr :=
  if stackName = [] ∨ address = [] then address
  else
    let scan := scanModuleParts stackName false (splitSep '.' address)
    if scan.2 then joinSep '.' scan.1
    else typeTargetRewrite stackName scan.1

/-- `rewriteModuleAddress` (run.go 533–552): split on dots, prefix the first
`module` successor, join back. -/
def rewriteModuleAddress (stackName address : GoStr) : GoStr :=
  if stackName = [] ∨ address = [] then address
  else joinSep '.' (scanModuleParts stackName false (splitSep '.' address)).1

/-- `rewriteDependencies` (run.go 480–490): rewrite each string entry as an
address, keep non-string entries unchanged. -/
def rewriteDependencies : List JVal → GoStr → List JVal
  | [], _ => []
  | dep :: rest, stackName =>
    (match dep with
     | .jstr s => .jstr (rewriteAddress stackName s)
     | _ => dep) :: rewriteDependencies rest stackName

lemma joinSep_len2_ne_nil (sep : Char) (l : List GoStr) (h : 2 ≤ l.length) :
    joinSep sep l ≠ [] := by
  cases l with
  | nil => simp at h
  | cons a t =>
    cases t with
    | nil => simp at h
    | cons b r => exact joinSep_two_ne_nil sep a b r

lemma rewriteAddress_unfold_mod (p a : GoStr) (hg : ¬ (p = [] ∨ a = []))
    (ys : List GoStr) (hscan : scanModuleParts p false (splitSep '.' a) = (ys, true)) :
    rewriteAddress p a = joinSep '.' ys := by
  simp only [rewriteAddress, if_neg hg, hscan]
  simp

lemma rewriteAddress_unfold_res (p a : GoStr) (hg : ¬ (p = [] ∨ a = []))
    (ys : List GoStr) (hscan : scanModuleParts p false (splitSep '.' a) = (ys, false)) :
    rewriteAddress p a = typeTargetRewrite p ys := by
  simp only [rewriteAddress, if_neg hg, hscan]
  simp

lemma typeTargetRewrite_le (p : GoStr) (parts : List GoStr)
    (h : parts.length ≤ (if parts.headD [] = "data".data then 1 else 0) + 1) :
    typeTargetRewrite p parts = joinSep '.' parts := by
  simp only [typeTargetRewrite]
  by_cases h0 : parts.length ≤ (if parts.headD [] = "data".data then 1 else 0)
  · rw [if_pos h0]
  · rw [if_neg h0, if_pos h]

lemma typeTargetRewrite_gt (p : GoStr) (parts : List GoStr)
    (h : ¬ parts.length ≤ (if parts.headD [] = "data".data then 1 else 0) + 1) :
    typeTargetRewrite p parts = joinSep '.'
      (parts.set ((if parts.headD [] = "data".data then 1 else 0) + 1)
        (prefixSegment p
          (parts.getD ((if parts.headD [] = "data".data then 1 else 0) + 1) []))) := by
  simp only [typeTargetRewrite]
  have h0 : ¬ parts.length ≤ (if parts.headD [] = "data".data then 1 else 0) :=
    fun hle => h (Nat.le_succ_of_le hle)
  rw [if_neg h0, if_neg h]

lemma rewriteModuleAddress_ne_nil (p a : GoStr) (ha : a ≠ []) :
    rewriteModuleAddress p a ≠ [] := by
  by_cases hg : p = [] ∨ a = []
  · rw [rewriteModuleAddress, if_pos hg]
    exact ha
  · cases hscan : scanModuleParts p false (splitSep '.' a) with
    | mk ys flag =>
      have h1 : rewriteModuleAddress p a = joinSep '.' ys := by
        simp only [rewriteModuleAddress, if_neg hg, hscan]
      rw [h1]
      cases flag with
      | false =>
        obtain ⟨hys, _⟩ := scanModuleParts_false_eq p false (splitSep '.' a) rfl ys hscan
        rw [hys, joinSep_splitSep]
        exact ha
      | true =>
        exact joinSep_len2_ne_nil '.' ys (scanModuleParts_true_two p _ ys hscan)

lemma rewriteModuleAddress_idem (p a : GoStr) (hp : '.' ∉ p) :
    rewriteModuleAddress p (rewriteModuleAddress p a) = rewriteModuleAddress p a := by
  by_cases hg : p = [] ∨ a = []
  · have h1 : rewriteModuleAddress p a = a := by rw [rewriteModuleAddress, if_pos hg]
    rw [h1]
    exact h1
  · have hpne : p ≠ [] := fun h => hg (Or.inl h)
    have hfree := not_mem_of_splitSep '.' a
    cases hscan : scanModuleParts p false (splitSep '.' a) with
    | mk ys flag =>
      have h1 : rewriteModuleAddress p a = joinSep '.' ys := by
        simp only [rewriteModuleAddress, if_neg hg, hscan]
      cases flag with
      | false =>
        obtain ⟨hys, _⟩ := scanModuleParts_false_eq p false (splitSep '.' a) rfl ys hscan
        have h2 : rewriteModuleAddress p a = a := by
          rw [h1, hys, joinSep_splitSep]
        rw [h2]
        exact h2
      | true =>
        have hys2 := scanModuleParts_true_two p _ ys hscan
        have hysne : ys ≠ [] := by
          intro h
          rw [h] at hys2
          simp at hys2
        have hysfree : ∀ e ∈ ys, '.' ∉ e := by
          intro e he
          have hall := scanModuleParts_free p false (splitSep '.' a) hp hfree e
          rw [hscan] at hall
          exact hall he
        have hjne : joinSep '.' ys ≠ [] := joinSep_len2_ne_nil '.' ys hys2
        have hg2 : ¬ (p = [] ∨ joinSep '.' ys = []) := by
          intro h
          rcases h with h | h
          · exact hpne h
          · exact hjne h
        have hscan2 : scanModuleParts p false ys = (ys, true) :=
          scanModuleParts_false_idem p false (splitSep '.' a) rfl ys hscan
        have h2 : rewriteModuleAddress p (joinSep '.' ys) = joinSep '.' ys := by
          simp only [rewriteModuleAddress, if_neg hg2,
            splitSep_joinSep '.' ys hysne hysfree, hscan2]
        rw [h1, h2]

lemma rewriteAddress_idem (p a : GoStr) (hp : '.' ∉ p) :
    rewriteAddress p (rewriteAddress p a) = rewriteAddress p a := by
  by_cases hg : p = [] ∨ a = []
  · have h1 : rewriteAddress p a = a := by rw [rewriteAddress, if_pos hg]
    rw [h1]
    exact h1
  · have hpne : p ≠ [] := fun h => hg (Or.inl h)
    have hfree := not_mem_of_splitSep '.' a
    cases hscan : scanModuleParts p false (splitSep '.' a) with
    | mk ys flag =>
      cases flag with
      | true =>
        have h1 := rewriteAddress_unfold_mod p a hg ys hscan
        have hys2 := scanModuleParts_true_two p _ ys hscan
        have hysne : ys ≠ [] := by
          intro h
          rw [h] at hys2
          simp at hys2
        have hysfree : ∀ e ∈ ys, '.' ∉ e := by
          intro e he
          have hall := scanModuleParts_free p false (splitSep '.' a) hp hfree e
          rw [hscan] at hall
          exact hall he
        have hjne : joinSep '.' ys ≠ [] := joinSep_len2_ne_nil '.' ys hys2
        have hg2 : ¬ (p = [] ∨ joinSep '.' ys = []) := by
          intro h
          rcases h with h | h
          · exact hpne h
          · exact hjne h
        have hscan2 : scanModuleParts p false (splitSep '.' (joinSep '.' ys)) = (ys, true) := by
          rw [splitSep_joinSep '.' ys hysne hysfree]
          exact scanModuleParts_false_idem p false (splitSep '.' a) rfl ys hscan
        have h2 := rewriteAddress_unfold_mod p (joinSep '.' ys) hg2 ys hscan2
        rw [h1, h2]
      | false =>
        obtain ⟨hys, hnp⟩ := scanModuleParts_false_eq p false (splitSep '.' a) rfl ys hscan
        subst hys
        have h1 := rewriteAddress_unfold_res p a hg _ hscan
        by_cases hle : (splitSep '.' a).length ≤ (if (splitSep '.' a).headD [] = "data".data then 1 else 0) + 1
        · have h2 : rewriteAddress p a = a := by
            rw [h1, typeTargetRewrite_le p _ hle, joinSep_splitSep]
          rw [h2]
          exact h2
        · have hlen : (if (splitSep '.' a).headD [] = "data".data then 1 else 0) + 1 < (splitSep '.' a).length := Nat.lt_of_not_le hle
          have h2 : rewriteAddress p a = joinSep '.' ((splitSep '.' a).set ((if (splitSep '.' a).headD [] = "data".data then 1 else 0) + 1) (prefixSegment p ((splitSep '.' a).getD ((if (splitSep '.' a).headD [] = "data".data then 1 else 0) + 1) []))) := by
            rw [h1, typeTargetRewrite_gt p _ hle]
          have hlen2 : (((splitSep '.' a).set ((if (splitSep '.' a).headD [] = "data".data then 1 else 0) + 1) (prefixSegment p ((splitSep '.' a).getD ((if (splitSep '.' a).headD [] = "data".data then 1 else 0) + 1) [])))).length = (splitSep '.' a).length := List.length_set _ _ _
          have hfree2 : ∀ e ∈ ((splitSep '.' a).set ((if (splitSep '.' a).headD [] = "data".data then 1 else 0) + 1) (prefixSegment p ((splitSep '.' a).getD ((if (splitSep '.' a).headD [] = "data".data then 1 else 0) + 1) []))), '.' ∉ e := by
            intro e he
            rcases List.mem_or_eq_of_mem_set he with h | h
            · exact hfree e h
            · rw [h]
              exact prefixSegment_free p _ hp (hfree _ (getD_mem _ _ [] hlen))
          have hnp2 : noModulePair ((splitSep '.' a).set ((if (splitSep '.' a).headD [] = "data".data then 1 else 0) + 1) (prefixSegment p ((splitSep '.' a).getD ((if (splitSep '.' a).headD [] = "data".data then 1 else 0) + 1) []))) :=
            noModulePair_set _ _ _ (prefixSegment_ne_module p _ hpne) hnp
          have hlen2b : 2 ≤ (((splitSep '.' a).set ((if (splitSep '.' a).headD [] = "data".data then 1 else 0) + 1) (prefixSegment p ((splitSep '.' a).getD ((if (splitSep '.' a).headD [] = "data".data then 1 else 0) + 1) [])))).length := by
            rw [hlen2]
            omega
          have hne2 : ((splitSep '.' a).set ((if (splitSep '.' a).headD [] = "data".data then 1 else 0) + 1) (prefixSegment p ((splitSep '.' a).getD ((if (splitSep '.' a).headD [] = "data".data then 1 else 0) + 1) []))) ≠ [] := by
            intro h
            rw [h] at hlen2b
            simp at hlen2b
          have hjne : joinSep '.' ((splitSep '.' a).set ((if (splitSep '.' a).headD [] = "data".data then 1 else 0) + 1) (prefixSegment p ((splitSep '.' a).getD ((if (splitSep '.' a).headD [] = "data".data then 1 else 0) + 1) []))) ≠ [] := joinSep_len2_ne_nil '.' _ hlen2b
          have hg2 : ¬ (p = [] ∨ joinSep '.' ((splitSep '.' a).set ((if (splitSep '.' a).headD [] = "data".data then 1 else 0) + 1) (prefixSegment p ((splitSep '.' a).getD ((if (splitSep '.' a).headD [] = "data".data then 1 else 0) + 1) []))) = []) := by
            intro h
            rcases h with h | h
            · exact hpne h
            · exact hjne h
          have hscan2 : scanModuleParts p false
              (splitSep '.' (joinSep '.' ((splitSep '.' a).set ((if (splitSep '.' a).headD [] = "data".data then 1 else 0) + 1) (prefixSegment p ((splitSep '.' a).getD ((if (splitSep '.' a).headD [] = "data".data then 1 else 0) + 1) []))))) = (((splitSep '.' a).set ((if (splitSep '.' a).headD [] = "data".data then 1 else 0) + 1) (prefixSegment p ((splitSep '.' a).getD ((if (splitSep '.' a).headD [] = "data".data then 1 else 0) + 1) []))), false) := by
            rw [splitSep_joinSep '.' _ hne2 hfree2]
            exact scanModuleParts_of_noPair p false _ hnp2
          have h3 := rewriteAddress_unfold_res p (joinSep '.' ((splitSep '.' a).set ((if (splitSep '.' a).headD [] = "data".data then 1 else 0) + 1) (prefixSegment p ((splitSep '.' a).getD ((if (splitSep '.' a).headD [] = "data".data then 1 else 0) + 1) [])))) hg2 _ hscan2
          have hhead : (((splitSep '.' a).set ((if (splitSep '.' a).headD [] = "data".data then 1 else 0) + 1) (prefixSegment p ((splitSep '.' a).getD ((if (splitSep '.' a).headD [] = "data".data then 1 else 0) + 1) [])))).headD [] = (splitSep '.' a).headD [] :=
            headD_set_succ _ _ _ _
          have hle2 : ¬ (((splitSep '.' a).set ((if (splitSep '.' a).headD [] = "data".data then 1 else 0) + 1) (prefixSegment p ((splitSep '.' a).getD ((if (splitSep '.' a).headD [] = "data".data then 1 else 0) + 1) [])))).length ≤
              (if (((splitSep '.' a).set ((if (splitSep '.' a).headD [] = "data".data then 1 else 0) + 1) (prefixSegment p ((splitSep '.' a).getD ((if (splitSep '.' a).headD [] = "data".data then 1 else 0) + 1) [])))).headD [] = "data".data then 1 else 0) + 1 := by
            rw [hhead, hlen2]
            exact hle
          have h4 := typeTargetRewrite_gt p ((splitSep '.' a).set ((if (splitSep '.' a).headD [] = "data".data then 1 else 0) + 1) (prefixSegment p ((splitSep '.' a).getD ((if (splitSep '.' a).headD [] = "data".data then 1 else 0) + 1) []))) hle2
          rw [hhead] at h4
          rw [getD_set_self _ _ _ [] hlen, prefixSegment_idem, List.set_set] at h4
          have h5 : rewriteAddress p (joinSep '.' ((splitSep '.' a).set ((if (splitSep '.' a).headD [] = "data".data then 1 else 0) + 1) (prefixSegment p ((splitSep '.' a).getD ((if (splitSep '.' a).headD [] = "data".data then 1 else 0) + 1) [])))) = joinSep '.' ((splitSep '.' a).set ((if (splitSep '.' a).headD [] = "data".data then 1 else 0) + 1) (prefixSegment p ((splitSep '.' a).getD ((if (splitSep '.' a).headD [] = "data".data then 1 else 0) + 1) []))) := by
            rw [h3, h4]
          rw [h2, h5]

lemma rewriteDependencies_idem (deps : List JVal) (p : GoStr) (hp : '.' ∉ p) :
    rewriteDependencies (rewriteDependencies deps p) p = rewriteDependencies deps p := by
  induction deps with
  | nil => rfl
  | cons dep rest ih =>
    cases dep with
    | jstr s =>
      simp only [rewriteDependencies]
      rw [rewriteAddress_idem p s hp, ih]
    | jnull =>
      simp only [rewriteDependencies]
      rw [ih]
    | jbool b =>
      simp only [rewriteDependencies]
      rw [ih]
    | jnum n =>
      simp only [rewriteDependencies]
      rw [ih]
    | jarr xs =>
      simp only [rewriteDependencies]
      rw [ih]
    | jobj fs =>
      simp only [rewriteDependencies]
      rw [ih]

/-- Go type assertion `m[k].(string)`. -/
def getStr (m : Obj) (k : GoStr) : Option GoStr :=
  match objGet m k with
  | some (.jstr s) => some s
  | _ => none

/-- Go type assertion `m[k].([]interface{})`. -/
def getArr (m : Obj) (k : GoStr) : Option (List JVal) :=
  match objGet m k with
  | some (.jarr xs) => some xs
  | _ => none

/-- Resource-name prefixing step of `prefixResources` (run.go 413–419): the
name is prefixed only when the resource has no module path. -/
def nameStep (p : GoStr) (m : Obj) : Obj :=
  match getStr m "name".data with
  | some name =>
    if (getStr m "module".data).isSome = false ∨ (getStr m "module".data).getD [] = [] then
      objSet m "name".data (.jstr (prefixSegment p name))
    else m
  | none => m

/-- Address rewriting step of `prefixResources` (run.go 421–423). -/
def addrStep (p : GoStr) (m : Obj) : Obj :=
  match getStr m "address".data with
  | some addr => objSet m "address".data (.jstr (rewriteAddress p addr))
  | none => m

/-- Module-address rewriting step of `prefixResources` (run.go 425–427). -/
def moduleStep (p : GoStr) (m : Obj) : Obj :=
  match getStr m "module".data with
  | some addr =>
    if addr ≠ [] then objSet m "module".data (.jstr (rewriteModuleAddress p addr)) else m
  | none => m

/-- Dependency-list rewriting step (run.go 429–431, 440–446, 469–471). -/
def depStep (k : GoStr) (p : GoStr) (m : Obj) : Obj :=
  match getArr m k with
  | some deps => objSet m k (.jarr (rewriteDependencies deps p))
  | none => m

lemma allEq_of_objSet_fixed (m : Obj) (k : GoStr) (w : JVal) (h : objSet m k w = m) :
    AllEq m k w := by
  have h2 := allEq_objSet_same m k w
  rw [h] at h2
  exact h2

lemma objGet_of_objSet_fixed (m : Obj) (k : GoStr) (w : JVal) (h : objSet m k w = m) :
    objGet m k = some w := by
  have h2 := objGet_objSet_same m k w
  rw [h] at h2
  exact h2

lemma objSet_fixed_objSet_other (m : Obj) (ko kw : GoStr) (v w : JVal) (hne : kw ≠ ko)
    (hfix : objSet m kw w = m) : objSet (objSet m ko v) kw w = objSet m ko v :=
  objSet_eq_self _ _ _ w
    (allEq_objSet_other _ _ _ _ _ (allEq_of_objSet_fixed m kw w hfix) hne)
    (by rw [objGet_objSet_other _ _ _ _ hne]; exact objGet_of_objSet_fixed m kw w hfix)

lemma getStr_objSet_other (m : Obj) (k k2 : GoStr) (v : JVal) (hne : k2 ≠ k) :
    getStr (objSet m k v) k2 = getStr m k2 := by
  rw [getStr, getStr, objGet_objSet_other _ _ _ _ hne]

lemma getArr_objSet_other (m : Obj) (k k2 : GoStr) (v : JVal) (hne : k2 ≠ k) :
    getArr (objSet m k v) k2 = getArr m k2 := by
  rw [getArr, getArr, objGet_objSet_other _ _ _ _ hne]

lemma getStr_objSet_same (m : Obj) (k : GoStr) (s : GoStr) :
    getStr (objSet m k (.jstr s)) k = some s := by
  rw [getStr, objGet_objSet_same]

lemma getArr_objSet_same (m : Obj) (k : GoStr) (xs : List JVal) :
    getArr (objSet m k (.jarr xs)) k = some xs := by
  rw [getArr, objGet_objSet_same]

lemma objSet_objSet_self (m : Obj) (k : GoStr) (v : JVal) :
    objSet (objSet m k v) k v = objSet m k v :=
  objSet_eq_self _ _ _ v (allEq_objSet_same m k v) (objGet_objSet_same m k v)

lemma objGet_chain_other (m m2 : Obj) (kw k2 : GoStr) (hne : k2 ≠ kw)
    (hc : m2 = m ∨ ∃ w, m2 = objSet m kw w) : objGet m2 k2 = objGet m k2 := by
  rcases hc with h | ⟨w, h⟩
  · rw [h]
  · rw [h, objGet_objSet_other _ _ _ _ hne]

lemma allEq_chain_other (m m2 : Obj) (kw k0 : GoStr) (v : JVal) (hne : k0 ≠ kw)
    (h : AllEq m k0 v) (hc : m2 = m ∨ ∃ w, m2 = objSet m kw w) : AllEq m2 k0 v := by
  rcases hc with h2 | ⟨w, h2⟩
  · rw [h2]
    exact h
  · rw [h2]
    exact allEq_objSet_other _ _ _ _ _ h hne

lemma getStr_congr (m m2 : Obj) (k : GoStr) (h : objGet m2 k = objGet m k) :
    getStr m2 k = getStr m k := by
  rw [getStr, getStr, h]

lemma getArr_congr (m m2 : Obj) (k : GoStr) (h : objGet m2 k = objGet m k) :
    getArr m2 k = getArr m k := by
  rw [getArr, getArr, h]

lemma getStr_eq_some (m : Obj) (k s : GoStr) (h : getStr m k = some s) :
    objGet m k = some (.jstr s) := by
  rw [getStr] at h
  cases hg : objGet m k with
  | none => rw [hg] at h; exact absurd h (by simp)
  | some v =>
    rw [hg] at h
    cases v with
    | jstr s2 =>
      simp only [Option.some.injEq] at h
      rw [h]
    | jnull => exact absurd h (by simp)
    | jbool b => exact absurd h (by simp)
    | jnum n => exact absurd h (by simp)
    | jarr xs => exact absurd h (by simp)
    | jobj fs => exact absurd h (by simp)

lemma getArr_eq_some (m : Obj) (k : GoStr) (xs : List JVal) (h : getArr m k = some xs) :
    objGet m k = some (.jarr xs) := by
  rw [getArr] at h
  cases hg : objGet m k with
  | none => rw [hg] at h; exact absurd h (by simp)
  | some v =>
    rw [hg] at h
    cases v with
    | jarr ys =>
      simp only [Option.some.injEq] at h
      rw [h]
    | jnull => exact absurd h (by simp)
    | jbool b => exact absurd h (by simp)
    | jnum n => exact absurd h (by simp)
    | jstr s2 => exact absurd h (by simp)
    | jobj fs => exact absurd h (by simp)

lemma nameStep_cases (p : GoStr) (m : Obj) :
    nameStep p m = m ∨ ∃ w, nameStep p m = objSet m "name".data w := by
  cases hn : getStr m "name".data with
  | none => exact Or.inl (by simp only [nameStep, hn])
  | some name =>
    by_cases hc : (getStr m "module".data).isSome = false ∨
        (getStr m "module".data).getD [] = []
    · exact Or.inr ⟨.jstr (prefixSegment p name), by simp only [nameStep, hn, if_pos hc]⟩
    · exact Or.inl (by simp only [nameStep, hn, if_neg hc])

lemma addrStep_cases (p : GoStr) (m : Obj) :
    addrStep p m = m ∨ ∃ w, addrStep p m = objSet m "address".data w := by
  cases hn : getStr m "address".data with
  | none => exact Or.inl (by simp only [addrStep, hn])
  | some addr =>
    exact Or.inr ⟨.jstr (rewriteAddress p addr), by simp only [addrStep, hn]⟩

lemma moduleStep_cases (p : GoStr) (m : Obj) :
    moduleStep p m = m ∨ ∃ w, moduleStep p m = objSet m "module".data w := by
  cases hn : getStr m "module".data with
  | none => exact Or.inl (by simp only [moduleStep, hn])
  | some addr =>
    by_cases ha : addr ≠ []
    · exact Or.inr ⟨.jstr (rewriteModuleAddress p addr), by simp only [moduleStep, hn, if_pos ha]⟩
    · exact Or.inl (by simp only [moduleStep, hn, if_neg ha])

lemma depStep_cases (k p : GoStr) (m : Obj) :
    depStep k p m = m ∨ ∃ w, depStep k p m = objSet m k w := by
  cases hn : getArr m k with
  | none => exact Or.inl (by simp only [depStep, hn])
  | some deps =>
    exact Or.inr ⟨.jarr (rewriteDependencies deps p), by simp only [depStep, hn]⟩

lemma depStep_idem (k p : GoStr) (m : Obj) (hp : '.' ∉ p) :
    depStep k p (depStep k p m) = depStep k p m := by
  cases hd : getArr m k with
  | none =>
    have h1 : depStep k p m = m := by simp only [depStep, hd]
    rw [h1]
    exact h1
  | some ds =>
    have h1 : depStep k p m = objSet m k (.jarr (rewriteDependencies ds p)) := by
      simp only [depStep, hd]
    have h2 : depStep k p (objSet m k (.jarr (rewriteDependencies ds p))) =
        objSet (objSet m k (.jarr (rewriteDependencies ds p))) k
          (.jarr (rewriteDependencies (rewriteDependencies ds p) p)) := by
      simp only [depStep, getArr_objSet_same]
    rw [h1, h2, rewriteDependencies_idem ds p hp, objSet_objSet_self]

lemma nameStep_fix_set (p : GoStr) (m : Obj) (ko : GoStr) (v : JVal)
    (h1 : "name".data ≠ ko) (h2 : "module".data ≠ ko)
    (hfix : nameStep p m = m) : nameStep p (objSet m ko v) = objSet m ko v := by
  have hrn : getStr (objSet m ko v) "name".data = getStr m "name".data :=
    getStr_objSet_other m ko "name".data v h1
  have hrm : getStr (objSet m ko v) "module".data = getStr m "module".data :=
    getStr_objSet_other m ko "module".data v h2
  cases hn : getStr m "name".data with
  | none => simp only [nameStep, hrn, hn]
  | some name =>
    by_cases hc : (getStr m "module".data).isSome = false ∨
        (getStr m "module".data).getD [] = []
    · have hw : objSet m "name".data (.jstr (prefixSegment p name)) = m := by
        have hthis := hfix
        simp only [nameStep, hn, if_pos hc] at hthis
        exact hthis
      have hc2 : (getStr (objSet m ko v) "module".data).isSome = false ∨
          (getStr (objSet m ko v) "module".data).getD [] = [] := by
        rw [hrm]
        exact hc
      simp only [nameStep, hrn, hn, if_pos hc2]
      exact objSet_fixed_objSet_other m ko "name".data v (.jstr (prefixSegment p name)) h1 hw
    · have hc2 : ¬ ((getStr (objSet m ko v) "module".data).isSome = false ∨
          (getStr (objSet m ko v) "module".data).getD [] = []) := by
        rw [hrm]
        exact hc
      simp only [nameStep, hrn, hn, if_neg hc2]

lemma addrStep_fix_set (p : GoStr) (m : Obj) (ko : GoStr) (v : JVal)
    (h1 : "address".data ≠ ko)
    (hfix : addrStep p m = m) : addrStep p (objSet m ko v) = objSet m ko v := by
  have hrn : getStr (objSet m ko v) "address".data = getStr m "address".data :=
    getStr_objSet_other m ko "address".data v h1
  cases hn : getStr m "address".data with
  | none => simp only [addrStep, hrn, hn]
  | some addr =>
    have hw : objSet m "address".data (.jstr (rewriteAddress p addr)) = m := by
      have hthis := hfix
      simp only [addrStep, hn] at hthis
      exact hthis
    simp only [addrStep, hrn, hn]
    exact objSet_fixed_objSet_other m ko "address".data v (.jstr (rewriteAddress p addr)) h1 hw

lemma moduleStep_fix_set (p : GoStr) (m : Obj) (ko : GoStr) (v : JVal)
    (h1 : "module".data ≠ ko)
    (hfix : moduleStep p m = m) : moduleStep p (objSet m ko v) = objSet m ko v := by
  have hrn : getStr (objSet m ko v) "module".data = getStr m "module".data :=
    getStr_objSet_other m ko "module".data v h1
  cases hn : getStr m "module".data with
  | none => simp only [moduleStep, hrn, hn]
  | some addr =>
    by_cases ha : addr ≠ []
    · have hw : objSet m "module".data (.jstr (rewriteModuleAddress p addr)) = m := by
        have hthis := hfix
        simp only [moduleStep, hn, if_pos ha] at hthis
        exact hthis
      simp only [moduleStep, hrn, hn, if_pos ha]
      exact objSet_fixed_objSet_other m ko "module".data v
        (.jstr (rewriteModuleAddress p addr)) h1 hw
    · simp only [moduleStep, hrn, hn, if_neg ha]

lemma depStep_fix_set (k p : GoStr) (m : Obj) (ko : GoStr) (v : JVal)
    (h1 : k ≠ ko)
    (hfix : depStep k p m = m) : depStep k p (objSet m ko v) = objSet m ko v := by
  have hrn : getArr (objSet m ko v) k = getArr m k :=
    getArr_objSet_other m ko k v h1
  cases hn : getArr m k with
  | none => simp only [depStep, hrn, hn]
  | some ds =>
    have hw : objSet m k (.jarr (rewriteDependencies ds p)) = m := by
      have hthis := hfix
      simp only [depStep, hn] at hthis
      exact hthis
    simp only [depStep, hrn, hn]
    exact objSet_fixed_objSet_other m ko k v (.jarr (rewriteDependencies ds p)) h1 hw

/-- The four in-place key rewrites applied to one resource map by
`prefixResources` (run.go 411–431). -/
def resourceKeySteps (p : GoStr) (m : Obj) : Obj :=
  depStep "depends_on".data p (moduleStep p (addrStep p (nameStep p m)))

lemma nameStep_of_none (p : GoStr) (m : Obj) (h : getStr m "name".data = none) :
    nameStep p m = m := by
  simp only [nameStep, h]

lemma nameStep_of_some_pos (p : GoStr) (m : Obj) (name : GoStr)
    (h : getStr m "name".data = some name)
    (hc : (getStr m "module".data).isSome = false ∨ (getStr m "module".data).getD [] = []) :
    nameStep p m = objSet m "name".data (.jstr (prefixSegment p name)) := by
  simp only [nameStep, h, if_pos hc]

lemma nameStep_of_some_neg (p : GoStr) (m : Obj) (name : GoStr)
    (h : getStr m "name".data = some name)
    (hc : ¬ ((getStr m "module".data).isSome = false ∨
      (getStr m "module".data).getD [] = [])) :
    nameStep p m = m := by
  simp only [nameStep, h, if_neg hc]

lemma addrStep_of_none (p : GoStr) (m : Obj) (h : getStr m "address".data = none) :
    addrStep p m = m := by
  simp only [addrStep, h]

lemma addrStep_of_some (p : GoStr) (m : Obj) (addr : GoStr)
    (h : getStr m "address".data = some addr) :
    addrStep p m = objSet m "address".data (.jstr (rewriteAddress p addr)) := by
  simp only [addrStep, h]

lemma moduleStep_of_none (p : GoStr) (m : Obj) (h : getStr m "module".data = none) :
    moduleStep p m = m := by
  simp only [moduleStep, h]

lemma moduleStep_of_some_ne (p : GoStr) (m : Obj) (a : GoStr)
    (h : getStr m "module".data = some a) (ha : a ≠ []) :
    moduleStep p m = objSet m "module".data (.jstr (rewriteModuleAddress p a)) := by
  simp only [moduleStep, h, if_pos ha]

lemma moduleStep_of_some_nil (p : GoStr) (m : Obj) (a : GoStr)
    (h : getStr m "module".data = some a) (ha : ¬ a ≠ []) :
    moduleStep p m = m := by
  simp only [moduleStep, h, if_neg ha]

lemma depStep_of_none (k p : GoStr) (m : Obj) (h : getArr m k = none) :
    depStep k p m = m := by
  simp only [depStep, h]

lemma depStep_of_some (k p : GoStr) (m : Obj) (ds : List JVal) (h : getArr m k = some ds) :
    depStep k p m = objSet m k (.jarr (rewriteDependencies ds p)) := by
  simp only [depStep, h]

lemma addrStep_fix_chain (p : GoStr) (m0 : Obj) (hp : '.' ∉ p) :
    addrStep p (depStep "depends_on".data p (moduleStep p (addrStep p (nameStep p m0)))) = depStep "depends_on".data p (moduleStep p (addrStep p (nameStep p m0))) := by
  have hdc := depStep_cases "depends_on".data p (moduleStep p (addrStep p (nameStep p m0)))
  have hmc := moduleStep_cases p (addrStep p (nameStep p m0))
  have g1 : objGet (depStep "depends_on".data p (moduleStep p (addrStep p (nameStep p m0)))) "address".data = objGet (moduleStep p (addrStep p (nameStep p m0))) "address".data :=
    objGet_chain_other (moduleStep p (addrStep p (nameStep p m0))) (depStep "depends_on".data p (moduleStep p (addrStep p (nameStep p m0)))) "depends_on".data "address".data (by decide) hdc
  have g2 : objGet (moduleStep p (addrStep p (nameStep p m0))) "address".data = objGet (addrStep p (nameStep p m0)) "address".data :=
    objGet_chain_other (addrStep p (nameStep p m0)) (moduleStep p (addrStep p (nameStep p m0))) "module".data "address".data (by decide) hmc
  cases hn : getStr (nameStep p m0) "address".data with
  | none =>
    have g3 : getStr (depStep "depends_on".data p (moduleStep p (addrStep p (nameStep p m0)))) "address".data = none := by
      rw [getStr_congr _ _ _ (g1.trans g2), addrStep_of_none p (nameStep p m0) hn, hn]
    exact addrStep_of_none p (depStep "depends_on".data p (moduleStep p (addrStep p (nameStep p m0)))) g3
  | some addr =>
    have hA := addrStep_of_some p (nameStep p m0) addr hn
    have g3 : getStr (depStep "depends_on".data p (moduleStep p (addrStep p (nameStep p m0)))) "address".data = some (rewriteAddress p addr) := by
      rw [getStr, g1.trans g2, hA, objGet_objSet_same]
    have hAll1 : AllEq (addrStep p (nameStep p m0)) "address".data (.jstr (rewriteAddress p addr)) := by
      rw [hA]
      exact allEq_objSet_same _ _ _
    have hAll2 : AllEq (moduleStep p (addrStep p (nameStep p m0))) "address".data (.jstr (rewriteAddress p addr)) :=
      allEq_chain_other (addrStep p (nameStep p m0)) (moduleStep p (addrStep p (nameStep p m0))) "module".data "address".data _ (by decide) hAll1 hmc
    have hAll3 : AllEq (depStep "depends_on".data p (moduleStep p (addrStep p (nameStep p m0)))) "address".data (.jstr (rewriteAddress p addr)) :=
      allEq_chain_other (moduleStep p (addrStep p (nameStep p m0))) (depStep "depends_on".data p (moduleStep p (addrStep p (nameStep p m0)))) "depends_on".data "address".data _ (by decide) hAll2 hdc
    rw [addrStep_of_some p (depStep "depends_on".data p (moduleStep p (addrStep p (nameStep p m0)))) (rewriteAddress p addr) g3,
      rewriteAddress_idem p addr hp]
    exact objSet_eq_self _ _ _ _ hAll3 (getStr_eq_some _ _ _ g3)

lemma moduleStep_fix_chain (p : GoStr) (m0 : Obj) (hp : '.' ∉ p) :
    moduleStep p (depStep "depends_on".data p (moduleStep p (addrStep p (nameStep p m0)))) = depStep "depends_on".data p (moduleStep p (addrStep p (nameStep p m0))) := by
  have hdc := depStep_cases "depends_on".data p (moduleStep p (addrStep p (nameStep p m0)))
  have g1 : objGet (depStep "depends_on".data p (moduleStep p (addrStep p (nameStep p m0)))) "module".data = objGet (moduleStep p (addrStep p (nameStep p m0))) "module".data :=
    objGet_chain_other (moduleStep p (addrStep p (nameStep p m0))) (depStep "depends_on".data p (moduleStep p (addrStep p (nameStep p m0)))) "depends_on".data "module".data (by decide) hdc
  cases hm : getStr (addrStep p (nameStep p m0)) "module".data with
  | none =>
    have g3 : getStr (depStep "depends_on".data p (moduleStep p (addrStep p (nameStep p m0)))) "module".data = none := by
      rw [getStr_congr _ _ _ g1, moduleStep_of_none p (addrStep p (nameStep p m0)) hm, hm]
    exact moduleStep_of_none p (depStep "depends_on".data p (moduleStep p (addrStep p (nameStep p m0)))) g3
  | some a =>
    by_cases ha : a ≠ []
    · have hM := moduleStep_of_some_ne p (addrStep p (nameStep p m0)) a hm ha
      have g3 : getStr (depStep "depends_on".data p (moduleStep p (addrStep p (nameStep p m0)))) "module".data = some (rewriteModuleAddress p a) := by
        rw [getStr, g1, hM, objGet_objSet_same]
      have ha2 : rewriteModuleAddress p a ≠ [] := rewriteModuleAddress_ne_nil p a ha
      have hAll1 : AllEq (moduleStep p (addrStep p (nameStep p m0))) "module".data (.jstr (rewriteModuleAddress p a)) := by
        rw [hM]
        exact allEq_objSet_same _ _ _
      have hAll2 : AllEq (depStep "depends_on".data p (moduleStep p (addrStep p (nameStep p m0)))) "module".data (.jstr (rewriteModuleAddress p a)) :=
        allEq_chain_other (moduleStep p (addrStep p (nameStep p m0))) (depStep "depends_on".data p (moduleStep p (addrStep p (nameStep p m0)))) "depends_on".data "module".data _ (by decide) hAll1 hdc
      rw [moduleStep_of_some_ne p (depStep "depends_on".data p (moduleStep p (addrStep p (nameStep p m0)))) (rewriteModuleAddress p a) g3 ha2,
        rewriteModuleAddress_idem p a hp]
      exact objSet_eq_self _ _ _ _ hAll2 (getStr_eq_some _ _ _ g3)
    · have hM := moduleStep_of_some_nil p (addrStep p (nameStep p m0)) a hm ha
      have g3 : getStr (depStep "depends_on".data p (moduleStep p (addrStep p (nameStep p m0)))) "module".data = some a := by
        rw [getStr_congr _ _ _ g1, hM, hm]
      exact moduleStep_of_some_nil p (depStep "depends_on".data p (moduleStep p (addrStep p (nameStep p m0)))) a g3 ha

lemma depStep_fix_chain (p : GoStr) (m0 : Obj) (hp : '.' ∉ p) :
    depStep "depends_on".data p (depStep "depends_on".data p (moduleStep p (addrStep p (nameStep p m0)))) = depStep "depends_on".data p (moduleStep p (addrStep p (nameStep p m0))) :=
  depStep_idem "depends_on".data p (moduleStep p (addrStep p (nameStep p m0))) hp

lemma nameStep_fix_chain (p : GoStr) (m0 : Obj) (_hp : '.' ∉ p) :
    nameStep p (depStep "depends_on".data p (moduleStep p (addrStep p (nameStep p m0)))) = depStep "depends_on".data p (moduleStep p (addrStep p (nameStep p m0))) := by
  have hnc := nameStep_cases p m0
  have hac := addrStep_cases p (nameStep p m0)
  have hmc := moduleStep_cases p (addrStep p (nameStep p m0))
  have hdc := depStep_cases "depends_on".data p (moduleStep p (addrStep p (nameStep p m0)))
  have g1 : objGet (depStep "depends_on".data p (moduleStep p (addrStep p (nameStep p m0)))) "name".data = objGet (moduleStep p (addrStep p (nameStep p m0))) "name".data :=
    objGet_chain_other (moduleStep p (addrStep p (nameStep p m0))) (depStep "depends_on".data p (moduleStep p (addrStep p (nameStep p m0)))) "depends_on".data "name".data (by decide) hdc
  have g2 : objGet (moduleStep p (addrStep p (nameStep p m0))) "name".data = objGet (addrStep p (nameStep p m0)) "name".data :=
    objGet_chain_other (addrStep p (nameStep p m0)) (moduleStep p (addrStep p (nameStep p m0))) "module".data "name".data (by decide) hmc
  have g3 : objGet (addrStep p (nameStep p m0)) "name".data = objGet (nameStep p m0) "name".data :=
    objGet_chain_other (nameStep p m0) (addrStep p (nameStep p m0)) "address".data "name".data (by decide) hac
  have gname : objGet (depStep "depends_on".data p (moduleStep p (addrStep p (nameStep p m0)))) "name".data = objGet (nameStep p m0) "name".data :=
    (g1.trans g2).trans g3
  have gmod1 : objGet (depStep "depends_on".data p (moduleStep p (addrStep p (nameStep p m0)))) "module".data = objGet (moduleStep p (addrStep p (nameStep p m0))) "module".data :=
    objGet_chain_other (moduleStep p (addrStep p (nameStep p m0))) (depStep "depends_on".data p (moduleStep p (addrStep p (nameStep p m0)))) "depends_on".data "module".data (by decide) hdc
  have gmod2 : objGet (addrStep p (nameStep p m0)) "module".data = objGet (nameStep p m0) "module".data :=
    objGet_chain_other (nameStep p m0) (addrStep p (nameStep p m0)) "address".data "module".data (by decide) hac
  have gmod3 : objGet (nameStep p m0) "module".data = objGet m0 "module".data :=
    objGet_chain_other m0 (nameStep p m0) "name".data "module".data (by decide) hnc
  have gmA : getStr (addrStep p (nameStep p m0)) "module".data = getStr m0 "module".data :=
    getStr_congr _ _ _ (gmod2.trans gmod3)
  cases hn : getStr m0 "name".data with
  | none =>
    have gg : getStr (depStep "depends_on".data p (moduleStep p (addrStep p (nameStep p m0)))) "name".data = none := by
      rw [getStr_congr _ _ _ gname, nameStep_of_none p m0 hn, hn]
    exact nameStep_of_none p (depStep "depends_on".data p (moduleStep p (addrStep p (nameStep p m0)))) gg
  | some name =>
    by_cases hc : (getStr m0 "module".data).isSome = false ∨
        (getStr m0 "module".data).getD [] = []
    · have hN := nameStep_of_some_pos p m0 name hn hc
      have gg : getStr (depStep "depends_on".data p (moduleStep p (addrStep p (nameStep p m0)))) "name".data = some (prefixSegment p name) := by
        rw [getStr, gname, hN, objGet_objSet_same]
      have hAll1 : AllEq (nameStep p m0) "name".data (.jstr (prefixSegment p name)) := by
        rw [hN]
        exact allEq_objSet_same _ _ _
      have hAll2 : AllEq (addrStep p (nameStep p m0)) "name".data (.jstr (prefixSegment p name)) :=
        allEq_chain_other (nameStep p m0) (addrStep p (nameStep p m0)) "address".data "name".data _ (by decide) hAll1 hac
      have hAll3 : AllEq (moduleStep p (addrStep p (nameStep p m0))) "name".data (.jstr (prefixSegment p name)) :=
        allEq_chain_other (addrStep p (nameStep p m0)) (moduleStep p (addrStep p (nameStep p m0))) "module".data "name".data _ (by decide) hAll2 hmc
      have hAll4 : AllEq (depStep "depends_on".data p (moduleStep p (addrStep p (nameStep p m0)))) "name".data (.jstr (prefixSegment p name)) :=
        allEq_chain_other (moduleStep p (addrStep p (nameStep p m0))) (depStep "depends_on".data p (moduleStep p (addrStep p (nameStep p m0)))) "depends_on".data "name".data _ (by decide) hAll3 hdc
      have hcD : (getStr (depStep "depends_on".data p (moduleStep p (addrStep p (nameStep p m0)))) "module".data).isSome = false ∨
          (getStr (depStep "depends_on".data p (moduleStep p (addrStep p (nameStep p m0)))) "module".data).getD [] = [] := by
        cases hm0 : getStr m0 "module".data with
        | none =>
          have hM : moduleStep p (addrStep p (nameStep p m0)) = addrStep p (nameStep p m0) :=
            moduleStep_of_none p (addrStep p (nameStep p m0)) (by rw [gmA, hm0])
          have ggm : getStr (depStep "depends_on".data p (moduleStep p (addrStep p (nameStep p m0)))) "module".data = none := by
            rw [getStr_congr _ _ _ gmod1, hM, gmA, hm0]
          exact Or.inl (by rw [ggm]; rfl)
        | some a =>
          have hae : a = [] := by
            rcases hc with h | h
            · rw [hm0] at h
              exact absurd h (by simp)
            · rw [hm0] at h
              simpa using h
          subst hae
          have hM : moduleStep p (addrStep p (nameStep p m0)) = addrStep p (nameStep p m0) :=
            moduleStep_of_some_nil p (addrStep p (nameStep p m0)) [] (by rw [gmA, hm0]) (by simp)
          have ggm : getStr (depStep "depends_on".data p (moduleStep p (addrStep p (nameStep p m0)))) "module".data = some [] := by
            rw [getStr_congr _ _ _ gmod1, hM, gmA, hm0]
          exact Or.inr (by rw [ggm]; rfl)
      rw [nameStep_of_some_pos p (depStep "depends_on".data p (moduleStep p (addrStep p (nameStep p m0)))) (prefixSegment p name) gg hcD,
        prefixSegment_idem]
      exact objSet_eq_self _ _ _ _ hAll4 (getStr_eq_some _ _ _ gg)
    · have hN := nameStep_of_some_neg p m0 name hn hc
      have gg : getStr (depStep "depends_on".data p (moduleStep p (addrStep p (nameStep p m0)))) "name".data = some name := by
        rw [getStr_congr _ _ _ gname, hN, hn]
      cases hm0 : getStr m0 "module".data with
      | none => exact absurd (Or.inl (by rw [hm0]; rfl)) hc
      | some a =>
        have ha : a ≠ [] := by
          intro hnil
          exact hc (Or.inr (by rw [hm0, hnil]; rfl))
        have hM := moduleStep_of_some_ne p (addrStep p (nameStep p m0)) a (by rw [gmA, hm0]) ha
        have ggm : getStr (depStep "depends_on".data p (moduleStep p (addrStep p (nameStep p m0)))) "module".data = some (rewriteModuleAddress p a) := by
          rw [getStr, gmod1, hM, objGet_objSet_same]
        have hcD : ¬ ((getStr (depStep "depends_on".data p (moduleStep p (addrStep p (nameStep p m0)))) "module".data).isSome = false ∨
            (getStr (depStep "depends_on".data p (moduleStep p (addrStep p (nameStep p m0)))) "module".data).getD [] = []) := by
          intro h
          rcases h with h | h
          · rw [ggm] at h
            exact absurd h (by simp)
          · rw [ggm] at h
            simp only [Option.getD_some] at h
            exact rewriteModuleAddress_ne_nil p a ha h
        exact nameStep_of_some_neg p (depStep "depends_on".data p (moduleStep p (addrStep p (nameStep p m0)))) name gg hcD

lemma resourceKeySteps_idem (p : GoStr) (m0 : Obj) (hp : '.' ∉ p) :
    resourceKeySteps p (resourceKeySteps p m0) = resourceKeySteps p m0 := by
  simp only [resourceKeySteps]
  rw [nameStep_fix_chain p m0 hp, addrStep_fix_chain p m0 hp,
    moduleStep_fix_chain p m0 hp, depStep_fix_chain p m0 hp]

lemma resourceKeySteps_fix_set (p : GoStr) (m0 : Obj) (ko : GoStr) (v : JVal)
    (hp : '.' ∉ p) (h1 : "name".data ≠ ko) (h2 : "address".data ≠ ko)
    (h3 : "module".data ≠ ko) (h4 : "depends_on".data ≠ ko) :
    resourceKeySteps p (objSet (resourceKeySteps p m0) ko v)
      = objSet (resourceKeySteps p m0) ko v := by
  simp only [resourceKeySteps]
  rw [nameStep_fix_set p _ ko v h1 h3 (nameStep_fix_chain p m0 hp),
    addrStep_fix_set p _ ko v h2 (addrStep_fix_chain p m0 hp),
    moduleStep_fix_set p _ ko v h3 (moduleStep_fix_chain p m0 hp),
    depStep_fix_set "depends_on".data p _ ko v h4 (depStep_fix_chain p m0 hp)]

/-- One entry of the `instances` array in `prefixResources` (run.go 434–448):
must be an object; its `dependencies` and `deposed` arrays are rewritten. -/
def rewriteInstance (p : GoStr) : JVal → Except GoStr JVal
  | .jobj inst =>
    .ok (.jobj (depStep "deposed".data p (depStep "dependencies".data p inst)))
  | _ => .error "instance has unexpected structure".data

lemma instSteps_idem (p : GoStr) (inst : Obj) (hp : '.' ∉ p) :
    depStep "deposed".data p (depStep "dependencies".data p
      (depStep "deposed".data p (depStep "dependencies".data p inst)))
    = depStep "deposed".data p (depStep "dependencies".data p inst) := by
  have hdc := depStep_cases "deposed".data p (depStep "dependencies".data p inst)
  cases hd : getArr inst "dependencies".data with
  | none =>
    have hA := depStep_of_none "dependencies".data p inst hd
    have g : getArr (depStep "deposed".data p (depStep "dependencies".data p inst))
        "dependencies".data = none := by
      rw [getArr_congr _ _ _ (objGet_chain_other _ _ "deposed".data "dependencies".data
        (by decide) hdc), hA, hd]
    rw [depStep_of_none "dependencies".data p _ g]
    exact depStep_idem "deposed".data p _ hp
  | some ds =>
    have hA := depStep_of_some "dependencies".data p inst ds hd
    have g : getArr (depStep "deposed".data p (depStep "dependencies".data p inst))
        "dependencies".data = some (rewriteDependencies ds p) := by
      rw [getArr, objGet_chain_other _ _ "deposed".data "dependencies".data
        (by decide) hdc, hA, objGet_objSet_same]
    have hAll1 : AllEq (depStep "dependencies".data p inst) "dependencies".data
        (.jarr (rewriteDependencies ds p)) := by
      rw [hA]
      exact allEq_objSet_same _ _ _
    have hAll2 : AllEq (depStep "deposed".data p (depStep "dependencies".data p inst))
        "dependencies".data (.jarr (rewriteDependencies ds p)) :=
      allEq_chain_other _ _ "deposed".data "dependencies".data _ (by decide) hAll1 hdc
    rw [depStep_of_some "dependencies".data p _ (rewriteDependencies ds p) g,
      rewriteDependencies_idem ds p hp,
      objSet_eq_self _ _ _ _ hAll2 (getArr_eq_some _ _ _ g)]
    exact depStep_idem "deposed".data p _ hp

lemma rewriteInstance_idem (p : GoStr) (hp : '.' ∉ p) (v w : JVal)
    (h : rewriteInstance p v = .ok w) : rewriteInstance p w = .ok w := by
  cases v with
  | jobj inst =>
    simp only [rewriteInstance, Except.ok.injEq] at h
    subst h
    simp only [rewriteInstance, Except.ok.injEq, JVal.jobj.injEq]
    exact instSteps_idem p inst hp
  | jnull => simp [rewriteInstance] at h
  | jbool b => simp [rewriteInstance] at h
  | jnum n => simp [rewriteInstance] at h
  | jstr s => simp [rewriteInstance] at h
  | jarr xs => simp [rewriteInstance] at h

/-- The `for idx, inst := range instancesRaw` loop with early error return. -/
def mapE (f : JVal → Except GoStr JVal) : List JVal → Except GoStr (List JVal)
  | [] => .ok []
  | x :: xs =>
    match f x with
    | .ok y =>
      match mapE f xs with
      | .ok ys => .ok (y :: ys)
      | .error e => .error e
    | .error e => .error e

lemma mapE_idem (f : JVal → Except GoStr JVal)
    (hf : ∀ v w, f v = .ok w → f w = .ok w) :
    ∀ xs ys, mapE f xs = .ok ys → mapE f ys = .ok ys := by
  intro xs
  induction xs with
  | nil =>
    intro ys h
    simp only [mapE, Except.ok.injEq] at h
    subst h
    rfl
  | cons x rest ih =>
    intro ys h
    cases hfx : f x with
    | error e => simp [mapE, hfx] at h
    | ok y =>
      cases hrest : mapE f rest with
      | error e => simp [mapE, hfx, hrest] at h
      | ok zs =>
        simp only [mapE, hfx, hrest, Except.ok.injEq] at h
        subst h
        rw [mapE, hf x y hfx, ih zs hrest]

/-- One entry of the `resources` array in `prefixResources` (run.go 408–448):
must be an object; its name, address, module, depends_on and instances
fields are rewritten in place. -/
def rewriteResource (p : GoStr) : JVal → Except GoStr JVal
  | .jobj m0 =>
    match getArr (resourceKeySteps p m0) "instances".data with
    | some insts =>
      match mapE (rewriteInstance p) insts with
      | .ok insts2 =>
        .ok (.jobj (objSet (resourceKeySteps p m0) "instances".data (.jarr insts2)))
      | .error e => .error e
    | none => .ok (.jobj (resourceKeySteps p m0))
  | _ => .error "resource has unexpected structure".data

lemma rewriteResource_idem (p : GoStr) (hp : '.' ∉ p) (v w : JVal)
    (h : rewriteResource p v = .ok w) : rewriteResource p w = .ok w := by
  cases v with
  | jobj m0 =>
    cases hi : getArr (resourceKeySteps p m0) "instances".data with
    | none =>
      simp only [rewriteResource, hi, Except.ok.injEq] at h
      subst h
      have hfix := resourceKeySteps_idem p m0 hp
      simp only [rewriteResource, hfix, hi]
    | some insts =>
      cases hmp : mapE (rewriteInstance p) insts with
      | error e => simp [rewriteResource, hi, hmp] at h
      | ok insts2 =>
        simp only [rewriteResource, hi, hmp, Except.ok.injEq] at h
        subst h
        have hfixset := resourceKeySteps_fix_set p m0 "instances".data (.jarr insts2) hp
          (by decide) (by decide) (by decide) (by decide)
        have hmp2 : mapE (rewriteInstance p) insts2 = .ok insts2 :=
          mapE_idem (rewriteInstance p) (rewriteInstance_idem p hp) insts insts2 hmp
        simp only [rewriteResource, hfixset, getArr_objSet_same, hmp2,
          objSet_objSet_self]
  | jnull => simp [rewriteResource] at h
  | jbool b => simp [rewriteResource] at h
  | jnum n => simp [rewriteResource] at h
  | jstr s => simp [rewriteResource] at h
  | jarr xs => simp [rewriteResource] at h

/-- One output value in `prefixOutputs` (run.go 467–472): if it is an object
with a `depends_on` array, that array is rewritten in place. -/
def prefixOutput1 (p : GoStr) (v : JVal) : JVal :=
  match v with
  | .jobj m => .jobj (depStep "depends_on".data p m)
  | _ => v

lemma prefixOutput1_idem (p : GoStr) (v : JVal) (hp : '.' ∉ p) :
    prefixOutput1 p (prefixOutput1 p v) = prefixOutput1 p v := by
  cases v with
  | jobj m =>
    simp only [prefixOutput1]
    rw [depStep_idem "depends_on".data p m hp]
  | jnull => rfl
  | jbool b => rfl
  | jnum n => rfl
  | jstr s2 => rfl
  | jarr xs => rfl

/-- `prefixOutputs` (run.go 454–478): rebuild the outputs map with prefixed
keys and rewritten `depends_on` arrays. -/
def prefixOutputs (p : GoStr) (state : Obj) : Obj :=
  match objGet state "outputs".data with
  | some (.jobj outputs) =>
    objSet state "outputs".data (.jobj (outputs.foldl
      (fun acc q => objSet acc (prefixSegment p q.1) (prefixOutput1 p q.2)) []))
  | _ => state

/-- The keys of an object, in binding order. -/
def objKeys (f : Obj) : List GoStr := f.map Prod.fst

lemma objKeys_objPut (f : Obj) (k : GoStr) (v : JVal) :
    objKeys (objPut f k v) = objKeys f := by
  induction f with
  | nil => rfl
  | cons q f' ih =>
    rw [objPut]
    by_cases hq : q.1 = k
    · rw [if_pos hq]
      simp only [objKeys, List.map_cons] at ih ⊢
      rw [ih]
    · rw [if_neg hq]
      simp only [objKeys, List.map_cons] at ih ⊢
      rw [ih]

lemma objHas_append (f g : Obj) (k : GoStr) :
    objHas (f ++ g) k = (objHas f k || objHas g k) := by
  induction f with
  | nil => rfl
  | cons q f' ih =>
    rw [List.cons_append, objHas, objHas, ih, Bool.or_assoc]

lemma not_mem_objKeys (f : Obj) (k : GoStr) (h : objHas f k = false) :
    k ∉ objKeys f := by
  intro hk
  obtain ⟨q, hq, hq1⟩ := List.mem_map.mp hk
  exact objHas_false_no_mem f k h q hq hq1

lemma nodup_objKeys_objSet (f : Obj) (k : GoStr) (v : JVal)
    (h : (objKeys f).Nodup) : (objKeys (objSet f k v)).Nodup := by
  rw [objSet]
  cases hh : objHas f k with
  | true =>
    rw [if_pos rfl, objKeys_objPut]
    exact h
  | false =>
    rw [if_neg Bool.false_ne_true]
    simp only [objKeys, List.map_append, List.map_cons, List.map_nil]
    rw [List.nodup_append]
    refine ⟨h, List.nodup_singleton _, ?_⟩
    intro a ha hb
    rw [List.mem_singleton.mp hb] at ha
    exact not_mem_objKeys f k hh ha

lemma mem_objPut (f : Obj) (k : GoStr) (v : JVal) (q : GoStr × JVal)
    (h : q ∈ objPut f k v) : (q.1 = k ∧ q.2 = v) ∨ q ∈ f := by
  induction f with
  | nil => cases h
  | cons q0 f' ih =>
    rw [objPut] at h
    rcases List.mem_cons.mp h with h1 | h1
    · by_cases hq0 : q0.1 = k
      · rw [if_pos hq0] at h1
        rw [h1]
        exact Or.inl ⟨hq0, rfl⟩
      · rw [if_neg hq0] at h1
        rw [h1]
        exact Or.inr (List.mem_cons_self _ _)
    · rcases ih h1 with h2 | h2
      · exact Or.inl h2
      · exact Or.inr (List.mem_cons_of_mem _ h2)

lemma mem_objSet (f : Obj) (k : GoStr) (v : JVal) (q : GoStr × JVal)
    (h : q ∈ objSet f k v) : (q.1 = k ∧ q.2 = v) ∨ q ∈ f := by
  rw [objSet] at h
  by_cases hh : objHas f k = true
  · rw [if_pos hh] at h
    exact mem_objPut f k v q h
  · rw [if_neg hh] at h
    rcases List.mem_append.mp h with h1 | h1
    · exact Or.inr h1
    · rw [List.mem_singleton.mp h1]
      exact Or.inl ⟨rfl, rfl⟩

/-- An output entry left unchanged by another pass of the rebuild loop. -/
def OutFixed (p : GoStr) (q : GoStr × JVal) : Prop :=
  prefixSegment p q.1 = q.1 ∧ prefixOutput1 p q.2 = q.2

lemma foldOut_fixed (p : GoStr) (hp : '.' ∉ p) :
    ∀ (f acc : Obj), (∀ q ∈ acc, OutFixed p q) →
      ∀ q ∈ f.foldl
        (fun acc q => objSet acc (prefixSegment p q.1) (prefixOutput1 p q.2)) acc,
        OutFixed p q := by
  intro f
  induction f with
  | nil =>
    intro acc hacc q hq
    exact hacc q hq
  | cons q0 f' ih =>
    intro acc hacc q hq
    simp only [List.foldl_cons] at hq
    refine ih _ ?_ q hq
    intro r hr
    rcases mem_objSet _ _ _ r hr with ⟨h1, h2⟩ | hr2
    · constructor
      · rw [h1, prefixSegment_idem]
      · rw [h2, prefixOutput1_idem p _ hp]
    · exact hacc r hr2

lemma foldOut_nodup (p : GoStr) :
    ∀ (f acc : Obj), (objKeys acc).Nodup →
      (objKeys (f.foldl
        (fun acc q => objSet acc (prefixSegment p q.1) (prefixOutput1 p q.2)) acc)).Nodup := by
  intro f
  induction f with
  | nil =>
    intro acc hacc
    exact hacc
  | cons q0 f' ih =>
    intro acc hacc
    simp only [List.foldl_cons]
    exact ih _ (nodup_objKeys_objSet _ _ _ hacc)

lemma foldOut_rebuild (p : GoStr) :
    ∀ (f acc : Obj), (∀ q ∈ f, OutFixed p q) → (objKeys f).Nodup →
      (∀ k, k ∈ objKeys f → objHas acc k = false) →
      f.foldl (fun acc q => objSet acc (prefixSegment p q.1) (prefixOutput1 p q.2)) acc
        = acc ++ f := by
  intro f
  induction f with
  | nil =>
    intro acc hfix hnod hdis
    simp
  | cons q0 f' ih =>
    intro acc hfix hnod hdis
    simp only [List.foldl_cons]
    have hfix0 := hfix q0 (List.mem_cons_self _ _)
    have hh : objHas acc q0.1 = false :=
      hdis q0.1 (by simp only [objKeys, List.map_cons]; exact List.mem_cons_self _ _)
    have hstep : objSet acc (prefixSegment p q0.1) (prefixOutput1 p q0.2) = acc ++ [q0] := by
      rw [hfix0.1, hfix0.2, objSet, if_neg (by rw [hh]; exact Bool.false_ne_true)]
    rw [hstep]
    have hnod2 : (objKeys (q0 :: f')).Nodup := hnod
    simp only [objKeys, List.map_cons, List.nodup_cons] at hnod2
    have hdis2 : ∀ k, k ∈ objKeys f' → objHas (acc ++ [q0]) k = false := by
      intro k hk
      have hk2 : k ∈ List.map Prod.fst f' := hk
      have hmem : k ∈ objKeys (q0 :: f') := by
        simp only [objKeys, List.map_cons]
        exact List.mem_cons_of_mem _ hk2
      rw [objHas_append, hdis k hmem]
      have hne : q0.1 ≠ k := by
        intro he
        apply hnod2.1
        rw [he]
        exact hk2
      simp [objHas, hne]
    have hre := ih (acc ++ [q0]) (fun q hq => hfix q (List.mem_cons_of_mem _ hq))
      hnod2.2 hdis2
    rw [hre, List.append_assoc]
    rfl

lemma prefixOutputs_cases (p : GoStr) (st : Obj) :
    prefixOutputs p st = st ∨ ∃ w, prefixOutputs p st = objSet st "outputs".data w := by
  cases ho : objGet st "outputs".data with
  | none => exact Or.inl (by simp only [prefixOutputs, ho])
  | some v =>
    cases v with
    | jobj outputs =>
      exact Or.inr ⟨.jobj (outputs.foldl (fun acc q => objSet acc (prefixSegment p q.1) (prefixOutput1 p q.2)) []), by simp only [prefixOutputs, ho]⟩
    | jnull => exact Or.inl (by simp only [prefixOutputs, ho])
    | jbool b => exact Or.inl (by simp only [prefixOutputs, ho])
    | jnum n => exact Or.inl (by simp only [prefixOutputs, ho])
    | jstr s2 => exact Or.inl (by simp only [prefixOutputs, ho])
    | jarr xs => exact Or.inl (by simp only [prefixOutputs, ho])

lemma prefixOutputs_idem (p : GoStr) (st : Obj) (hp : '.' ∉ p) :
    prefixOutputs p (prefixOutputs p st) = prefixOutputs p st := by
  cases ho : objGet st "outputs".data with
  | none =>
    have h1 : prefixOutputs p st = st := by simp only [prefixOutputs, ho]
    rw [h1]
    exact h1
  | some v =>
    cases v with
    | jobj outputs =>
      have h1 : prefixOutputs p st = objSet st "outputs".data (.jobj (outputs.foldl (fun acc q => objSet acc (prefixSegment p q.1) (prefixOutput1 p q.2)) [])) := by
        simp only [prefixOutputs, ho]
      have hfix : ∀ q ∈ (outputs.foldl (fun acc q => objSet acc (prefixSegment p q.1) (prefixOutput1 p q.2)) []), OutFixed p q :=
        foldOut_fixed p hp outputs [] (fun q hq => absurd hq (List.not_mem_nil q))
      have hnod : (objKeys (outputs.foldl (fun acc q => objSet acc (prefixSegment p q.1) (prefixOutput1 p q.2)) [])).Nodup :=
        foldOut_nodup p outputs [] List.nodup_nil
      have hre : ((outputs.foldl (fun acc q => objSet acc (prefixSegment p q.1) (prefixOutput1 p q.2)) [])).foldl
          (fun acc q => objSet acc (prefixSegment p q.1) (prefixOutput1 p q.2)) []
          = (outputs.foldl (fun acc q => objSet acc (prefixSegment p q.1) (prefixOutput1 p q.2)) []) := by
        rw [foldOut_rebuild p (outputs.foldl (fun acc q => objSet acc (prefixSegment p q.1) (prefixOutput1 p q.2)) []) [] hfix hnod (fun k hk => rfl), List.nil_append]
      have h2 : prefixOutputs p (objSet st "outputs".data (.jobj (outputs.foldl (fun acc q => objSet acc (prefixSegment p q.1) (prefixOutput1 p q.2)) [])))
          = objSet st "outputs".data (.jobj (outputs.foldl (fun acc q => objSet acc (prefixSegment p q.1) (prefixOutput1 p q.2)) [])) := by
        simp only [prefixOutputs, objGet_objSet_same, hre, objSet_objSet_self]
      rw [h1, h2]
    | jnull =>
      have h1 : prefixOutputs p st = st := by simp only [prefixOutputs, ho]
      rw [h1]
      exact h1
    | jbool b =>
      have h1 : prefixOutputs p st = st := by simp only [prefixOutputs, ho]
      rw [h1]
      exact h1
    | jnum n =>
      have h1 : prefixOutputs p st = st := by simp only [prefixOutputs, ho]
      rw [h1]
      exact h1
    | jstr s2 =>
      have h1 : prefixOutputs p st = st := by simp only [prefixOutputs, ho]
      rw [h1]
      exact h1
    | jarr xs =>
      have h1 : prefixOutputs p st = st := by simp only [prefixOutputs, ho]
      rw [h1]
      exact h1

/-- The per-stack snapshot rewrite applied by `Run` (run.go 223–228):
`prefixResources` (rewriting every resource entry in place, or failing on a
malformed document) followed by `prefixOutputs`. -/
def rewriteSnapshot (p : GoStr) (state : Obj) : Except GoStr Obj :=
  match objGet state "resources".data with
  | none => .ok (prefixOutputs p state)
  | some (.jarr resources) =>
    match mapE (rewriteResource p) resources with
    | .ok rs => .ok (prefixOutputs p (objSet state "resources".data (.jarr rs)))
    | .error e => .error e
  | some _ => .error "unexpected resources structure".data

/-- C4: for every snapshot document and every prefix free of the dot
separator — as every prefix assigned by Run is, being built from letters,
digits and underscores — applying the snapshot identifier rewrite
(resource names, addresses, module addresses, depends_on/dependencies
lists, output keys) twice gives the same result as applying it once. -/
theorem C4_theorem (p : GoStr) (s t : Obj) (hp : '.' ∉ p)
    (h : rewriteSnapshot p s = .ok t) : rewriteSnapshot p t = .ok t := by
  cases hr : objGet s "resources".data with
  | none =>
    simp only [rewriteSnapshot, hr, Except.ok.injEq] at h
    subst h
    have gres : objGet (prefixOutputs p s) "resources".data = none := by
      rw [objGet_chain_other s (prefixOutputs p s) "outputs".data "resources".data
        (by decide) (prefixOutputs_cases p s)]
      exact hr
    simp only [rewriteSnapshot, gres, prefixOutputs_idem p s hp]
  | some v =>
    cases v with
    | jarr resources =>
      cases hmp : mapE (rewriteResource p) resources with
      | error e => simp [rewriteSnapshot, hr, hmp] at h
      | ok rs =>
        simp only [rewriteSnapshot, hr, hmp, Except.ok.injEq] at h
        subst h
        have hpc := prefixOutputs_cases p (objSet s "resources".data (.jarr rs))
        have gres : objGet (prefixOutputs p (objSet s "resources".data (.jarr rs)))
            "resources".data = some (.jarr rs) := by
          rw [objGet_chain_other _ _ "outputs".data "resources".data (by decide) hpc]
          exact objGet_objSet_same _ _ _
        have hmp2 : mapE (rewriteResource p) rs = .ok rs :=
          mapE_idem (rewriteResource p) (rewriteResource_idem p hp) resources rs hmp
        have hAll : AllEq (prefixOutputs p (objSet s "resources".data (.jarr rs)))
            "resources".data (.jarr rs) :=
          allEq_chain_other _ _ "outputs".data "resources".data _ (by decide)
            (allEq_objSet_same s _ _) hpc
        have hset : objSet (prefixOutputs p (objSet s "resources".data (.jarr rs)))
            "resources".data (.jarr rs)
            = prefixOutputs p (objSet s "resources".data (.jarr rs)) :=
          objSet_eq_self _ _ _ _ hAll gres
        simp only [rewriteSnapshot, gres, hmp2, hset,
          prefixOutputs_idem p (objSet s "resources".data (.jarr rs)) hp]
    | jnull => simp [rewriteSnapshot, hr] at h
    | jbool b => simp [rewriteSnapshot, hr] at h
    | jnum n => simp [rewriteSnapshot, hr] at h
    | jstr s2 => simp [rewriteSnapshot, hr] at h
    | jobj fs => simp [rewriteSnapshot, hr] at h

theorem C4_witness :
    '.' ∉ "app".data ∧
    rewriteSnapshot "app".data
      ([("resources".data, .jarr [.jobj [
      ("name".data, .jstr "web".data),
      ("address".data, .jstr "null_resource.web".data),
      ("depends_on".data, .jarr [.jstr "module.net.vpc".data]),
      ("instances".data, .jarr [.jobj [("dependencies".data,
        .jarr [.jstr "data.aws_ami.base".data])]])]]),
    ("outputs".data, .jobj [("url".data, .jobj [("value".data, .jstr "x".data),
      ("depends_on".data, .jarr [.jstr "null_resource.web".data])])])])
      = .ok ([("resources".data, .jarr [.jobj [
      ("name".data, .jstr "app_web".data),
      ("address".data, .jstr "null_resource.app_web".data),
      ("depends_on".data, .jarr [.jstr "module.app_net.vpc".data]),
      ("instances".data, .jarr [.jobj [("dependencies".data,
        .jarr [.jstr "data.aws_ami.app_base".data])]])]]),
    ("outputs".data, .jobj [("app_url".data, .jobj [("value".data, .jstr "x".data),
      ("depends_on".data, .jarr [.jstr "null_resource.app_web".data])])])]) ∧
    rewriteSnapshot "app".data
      ([("resources".data, .jarr [.jobj [
      ("name".data, .jstr "app_web".data),
      ("address".data, .jstr "null_resource.app_web".data),
      ("depends_on".data, .jarr [.jstr "module.app_net.vpc".data]),
      ("instances".data, .jarr [.jobj [("dependencies".data,
        .jarr [.jstr "data.aws_ami.app_base".data])]])]]),
    ("outputs".data, .jobj [("app_url".data, .jobj [("value".data, .jstr "x".data),
      ("depends_on".data, .jarr [.jstr "null_resource.app_web".data])])])])
      = .ok ([("resources".data, .jarr [.jobj [
      ("name".data, .jstr "app_web".data),
      ("address".data, .jstr "null_resource.app_web".data),
      ("depends_on".data, .jarr [.jstr "module.app_net.vpc".data]),
      ("instances".data, .jarr [.jobj [("dependencies".data,
        .jarr [.jstr "data.aws_ami.app_base".data])]])]]),
    ("outputs".data, .jobj [("app_url".data, .jobj [("value".data, .jstr "x".data),
      ("depends_on".data, .jarr [.jstr "null_resource.app_web".data])])])]) :=
  ⟨by decide, by rfl,
    C4_theorem "app".data
      ([("resources".data, .jarr [.jobj [
      ("name".data, .jstr "web".data),
      ("address".data, .jstr "null_resource.web".data),
      ("depends_on".data, .jarr [.jstr "module.net.vpc".data]),
      ("instances".data, .jarr [.jobj [("dependencies".data,
        .jarr [.jstr "data.aws_ami.base".data])]])]]),
    ("outputs".data, .jobj [("url".data, .jobj [("value".data, .jstr "x".data),
      ("depends_on".data, .jarr [.jstr "null_resource.web".data])])])])
      ([("resources".data, .jarr [.jobj [
      ("name".data, .jstr "app_web".data),
      ("address".data, .jstr "null_resource.app_web".data),
      ("depends_on".data, .jarr [.jstr "module.app_net.vpc".data]),
      ("instances".data, .jarr [.jobj [("dependencies".data,
        .jarr [.jstr "data.aws_ami.app_base".data])]])]]),
    ("outputs".data, .jobj [("app_url".data, .jobj [("value".data, .jstr "x".data),
      ("depends_on".data, .jarr [.jstr "null_resource.app_web".data])])])])
      (by decide) (by rfl)⟩

lemma sanitizeRune_ne_dot (r : Char) : sanitizeRune r ≠ '.' := by
  rw [sanitizeRune]
  by_cases h : (goIsLetter r || goIsDigit r || r == '_') = true
  · rw [if_pos h]
    intro he
    subst he
    exact absurd h (by decide)
  · rw [if_neg h]
    decide

lemma sanitizeIdentifier_dot_free (name : GoStr) : '.' ∉ sanitizeIdentifier name := by
  rw [sanitizeIdentifier_eq_map]
  cases h : name.map sanitizeRune with
  | nil => simp
  | cons c r =>
    have hmem : ∀ x ∈ c :: r, x ≠ '.' := by
      intro x hx
      rw [← h] at hx
      obtain ⟨y, _, hxy⟩ := List.mem_map.mp hx
      rw [← hxy]
      exact sanitizeRune_ne_dot y
    show '.' ∉ (if goIsDigit c = true then '_' :: c :: r else c :: r)
    by_cases hd : goIsDigit c
    · rw [if_pos hd]
      intro hmem2
      rcases List.mem_cons.mp hmem2 with h1 | h1
      · simp at h1
      · exact hmem '.' h1 rfl
    · rw [if_neg hd]
      intro hmem2
      exact hmem '.' hmem2 rfl

lemma digitChar_ne_dot (n : Nat) : Nat.digitChar n ≠ '.' := by
  rcases Nat.lt_or_ge n 16 with h | h
  · interval_cases n <;> decide
  · intro he
    rw [Nat.digitChar] at he
    repeat rw [if_neg (by omega)] at he
    simp at he

lemma toDigitsCore_ne_dot (b : Nat) :
    ∀ (fuel n : Nat) (acc : List Char), (∀ c ∈ acc, c ≠ '.') →
      ∀ c ∈ Nat.toDigitsCore b fuel n acc, c ≠ '.' := by
  intro fuel
  induction fuel with
  | zero =>
    intro n acc h c hc
    exact h c hc
  | succ f ih =>
    intro n acc h c hc
    simp only [Nat.toDigitsCore] at hc
    by_cases hn : n / b = 0
    · rw [if_pos hn] at hc
      rcases List.mem_cons.mp hc with h1 | h1
      · rw [h1]
        exact digitChar_ne_dot _
      · exact h c h1
    · rw [if_neg hn] at hc
      refine ih (n / b) (Nat.digitChar (n % b) :: acc) ?_ c hc
      intro c2 hc2
      rcases List.mem_cons.mp hc2 with h1 | h1
      · rw [h1]
        exact digitChar_ne_dot _
      · exact h c2 h1

lemma natDigits_dot_free (n : Nat) : '.' ∉ natDigits n := by
  intro hmem
  exact toDigitsCore_ne_dot 10 (n + 1) n [] (fun c hc => absurd hc (List.not_mem_nil c))
    '.' hmem rfl

/-- Every prefix `superplan.Run` assigns to a stack is free of the dot
separator, so the hypothesis of `C4_theorem` holds for every prefix the
program actually uses. -/
lemma runStackName_dot_free (base : GoStr) (idx : Nat) :
    '.' ∉ runStackName base idx := by
  simp only [runStackName]
  by_cases h : sanitizeIdentifier base = []
  · rw [if_pos h]
    intro hmem
    rcases List.mem_append.mp hmem with h1 | h1
    · exact absurd h1 (by decide)
    · exact natDigits_dot_free idx h1
  · rw [if_neg h]
    exact sanitizeIdentifier_dot_free base

/-- `graph.Graph`: `map[string]*Stack`, as an association list with one
binding per key. -/
abbrev Graph := List (GoStr × Stack)

/-- The dependency list `TopoSort` iterates for a node (graph.go 102–106):
the node's entry, or — through `ensureStack`, which inserts a fresh
`Stack\x7bPath: path\x7d` with nil dependencies and changes no other
binding — the empty list when the node has no entry. -/
def lookupDeps (g : Graph) (n : GoStr) : List GoStr :=
  match g.find? (fun q => q.1 = n) with
  | some q => q.2.dependencies
  | none => []

/-- `a` depends directly on `b`. -/
def Edge (g : Graph) (a b : GoStr) : Prop := b ∈ lookupDeps g a

/-- No dependency cycle. -/
def Acyclic (g : Graph) : Prop := ¬ ∃ n, Relation.TransGen (Edge g) n n

/-- The mutable state of the depth-first traversal (graph.go 91–93):
the `visited` set, the `tempMark` set (as the stack of marks in the order
they were set), and the accumulated `order`. -/
structure DfsState where
  visited : List GoStr
  tempMark : List GoStr
  order : List GoStr
deriving Repr, DecidableEq

/-- Outcome of the traversal: the final state, the cycle error naming a
node (graph.go 98), or exhaustion of the termination fuel — an artifact of
the embedding that enough fuel rules out. -/
inductive SortRes where
  | ok (st : DfsState)
  | cycle (node : GoStr)
  | out
deriving Repr, DecidableEq

mutual
/-- `visit` (graph.go 96–116). -/
def visit (g : Graph) (fuel : Nat) (node : GoStr) (st : DfsState) : SortRes :=
  match fuel with
  | 0 => .out
  | fuel' + 1 =>
    if node ∈ st.tempMark then .cycle node
    else if node ∈ st.visited then .ok st
    else
      match visitDeps g fuel' (lookupDeps g node)
          ⟨st.visited, node :: st.tempMark, st.order⟩ with
      | .ok st2 => .ok ⟨node :: st2.visited, st2.tempMark.erase node, st2.order ++ [node]⟩
      | r => r
termination_by (fuel, 0)

/-- The `for _, dep := range stack.Dependencies` loop with early error
return (graph.go 106–110). -/
def visitDeps (g : Graph) (fuel : Nat) (ds : List GoStr) (st : DfsState) : SortRes :=
  match ds with
  | [] => .ok st
  | d :: ds' =>
    match visit g fuel d st with
    | .ok st2 => visitDeps g fuel ds' st2
    | r => r
termination_by (fuel, ds.length + 1)
end

/-- The outer `for node := range g` loop (graph.go 118–124), iterating the
keys in the order given — Go ranges over map keys in unspecified order, so
the theorems below hold for the key list as such. -/
def sortFold (g : Graph) (fuel : Nat) : List GoStr → DfsState → SortRes
  | [], st => .ok st
  | n :: ns, st =>
    if n ∈ st.visited then sortFold g fuel ns st
    else
      match visit g fuel n st with
      | .ok st2 => sortFold g fuel ns st2
      | r => r

/-- `TopoSort` (graph.go 90–127); on `.cycle c` the Go function returns the
error `cycle detected involving <c>` and a nil order. -/
def TopoSort (g : Graph) (fuel : Nat) : SortRes :=
  sortFold g fuel (g.map Prod.fst) ⟨[], [], []⟩

lemma lookupDeps_closed (g : Graph)
    (hclosed : ∀ q ∈ g, ∀ d ∈ q.2.dependencies, d ∈ g.map Prod.fst)
    (n d : GoStr) (hd : d ∈ lookupDeps g n) : d ∈ g.map Prod.fst := by
  rw [lookupDeps] at hd
  cases hf : g.find? (fun q => q.1 = n) with
  | none =>
    rw [hf] at hd
    cases hd
  | some q =>
    rw [hf] at hd
    exact hclosed q (List.mem_of_find?_eq_some hf) d hd

lemma edge_src_mem (g : Graph) (a b : GoStr) (h : Edge g a b) : a ∈ g.map Prod.fst := by
  rw [Edge, lookupDeps] at h
  cases hf : g.find? (fun q => q.1 = a) with
  | none =>
    rw [hf] at h
    cases h
  | some q =>
    have hq := List.find?_some hf
    simp only [decide_eq_true_eq] at hq
    rw [← hq]
    exact List.mem_map_of_mem Prod.fst (List.mem_of_find?_eq_some hf)

/-- The `tempMark` stack read newest-first: each mark depends on the one
set just after it. -/
def StackChain (g : Graph) : List GoStr → Prop
  | [] => True
  | [_] => True
  | a :: b :: r => Edge g b a ∧ StackChain g (b :: r)

lemma stackChain_reach (g : Graph) (c0 : GoStr) (rest : List GoStr)
    (hch : StackChain g (c0 :: rest)) :
    ∀ n ∈ c0 :: rest, n = c0 ∨ Relation.TransGen (Edge g) n c0 := by
  induction rest generalizing c0 with
  | nil =>
    intro n hn
    exact Or.inl (List.mem_singleton.mp hn)
  | cons c1 rest2 ih =>
    intro n hn
    rw [StackChain] at hch
    rcases List.mem_cons.mp hn with h1 | h1
    · exact Or.inl h1
    · rcases ih c1 hch.2 n h1 with h2 | h2
      · subst h2
        exact Or.inr (Relation.TransGen.single hch.1)
      · exact Or.inr (h2.tail hch.1)

/-- An order in which every node is appended only after all the
dependencies the traversal reads for it. -/
inductive TopoOK (g : Graph) : List GoStr → Prop where
  | nil : TopoOK g []
  | snoc (ord : List GoStr) (n : GoStr) (h : TopoOK g ord)
      (hd : ∀ d ∈ lookupDeps g n, d ∈ ord) : TopoOK g (ord ++ [n])

lemma topoOK_splits (g : Graph) (ord : List GoStr) (h : TopoOK g ord) :
    ∀ l1 n l2, ord = l1 ++ n :: l2 → ∀ d ∈ lookupDeps g n, d ∈ l1 := by
  induction h with
  | nil =>
    intro l1 n l2 he
    exact absurd he.symm (List.append_ne_nil_of_right_ne_nil l1 (List.cons_ne_nil n l2))
  | snoc ord0 n0 h0 hd0 ih =>
    intro l1 n l2 he
    rcases List.eq_nil_or_concat l2 with h2 | ⟨l2i, lastE, h2⟩
    · subst h2
      have he2 : ord0 ++ [n0] = l1 ++ [n] := he
      have hlen : ord0.length = l1.length := by
        have := congrArg List.length he2
        simp at this
        exact this
      obtain ⟨ho, hn⟩ := List.append_inj he2 hlen
      have hn0 : n0 = n := by
        simp only [List.cons.injEq] at hn
        exact hn.1
      subst hn0
      rw [← ho]
      exact hd0
    · subst h2
      have he2 : ord0 ++ [n0] = (l1 ++ n :: l2i) ++ [lastE] := by
        rw [he]
        simp
      have hlen : ord0.length = (l1 ++ n :: l2i).length := by
        have := congrArg List.length he2
        simp at this
        simp
        omega
      obtain ⟨ho, _⟩ := List.append_inj he2 hlen
      exact ih l1 n l2i ho

lemma acc_no_self {α : Type} {R : α → α → Prop} {a : α} (h : Acc R a) : ¬ R a a := by
  induction h with
  | intro x _ ih =>
    intro hxx
    exact ih x hxx hxx

lemma topoOK_acc (g : Graph) (ord : List GoStr) (h : TopoOK g ord) :
    ∀ n ∈ ord, Acc (fun b a => Edge g a b) n := by
  induction h with
  | nil =>
    intro n hn
    cases hn
  | snoc ord0 n0 _ hd0 ih =>
    intro m hm
    rcases List.mem_append.mp hm with h1 | h1
    · exact ih m h1
    · rw [List.mem_singleton.mp h1]
      constructor
      intro b hb
      exact ih b (hd0 b hb)

lemma topoOK_acyclic (g : Graph) (ord : List GoStr) (h : TopoOK g ord)
    (hall : ∀ a b, Edge g a b → a ∈ ord) : Acyclic g := by
  rintro ⟨n, hn⟩
  have hmem : n ∈ ord := by
    rcases (Relation.TransGen.head'_iff (r := Edge g)).mp hn with ⟨b, hb, _⟩
    exact hall n b hb
  have hacc : Acc (fun b a => Edge g a b) n := topoOK_acc g ord h n hmem
  have hacc2 : Acc (Relation.TransGen (fun b a => Edge g a b)) n := hacc.transGen
  have hsm : Relation.TransGen (fun b a => Edge g a b) n n := by
    have := (Relation.transGen_swap (r := Edge g) (a := n) (b := n)).mpr hn
    exact this
  exact acc_no_self hacc2 hsm

/-- The traversal invariant. -/
structure Inv (g : Graph) (st : DfsState) : Prop where
  vNodup : st.visited.Nodup
  oNodup : st.order.Nodup
  memIff : ∀ x, x ∈ st.order ↔ x ∈ st.visited
  topo : TopoOK g st.order
  vKeys : ∀ x ∈ st.visited, x ∈ g.map Prod.fst
  tNodup : st.tempMark.Nodup
  tKeys : ∀ x ∈ st.tempMark, x ∈ g.map Prod.fst
  chain : StackChain g st.tempMark
  disj : ∀ x ∈ st.tempMark, x ∉ st.visited

/-- When the mark stack is nonempty, its top depends on the node about to
be visited. -/
def Pending (g : Graph) (tm : List GoStr) (node : GoStr) : Prop :=
  ∀ c0 rest, tm = c0 :: rest → Edge g c0 node

/-- Specification of `visit` at a given fuel. -/
def Pvisit (g : Graph) (fuel : Nat) : Prop :=
  ∀ node st, Inv g st → node ∈ g.map Prod.fst →
    (g.map Prod.fst).length + 1 ≤ fuel + st.tempMark.length →
    Pending g st.tempMark node →
    match visit g fuel node st with
    | .out => False
    | .cycle c => Relation.TransGen (Edge g) c c
    | .ok st2 => Inv g st2 ∧ st2.tempMark = st.tempMark ∧
        (∃ growth, st2.order = st.order ++ growth) ∧
        (∀ x ∈ st.visited, x ∈ st2.visited) ∧ node ∈ st2.visited

/-- Specification of `visitDeps` at a given fuel. -/
def PvisitDeps (g : Graph) (fuel : Nat) : Prop :=
  ∀ ds st parent rest0, Inv g st → (∀ d ∈ ds, d ∈ g.map Prod.fst) →
    (g.map Prod.fst).length + 1 ≤ fuel + st.tempMark.length →
    st.tempMark = parent :: rest0 →
    (∀ d ∈ ds, Edge g parent d) →
    match visitDeps g fuel ds st with
    | .out => False
    | .cycle c => Relation.TransGen (Edge g) c c
    | .ok st2 => Inv g st2 ∧ st2.tempMark = st.tempMark ∧
        (∃ growth, st2.order = st.order ++ growth) ∧
        (∀ x ∈ st.visited, x ∈ st2.visited) ∧ (∀ d ∈ ds, d ∈ st2.visited)

lemma tempMark_le_keys (g : Graph) (st : DfsState) (hinv : Inv g st) :
    st.tempMark.length ≤ (g.map Prod.fst).length :=
  (List.subperm_of_subset hinv.tNodup (fun x hx => hinv.tKeys x hx)).length_le

lemma dfs_spec (g : Graph)
    (hclosed : ∀ q ∈ g, ∀ d ∈ q.2.dependencies, d ∈ g.map Prod.fst) :
    ∀ fuel, Pvisit g fuel ∧ PvisitDeps g fuel := by
  intro fuel
  induction fuel with
  | zero =>
    constructor
    · intro node st hinv _ hbound _
      have hlen := tempMark_le_keys g st hinv
      exact absurd hbound (by omega)
    · intro ds st parent rest0 hinv _ hbound _ _
      have hlen := tempMark_le_keys g st hinv
      exact absurd hbound (by omega)
  | succ f ihf =>
    have hPd : PvisitDeps g f := ihf.2
    have hPv : Pvisit g (f + 1) := by
      intro node st hinv hkeys hbound hpend
      simp only [visit]
      by_cases hmark : node ∈ st.tempMark
      · rw [if_pos hmark]
        cases htm : st.tempMark with
        | nil =>
          rw [htm] at hmark
          cases hmark
        | cons c0 rest =>
          have hedge : Edge g c0 node := hpend c0 rest htm
          have hch : StackChain g (c0 :: rest) := by
            have hc := hinv.chain
            rw [htm] at hc
            exact hc
          rcases stackChain_reach g c0 rest hch node (by rw [← htm]; exact hmark) with he | he
          · subst he
            exact Relation.TransGen.single hedge
          · exact he.tail hedge
      · rw [if_neg hmark]
        by_cases hvis : node ∈ st.visited
        · rw [if_pos hvis]
          exact ⟨hinv, rfl, ⟨[], by simp⟩, fun x hx => hx, hvis⟩
        · rw [if_neg hvis]
          have hinv1 : Inv g ⟨st.visited, node :: st.tempMark, st.order⟩ := by
            refine ⟨hinv.vNodup, hinv.oNodup, hinv.memIff, hinv.topo, hinv.vKeys,
              ?_, ?_, ?_, ?_⟩
            · exact List.nodup_cons.mpr ⟨hmark, hinv.tNodup⟩
            · intro x hx
              rcases List.mem_cons.mp hx with h1 | h1
              · rw [h1]
                exact hkeys
              · exact hinv.tKeys x h1
            · show StackChain g (node :: st.tempMark)
              cases htm : st.tempMark with
              | nil => exact trivial
              | cons c0 rest =>
                show Edge g c0 node ∧ StackChain g (c0 :: rest)
                refine ⟨hpend c0 rest htm, ?_⟩
                have hc := hinv.chain
                rw [htm] at hc
                exact hc
            · intro x hx
              rcases List.mem_cons.mp hx with h1 | h1
              · rw [h1]
                exact hvis
              · exact hinv.disj x h1
          have hkeysds : ∀ d ∈ lookupDeps g node, d ∈ g.map Prod.fst :=
            fun d hd => lookupDeps_closed g hclosed node d hd
          have hbound1 : (g.map Prod.fst).length + 1 ≤
              f + (DfsState.mk st.visited (node :: st.tempMark) st.order).tempMark.length := by
            simp only [List.length_cons]
            omega
          have hspec := hPd (lookupDeps g node) ⟨st.visited, node :: st.tempMark, st.order⟩
            node st.tempMark hinv1 hkeysds hbound1 rfl (fun d hd => hd)
          cases hres : visitDeps g f (lookupDeps g node)
              ⟨st.visited, node :: st.tempMark, st.order⟩ with
          | out =>
            rw [hres] at hspec
            exact hspec
          | cycle c =>
            rw [hres] at hspec
            exact hspec
          | ok st2 =>
            rw [hres] at hspec
            obtain ⟨hinv2, htm2, ⟨growth, hord⟩, hmono, hdmem⟩ := hspec
            have htm3 : st2.tempMark.erase node = st.tempMark := by
              rw [htm2]
              exact List.erase_cons_head node st.tempMark
            have hnodevis : node ∉ st2.visited := by
              apply hinv2.disj node
              rw [htm2]
              exact List.mem_cons_self _ _
            have hnodeord : node ∉ st2.order := fun ho => hnodevis ((hinv2.memIff node).mp ho)
            refine ⟨⟨?_, ?_, ?_, ?_, ?_, ?_, ?_, ?_, ?_⟩, ?_, ?_, ?_, ?_⟩
            · exact List.nodup_cons.mpr ⟨hnodevis, hinv2.vNodup⟩
            · refine List.nodup_append.mpr ⟨hinv2.oNodup, List.nodup_singleton node, ?_⟩
              intro a ha hb
              rw [List.mem_singleton.mp hb] at ha
              exact hnodeord ha
            · intro x
              simp only [List.mem_append, List.mem_singleton, List.mem_cons,
                List.not_mem_nil, or_false, hinv2.memIff x]
              exact or_comm
            · exact TopoOK.snoc _ node hinv2.topo
                (fun d hd => (hinv2.memIff d).mpr (hdmem d hd))
            · intro x hx
              rcases List.mem_cons.mp hx with h1 | h1
              · rw [h1]
                exact hkeys
              · exact hinv2.vKeys x h1
            · show (st2.tempMark.erase node).Nodup
              rw [htm3]
              exact hinv.tNodup
            · show ∀ x ∈ st2.tempMark.erase node, x ∈ g.map Prod.fst
              rw [htm3]
              exact hinv.tKeys
            · show StackChain g (st2.tempMark.erase node)
              rw [htm3]
              exact hinv.chain
            · show ∀ x ∈ st2.tempMark.erase node, x ∉ node :: st2.visited
              rw [htm3]
              intro x hx hxv
              rcases List.mem_cons.mp hxv with h1 | h1
              · rw [h1] at hx
                exact hmark hx
              · refine hinv2.disj x ?_ h1
                rw [htm2]
                exact List.mem_cons_of_mem _ hx
            · exact htm3
            · exact ⟨growth ++ [node], by rw [hord, List.append_assoc]⟩
            · exact fun x hx => List.mem_cons_of_mem _ (hmono x hx)
            · exact List.mem_cons_self _ _
    refine ⟨hPv, ?_⟩
    intro ds
    induction ds with
    | nil =>
      intro st parent rest0 hinv _ _ _ _
      have he : visitDeps g (f + 1) [] st = .ok st := by simp only [visitDeps]
      rw [he]
      exact ⟨hinv, rfl, ⟨[], by simp⟩, fun x hx => hx,
        fun d hd => absurd hd (List.not_mem_nil d)⟩
    | cons d ds2 ih =>
      intro st parent rest0 hinv hkeys hbound htm hedges
      simp only [visitDeps]
      have hpend : Pending g st.tempMark d := by
        intro c0 rest hr
        rw [htm] at hr
        injection hr with h1 h2
        rw [← h1]
        exact hedges d (List.mem_cons_self _ _)
      have hv := hPv d st hinv (hkeys d (List.mem_cons_self _ _)) hbound hpend
      cases hres : visit g (f + 1) d st with
      | out =>
        rw [hres] at hv
        exact hv
      | cycle c =>
        rw [hres] at hv
        exact hv
      | ok st2 =>
        rw [hres] at hv
        dsimp only
        obtain ⟨hinv2, htm2, ⟨g1, hord1⟩, hmono1, hdmem⟩ := hv
        have hrec := ih st2 parent rest0 hinv2
          (fun d2 hd2 => hkeys d2 (List.mem_cons_of_mem _ hd2))
          (by rw [htm2]; exact hbound) (htm2.trans htm)
          (fun d2 hd2 => hedges d2 (List.mem_cons_of_mem _ hd2))
        cases hres2 : visitDeps g (f + 1) ds2 st2 with
        | out =>
          rw [hres2] at hrec
          exact hrec
        | cycle c =>
          rw [hres2] at hrec
          exact hrec
        | ok st3 =>
          rw [hres2] at hrec
          obtain ⟨hinv3, htm3, ⟨g2, hord2⟩, hmono2, hdsmem⟩ := hrec
          refine ⟨hinv3, htm3.trans htm2, ⟨g1 ++ g2, ?_⟩,
            fun x hx => hmono2 x (hmono1 x hx), ?_⟩
          · rw [hord2, hord1, List.append_assoc]
          · intro d2 hd2
            rcases List.mem_cons.mp hd2 with h1 | h1
            · rw [h1]
              exact hmono2 d hdmem
            · exact hdsmem d2 h1

lemma sortFold_spec (g : Graph)
    (hclosed : ∀ q ∈ g, ∀ d ∈ q.2.dependencies, d ∈ g.map Prod.fst)
    (fuel : Nat) (hfuel : (g.map Prod.fst).length + 1 ≤ fuel) :
    ∀ ns st, Inv g st → st.tempMark = [] → (∀ n ∈ ns, n ∈ g.map Prod.fst) →
      match sortFold g fuel ns st with
      | .out => False
      | .cycle c => Relation.TransGen (Edge g) c c
      | .ok st2 => Inv g st2 ∧ (∀ x ∈ st.visited, x ∈ st2.visited) ∧
          (∀ n ∈ ns, n ∈ st2.visited) := by
  intro ns
  induction ns with
  | nil =>
    intro st hinv htm hns
    have he : sortFold g fuel [] st = .ok st := rfl
    rw [he]
    exact ⟨hinv, fun x hx => hx, fun n hn => absurd hn (List.not_mem_nil n)⟩
  | cons n ns2 ih =>
    intro st hinv htm hns
    by_cases hvis : n ∈ st.visited
    · have he : sortFold g fuel (n :: ns2) st = sortFold g fuel ns2 st := by
        simp only [sortFold, if_pos hvis]
      rw [he]
      have hrec := ih st hinv htm (fun m hm => hns m (List.mem_cons_of_mem _ hm))
      cases hres : sortFold g fuel ns2 st with
      | out =>
        rw [hres] at hrec
        exact hrec
      | cycle c =>
        rw [hres] at hrec
        exact hrec
      | ok st2 =>
        rw [hres] at hrec
        obtain ⟨hinv2, hmono, hmem⟩ := hrec
        refine ⟨hinv2, hmono, ?_⟩
        intro m hm
        rcases List.mem_cons.mp hm with h1 | h1
        · rw [h1]
          exact hmono n hvis
        · exact hmem m h1
    · have hv := (dfs_spec g hclosed fuel).1 n st hinv (hns n (List.mem_cons_self _ _))
        (by rw [htm]; simpa using hfuel)
        (by intro c0 rest hr; rw [htm] at hr; simp at hr)
      have he : sortFold g fuel (n :: ns2) st =
          match visit g fuel n st with
          | .ok st2 => sortFold g fuel ns2 st2
          | r => r := by
        simp only [sortFold, if_neg hvis]
      rw [he]
      cases hres : visit g fuel n st with
      | out =>
        rw [hres] at hv
        exact hv
      | cycle c =>
        rw [hres] at hv
        exact hv
      | ok st2 =>
        rw [hres] at hv
        dsimp only
        obtain ⟨hinv2, htm2, _, hmono1, hnmem⟩ := hv
        have hrec := ih st2 hinv2 (htm2.trans htm)
          (fun m hm => hns m (List.mem_cons_of_mem _ hm))
        cases hres2 : sortFold g fuel ns2 st2 with
        | out =>
          rw [hres2] at hrec
          exact hrec
        | cycle c =>
          rw [hres2] at hrec
          exact hrec
        | ok st3 =>
          rw [hres2] at hrec
          obtain ⟨hinv3, hmono2, hmem2⟩ := hrec
          refine ⟨hinv3, fun x hx => hmono2 x (hmono1 x hx), ?_⟩
          intro m hm
          rcases List.mem_cons.mp hm with h1 | h1
          · rw [h1]
            exact hmono2 n hnmem
          · exact hmem2 m h1

/-- C3: for every dependency-closed graph with distinct keys and enough
fuel, TopoSort either returns a state whose order is a permutation of all
nodes in which every stack's dependencies appear before the stack itself,
or a cycle error naming a node that lies on a dependency cycle — the two
outcomes are distinct constructors, so never both — and it returns an
ordering exactly when the graph is acyclic. -/
theorem C3_theorem (g : Graph) (fuel : Nat)
    (hclosed : ∀ q ∈ g, ∀ d ∈ q.2.dependencies, d ∈ g.map Prod.fst)
    (hnodup : (g.map Prod.fst).Nodup)
    (hfuel : (g.map Prod.fst).length + 1 ≤ fuel) :
    (∀ st, TopoSort g fuel = .ok st →
      List.Perm st.order (g.map Prod.fst) ∧
      (∀ l1 n l2, st.order = l1 ++ n :: l2 → ∀ d ∈ lookupDeps g n, d ∈ l1) ∧
      Acyclic g) ∧
    (∀ c, TopoSort g fuel = .cycle c →
      Relation.TransGen (Edge g) c c ∧ ¬ Acyclic g) ∧
    TopoSort g fuel ≠ .out ∧
    ((∃ st, TopoSort g fuel = .ok st) ↔ Acyclic g) := by
  have hinv0 : Inv g ⟨[], [], []⟩ :=
    ⟨List.nodup_nil, List.nodup_nil, fun x => Iff.rfl, TopoOK.nil,
     fun x hx => absurd hx (List.not_mem_nil x), List.nodup_nil,
     fun x hx => absurd hx (List.not_mem_nil x), trivial,
     fun x hx => absurd hx (List.not_mem_nil x)⟩
  have hspec := sortFold_spec g hclosed fuel hfuel (g.map Prod.fst) ⟨[], [], []⟩ hinv0 rfl
    (fun n hn => hn)
  have hok : ∀ st, TopoSort g fuel = .ok st →
      List.Perm st.order (g.map Prod.fst) ∧
      (∀ l1 n l2, st.order = l1 ++ n :: l2 → ∀ d ∈ lookupDeps g n, d ∈ l1) ∧
      Acyclic g := by
    intro st hres
    rw [TopoSort] at hres
    rw [hres] at hspec
    obtain ⟨hinv2, _, hall⟩ := hspec
    have hperm_vk : List.Perm st.visited (g.map Prod.fst) :=
      List.Subperm.antisymm
        (List.subperm_of_subset hinv2.vNodup (fun x hx => hinv2.vKeys x hx))
        (List.subperm_of_subset hnodup (fun x hx => hall x hx))
    have hperm_ov : List.Perm st.order st.visited :=
      List.Subperm.antisymm
        (List.subperm_of_subset hinv2.oNodup (fun x hx => (hinv2.memIff x).mp hx))
        (List.subperm_of_subset hinv2.vNodup (fun x hx => (hinv2.memIff x).mpr hx))
    refine ⟨hperm_ov.trans hperm_vk, topoOK_splits g st.order hinv2.topo, ?_⟩
    refine topoOK_acyclic g st.order hinv2.topo ?_
    intro a b hedge
    exact (hinv2.memIff a).mpr (hall a (edge_src_mem g a b hedge))
  refine ⟨hok, ?_, ?_, ?_⟩
  · intro c hres
    rw [TopoSort] at hres
    rw [hres] at hspec
    exact ⟨hspec, fun hacyc => hacyc ⟨c, hspec⟩⟩
  · intro hres
    rw [TopoSort] at hres
    rw [hres] at hspec
    exact hspec
  · constructor
    · rintro ⟨st, hres⟩
      exact (hok st hres).2.2
    · intro hacyc
      cases hres : TopoSort g fuel with
      | ok st => exact ⟨st, rfl⟩
      | cycle c =>
        rw [TopoSort] at hres
        rw [hres] at hspec
        exact absurd hacyc (fun ha => ha ⟨c, hspec⟩)
      | out =>
        rw [TopoSort] at hres
        rw [hres] at hspec
        exact hspec.elim

theorem C3_witness :
    (∀ q ∈ ([("/r/a".data, Stack.mk "/r/a".data ["/r/b".data] false), ("/r/b".data, Stack.mk "/r/b".data [] false)] : Graph), ∀ d ∈ q.2.dependencies,
      d ∈ ([("/r/a".data, Stack.mk "/r/a".data ["/r/b".data] false), ("/r/b".data, Stack.mk "/r/b".data [] false)] : Graph).map Prod.fst) ∧
    (([("/r/a".data, Stack.mk "/r/a".data ["/r/b".data] false), ("/r/b".data, Stack.mk "/r/b".data [] false)] : Graph).map Prod.fst).Nodup ∧
    TopoSort ([("/r/a".data, Stack.mk "/r/a".data ["/r/b".data] false), ("/r/b".data, Stack.mk "/r/b".data [] false)] : Graph) 3 ≠ .out ∧
    ((∃ st, TopoSort ([("/r/a".data, Stack.mk "/r/a".data ["/r/b".data] false), ("/r/b".data, Stack.mk "/r/b".data [] false)] : Graph) 3 = .ok st) ↔
      Acyclic ([("/r/a".data, Stack.mk "/r/a".data ["/r/b".data] false), ("/r/b".data, Stack.mk "/r/b".data [] false)] : Graph)) :=
  ⟨by decide, by decide,
    (C3_theorem ([("/r/a".data, Stack.mk "/r/a".data ["/r/b".data] false), ("/r/b".data, Stack.mk "/r/b".data [] false)] : Graph) 3 (by decide) (by decide) (by decide)).2.2⟩

end TW
